import Mathlib

/-!
# `backend/services/ai.service.js`: `generateResult`

A shallow embedding of the completion gateway.  JavaScript strings are sequences of
UTF-16 code units; the runtime operations the function calls (`String.prototype.trim`,
`startsWith`, the global regular-expression `replace`, `JSON.parse`, `JSON.stringify`)
are embedded as executable functions on code-unit lists, following ECMA-262.
The provider call is the one external collaborator and is a parameter.
-/

namespace AiService

/-! ## Strings -/

/-- A JavaScript string: its UTF-16 code units (each below 65536). -/
abbrev JSString := List Nat

/-- UTF-16 encoding of a text literal. -/
def utf16 (s : String) : JSString :=
  s.toList.flatMap fun c =>
    if c.toNat < 65536 then [c.toNat]
    else [55296 + (c.toNat - 65536) / 1024, 56320 + (c.toNat - 65536) % 1024]

/-- White space and line terminators removed by `String.prototype.trim`:
TAB, LF, VT, FF, CR, SP, NBSP, U+1680, U+2000..U+200A, LS, PS, U+202F, U+205F, U+3000, BOM. -/
def isWhiteSpace (c : Nat) : Bool :=
  c = 9 || c = 10 || c = 11 || c = 12 || c = 13 || c = 32 || c = 160 || c = 5760 ||
  (8192 ≤ c && c ≤ 8202) || c = 8232 || c = 8233 || c = 8239 || c = 8287 || c = 12288 ||
  c = 65279

def trimStart (s : JSString) : JSString := s.dropWhile isWhiteSpace

def trimEnd (s : JSString) : JSString := (s.reverse.dropWhile isWhiteSpace).reverse

/-- The method `String.prototype.trim`. -/
def trim (s : JSString) : JSString := trimStart (trimEnd s)

/-- The code unit of the backtick. -/
abbrev backtick : Nat := 96

/-- The test `rawOutput.startsWith("```")`. -/
def startsWithFence : JSString → Bool
  | 96 :: 96 :: 96 :: _ => true
  | _ => false

/-- The call `rawOutput.replace(/```json|```/g, "")`: scanning left to right, at each position
the alternative with the language tag is tried first, then the bare fence; a match is
dropped and scanning resumes after it, any other code unit is copied. -/
def stripFences : JSString → JSString
  | 96 :: 96 :: 96 :: 106 :: 115 :: 111 :: 110 :: rest => stripFences rest
  | 96 :: 96 :: 96 :: rest => stripFences rest
  | c :: rest => c :: stripFences rest
  | [] => []

/-- Three consecutive backticks occur somewhere in the string. -/
def hasFence : JSString → Bool
  | 96 :: 96 :: 96 :: _ => true
  | _ :: rest => hasFence rest
  | [] => false

/-- The text handed to `JSON.parse`, from the provider response's `text`
(`none` for an absent field): `response.text?.trim() || ""`, then the fence removal
under its `startsWith` guard. -/
def normalize (text : Option JSString) : JSString :=
  let rawOutput := match text with
    | some t => if trim t = [] then [] else trim t
    | none => []
  if startsWithFence rawOutput then trim (stripFences rawOutput) else rawOutput

/-! ## Numbers

`JSON.parse` turns a decimal literal into the nearest IEEE-754 binary64 value (ties to
even); `JSON.stringify` prints a finite value with `Number::toString`, the shortest decimal
that reads back as the same value, and prints a non-finite value as `null`. -/

/-- The binary64 values `JSON.parse` can produce: `finite neg m e` is `(-1)^neg * m * 2^e`
(zero is `m = 0`), `infinite neg` is an overflowed literal. -/
inductive JSNumber where
  | finite (neg : Bool) (m : Nat) (e : Int)
  | infinite (neg : Bool)
deriving DecidableEq, Repr

/-- The position of the highest set bit, searched over `fuel` halvings. -/
def log2Aux : Nat → Nat → Nat
  | 0, _ => 0
  | fuel + 1, n => if n < 2 then 0 else log2Aux fuel (n / 2) + 1

/-- The integer part of the binary logarithm: `2^(log2 n) ≤ n < 2^(log2 n + 1)` for `n > 0`. -/
def log2 (n : Nat) : Nat := log2Aux n n

/-- The fraction `a / (b * 2^e)` as a numerator and a denominator. -/
def scaleBinary (a b : Nat) (e : Int) : Nat × Nat :=
  if 0 ≤ e then (a, b * 2 ^ e.toNat) else (a * 2 ^ (-e).toNat, b)

/-- The integer nearest to `a / b`, a tie going to the even one. -/
def roundHalfEven (a b : Nat) : Nat :=
  let q := a / b
  let r := a % b
  if 2 * r < b then q
  else if b < 2 * r then q + 1
  else if q % 2 = 0 then q else q + 1

/-- The binary64 value nearest to `a / b` (`b > 0`), ties to even: a 53-bit significand
with exponent at least `-1074`; beyond the largest finite value the result is infinite. -/
def toDouble (neg : Bool) (a b : Nat) : JSNumber :=
  if a = 0 then .finite neg 0 (-1074)
  else
    let e0 : Int := (log2 a : Int) - (log2 b : Int) - 53
    let e1 : Int := if 2 ^ 53 ≤ (scaleBinary a b e0).1 / (scaleBinary a b e0).2 then e0 + 1 else e0
    let e : Int := if e1 < -1074 then -1074 else e1
    let m := roundHalfEven (scaleBinary a b e).1 (scaleBinary a b e).2
    let e' : Int := if m = 2 ^ 53 then e + 1 else e
    let m' : Nat := if m = 2 ^ 53 then 2 ^ 52 else m
    if 971 < e' then .infinite neg else .finite neg m' e'

/-- The fraction `s * 10^p` as a numerator and a denominator. -/
def scaleDecimal (s : Nat) (p : Int) : Nat × Nat :=
  if 0 ≤ p then (s * 10 ^ p.toNat, 1) else (s, 10 ^ (-p).toNat)

/-- The Number value of the decimal `s * 10^p`. -/
def decimalToDouble (neg : Bool) (s : Nat) (p : Int) : JSNumber :=
  toDouble neg (scaleDecimal s p).1 (scaleDecimal s p).2

def isDigit (c : Nat) : Bool := 48 ≤ c && c ≤ 57

/-- The value of a run of decimal digit code units. -/
def digitsValue (ds : List Nat) : Nat := ds.foldl (fun acc c => 10 * acc + (c - 48)) 0

/-- The integer part of a JSON number: a single `0`, or a digit `1`..`9` and further digits. -/
def lexInt : JSString → Option (List Nat × JSString)
  | [] => none
  | c :: rest =>
    if c = 48 then some ([48], rest)
    else if isDigit c then some (c :: rest.takeWhile isDigit, rest.dropWhile isDigit)
    else none

/-- The optional fraction: a `.` and at least one digit. -/
def lexFrac : JSString → Option (List Nat × JSString)
  | [] => some ([], [])
  | c :: rest =>
    if c = 46 then
      if rest.takeWhile isDigit = [] then none
      else some (rest.takeWhile isDigit, rest.dropWhile isDigit)
    else some ([], c :: rest)

/-- The digits of an exponent, after its optional sign: at least one. -/
def lexExpDigits (negExp : Bool) (inp : JSString) : Option (Int × JSString) :=
  if inp.takeWhile isDigit = [] then none
  else
    some (if negExp then -(digitsValue (inp.takeWhile isDigit) : Int)
          else (digitsValue (inp.takeWhile isDigit) : Int), inp.dropWhile isDigit)

/-- The optional exponent: `e` or `E`, an optional sign and at least one digit. -/
def lexExp : JSString → Option (Int × JSString)
  | [] => some (0, [])
  | c :: rest =>
    if c = 101 ∨ c = 69 then
      match rest with
      | [] => none
      | d :: rest' =>
        if d = 45 then lexExpDigits true rest'
        else if d = 43 then lexExpDigits false rest'
        else lexExpDigits false (d :: rest')
    else some (0, c :: rest)

/-- A JSON number token at the head of the input and its Number value:
`-? int frac? exp?`, the mathematical value of the literal rounded to binary64. -/
def lexNumber (inp : JSString) : Option (JSNumber × JSString) :=
  let neg := inp.head? = some 45
  let inp1 := if neg then inp.tail else inp
  match lexInt inp1 with
  | none => none
  | some (ds, inp2) =>
    match lexFrac inp2 with
    | none => none
    | some (fs, inp3) =>
      match lexExp inp3 with
      | none => none
      | some (x, inp4) =>
        some (decimalToDouble neg (digitsValue (ds ++ fs)) (x - fs.length), inp4)

/-- The decimal digits of `n`, most significant first, as digit values (`fuel` bounds their number). -/
def decDigitsAux : Nat → Nat → List Nat → List Nat
  | 0, _, acc => acc
  | fuel + 1, n, acc =>
    if n < 10 then n :: acc else decDigitsAux fuel (n / 10) (n % 10 :: acc)

def decDigits (n : Nat) : List Nat := decDigitsAux (log2 n + 1) n []

/-- The triple of `Number::toString` step 5 is met by `s`, `n` with `k` digits:
`10^(k-1) ≤ s < 10^k` and the Number value of `s * 10^(n-k)` is `m * 2^e`. -/
def isShortestCandidate (m : Nat) (e : Int) (k : Nat) (s : Nat) (n : Int) : Bool :=
  10 ^ (k - 1) ≤ s && s < 10 ^ k && decimalToDouble false s (n - k) == .finite false m e

/-- The numerator of `|s * 10^p - a / b|` over the common denominator. -/
def decimalDistance (a b : Nat) (s : Nat) (p : Int) : Nat :=
  let x := (scaleDecimal s p).1 * b
  let y := a * (scaleDecimal s p).2
  if x ≤ y then y - x else x - y

/-- Of two acceptable candidates the one nearer to the value `a / b` is kept; when they are
equally near, the one whose digit string `s` is even. -/
def closer (a b : Nat) (k : Nat) (x y : Option (Nat × Int)) : Option (Nat × Int) :=
  match x, y with
  | none, y => y
  | x, none => x
  | some (s1, n1), some (s2, n2) =>
    if decimalDistance a b s2 (n2 - k) * (scaleDecimal s1 (n1 - k)).2
        < decimalDistance a b s1 (n1 - k) * (scaleDecimal s2 (n2 - k)).2
    then some (s2, n2)
    else if decimalDistance a b s2 (n2 - k) * (scaleDecimal s1 (n1 - k)).2
        = decimalDistance a b s1 (n1 - k) * (scaleDecimal s2 (n2 - k)).2 ∧ s1 % 2 = 1 ∧ s2 % 2 = 0
    then some (s2, n2)
    else some (s1, n1)

/-- The candidates with `k` digits at decimal exponent `n`: `a / b` scaled by `10^(k-n)`,
rounded down and up. -/
def candidatesAt (m : Nat) (e : Int) (a b : Nat) (k : Nat) (n : Int) : Option (Nat × Int) :=
  let lo := (scaleDecimal a (k - n)).1 / ((scaleDecimal a (k - n)).2 * b)
  closer a b k
    (if isShortestCandidate m e k lo n then some (lo, n) else none)
    (if isShortestCandidate m e k (lo + 1) n then some (lo + 1, n) else none)

/-- An estimate of the decimal exponent `n` with `10^(n-1) ≤ a / b < 10^n`, off by at most one. -/
def decimalExponentEstimate (a b : Nat) : Int :=
  if b ≤ a then ((decDigits (a / b)).length : Int) else 1 - ((decDigits (b / a)).length : Int)

/-- The candidates with `k` digits, over the exponents around the estimate. -/
def candidatesWith (m : Nat) (e : Int) (a b : Nat) (k : Nat) : Option (Nat × Int) :=
  let n0 := decimalExponentEstimate a b
  closer a b k (closer a b k (candidatesAt m e a b k (n0 - 1)) (candidatesAt m e a b k n0))
    (closer a b k (candidatesAt m e a b k (n0 + 1)) (candidatesAt m e a b k (n0 + 2)))

/-- Search for the least digit count `k`, from `k` up, over `fuel` counts. -/
def shortestFrom (m : Nat) (e : Int) (a b : Nat) : Nat → Nat → Option (Nat × Int)
  | 0, _ => none
  | fuel + 1, k =>
    match candidatesWith m e a b k with
    | some r => some r
    | none => shortestFrom m e a b fuel (k + 1)

/-- The integers `s` and `n` of `Number::toString` for the positive value `m * 2^e`: the
shortest decimal `s * 10^(n-k)` whose Number value is `m * 2^e`, nearest to it; seventeen
digits always suffice for binary64, and past them the exact expansion of `m * 2^e` is used. -/
def shortestDecimal (m : Nat) (e : Int) : Nat × Int :=
  match shortestFrom m e (scaleBinary m 1 (-e)).1 (scaleBinary m 1 (-e)).2 17 1 with
  | some r => r
  | none =>
    if 0 ≤ e then (m * 2 ^ e.toNat, ((decDigits (m * 2 ^ e.toNat)).length : Int))
    else (m * 5 ^ (-e).toNat, ((decDigits (m * 5 ^ (-e).toNat)).length : Int) + e)

def digitChars (ds : List Nat) : JSString := ds.map (· + 48)

def zeros (n : Nat) : JSString := List.replicate n 48

/-- Steps 6 to 10 of `Number::toString`: the layout of the digits `ds` of `s`
for the decimal exponent `n`. -/
def formatDecimal (ds : List Nat) (n : Int) : JSString :=
  let k : Int := ds.length
  if k ≤ n ∧ n ≤ 21 then digitChars ds ++ zeros (n - k).toNat
  else if 0 < n ∧ n ≤ 21 then
    digitChars (ds.take n.toNat) ++ 46 :: digitChars (ds.drop n.toNat)
  else if -6 < n ∧ n ≤ 0 then 48 :: 46 :: (zeros (-n).toNat ++ digitChars ds)
  else
    let x := n - 1
    let sign : Nat := if x < 0 then 45 else 43
    let expDigits := digitChars (decDigits x.natAbs)
    match ds with
    | [d] => (d + 48) :: 101 :: sign :: expDigits
    | _ => digitChars (ds.take 1) ++ 46 :: (digitChars (ds.drop 1) ++ 101 :: sign :: expDigits)

/-- The text `Number::toString(x)` for a finite `x` (radix 10). -/
def numberToString (neg : Bool) (m : Nat) (e : Int) : JSString :=
  if m = 0 then [48]
  else
    (if neg then [45] else []) ++
      formatDecimal (decDigits (shortestDecimal m e).1) (shortestDecimal m e).2

/-- The serialization `JSON.stringify` gives a Number: `Number::toString` when it is
finite, `null` otherwise. -/
def serializeNumber : JSNumber → JSString
  | .finite neg m e => numberToString neg m e
  | .infinite _ => [110, 117, 108, 108]

/-! ## JSON values, `JSON.parse` and `JSON.stringify` -/

/-- The values `JSON.parse` builds.  An object is its own properties in the order
`JSON.stringify` enumerates them. -/
inductive JSON where
  | null
  | bool (b : Bool)
  | num (n : JSNumber)
  | str (s : JSString)
  | arr (elems : List JSON)
  | obj (props : List (JSString × JSON))

/-- JSON white space: SP, TAB, LF, CR. -/
def isJsonWs (c : Nat) : Bool := c = 32 || c = 9 || c = 10 || c = 13

def skipWs (s : JSString) : JSString := s.dropWhile isJsonWs

/-- The value of a hexadecimal digit. -/
def hexVal (c : Nat) : Option Nat :=
  if 48 ≤ c ∧ c ≤ 57 then some (c - 48)
  else if 97 ≤ c ∧ c ≤ 102 then some (c - 87)
  else if 65 ≤ c ∧ c ≤ 70 then some (c - 55)
  else none

/-- The code unit a single-character escape stands for. -/
def unescape (c : Nat) : Option Nat :=
  if c = 34 then some 34
  else if c = 92 then some 92
  else if c = 47 then some 47
  else if c = 98 then some 8
  else if c = 102 then some 12
  else if c = 110 then some 10
  else if c = 114 then some 13
  else if c = 116 then some 9
  else none

/-- The rest of a JSON string after its opening quote: the code units it denotes and
the input after the closing quote.  Code units below U+0020 must be escaped. -/
def parseStringBody : JSString → Option (JSString × JSString)
  | [] => none
  | c :: rest =>
    if c = 34 then some ([], rest)
    else if c = 92 then
      match rest with
      | [] => none
      | x :: rest1 =>
        if x = 117 then
          match rest1 with
          | h1 :: h2 :: h3 :: h4 :: rest2 =>
            match hexVal h1, hexVal h2, hexVal h3, hexVal h4 with
            | some a, some b, some c, some d =>
              match parseStringBody rest2 with
              | some (s, r) => some ((((a * 16 + b) * 16 + c) * 16 + d) :: s, r)
              | none => none
            | _, _, _, _ => none
          | _ => none
        else
          match unescape x with
          | some u =>
            match parseStringBody rest1 with
            | some (s, r) => some (u :: s, r)
            | none => none
          | none => none
    else if c < 32 then none
    else
      match parseStringBody rest with
      | some (s, r) => some (c :: s, r)
      | none => none

/-- The index a property key denotes when it is an array index: a canonical numeric
string (no sign, no leading zero) of an integer up to `2^32 - 2`. -/
def arrayIndex (k : JSString) : Option Nat :=
  match k with
  | [] => none
  | c :: rest =>
    if c = 48 then (if rest = [] then some 0 else none)
    else if isDigit c ∧ rest.all isDigit ∧ digitsValue (c :: rest) < 4294967295 then
      some (digitsValue (c :: rest))
    else none

def hasKey (k : JSString) : List (JSString × JSON) → Bool
  | [] => false
  | (k', _) :: rest => k = k' || hasKey k rest

/-- Overwrite the value of the existing property `k`, in place. -/
def replaceValue (k : JSString) (v : JSON) : List (JSString × JSON) → List (JSString × JSON)
  | [] => []
  | (k', v') :: rest => if k = k' then (k', v) :: rest else (k', v') :: replaceValue k v rest

/-- Add the array-index property `k` (index `i`): index keys come first, ascending. -/
def insertIndexed (i : Nat) (k : JSString) (v : JSON) :
    List (JSString × JSON) → List (JSString × JSON)
  | [] => [(k, v)]
  | (k', v') :: rest =>
    match arrayIndex k' with
    | some j => if i < j then (k, v) :: (k', v') :: rest else (k', v') :: insertIndexed i k v rest
    | none => (k, v) :: (k', v') :: rest

/-- The operation `CreateDataProperty` as seen by own-property enumeration: an existing key
keeps its place and takes the new value; a new array-index key goes among the index keys in
ascending order; any other new key goes last. -/
def defineProp (props : List (JSString × JSON)) (kv : JSString × JSON) : List (JSString × JSON) :=
  if hasKey kv.1 props then replaceValue kv.1 kv.2 props
  else
    match arrayIndex kv.1 with
    | some i => insertIndexed i kv.1 kv.2 props
    | none => props ++ [kv]

/-- The object built from the members of an object literal, left to right. -/
def mkObject (members : List (JSString × JSON)) : JSON := .obj (members.foldl defineProp [])

mutual
/-- One JSON value and the input after it; `fuel` bounds the nesting of calls. -/
def parseValue : Nat → JSString → Option (JSON × JSString)
  | 0, _ => none
  | fuel + 1, inp =>
    match skipWs inp with
    | [] => none
    | c :: rest =>
      if c = 123 then
        match skipWs rest with
        | [] => none
        | d :: rest1 =>
          if d = 125 then some (.obj [], rest1)
          else
            match parseMembers fuel (d :: rest1) with
            | some (ms, r) => some (mkObject ms, r)
            | none => none
      else if c = 91 then
        match skipWs rest with
        | [] => none
        | d :: rest1 =>
          if d = 93 then some (.arr [], rest1)
          else
            match parseElems fuel (d :: rest1) with
            | some (vs, r) => some (.arr vs, r)
            | none => none
      else if c = 34 then
        match parseStringBody rest with
        | some (s, r) => some (.str s, r)
        | none => none
      else if c = 116 then
        match rest with
        | 114 :: 117 :: 101 :: r => some (.bool true, r)
        | _ => none
      else if c = 102 then
        match rest with
        | 97 :: 108 :: 115 :: 101 :: r => some (.bool false, r)
        | _ => none
      else if c = 110 then
        match rest with
        | 117 :: 108 :: 108 :: r => some (.null, r)
        | _ => none
      else
        match lexNumber (c :: rest) with
        | some (n, r) => some (.num n, r)
        | none => none
/-- The elements of a non-empty array up to and including the closing bracket. -/
def parseElems : Nat → JSString → Option (List JSON × JSString)
  | 0, _ => none
  | fuel + 1, inp =>
    match parseValue fuel inp with
    | none => none
    | some (v, r) =>
      match skipWs r with
      | [] => none
      | c :: rest =>
        if c = 44 then
          match parseElems fuel rest with
          | some (vs, r') => some (v :: vs, r')
          | none => none
        else if c = 93 then some ([v], rest)
        else none
/-- The members of a non-empty object up to and including the closing brace. -/
def parseMembers : Nat → JSString → Option (List (JSString × JSON) × JSString)
  | 0, _ => none
  | fuel + 1, inp =>
    match skipWs inp with
    | [] => none
    | q :: rest =>
      if q = 34 then
        match parseStringBody rest with
        | none => none
        | some (k, r1) =>
          match skipWs r1 with
          | [] => none
          | colon :: r2 =>
            if colon = 58 then
              match parseValue fuel r2 with
              | none => none
              | some (v, r3) =>
                match skipWs r3 with
                | [] => none
                | c :: r4 =>
                  if c = 44 then
                    match parseMembers fuel r4 with
                    | some (ms, r') => some ((k, v) :: ms, r')
                    | none => none
                  else if c = 125 then some ([(k, v)], r4)
                  else none
            else none
      else none
end

/-- The function `JSON.parse` without a reviver: `none` stands for the `SyntaxError`.
The whole text must be one value between optional white space. -/
def JSON.parse (text : JSString) : Option JSON :=
  match parseValue (2 * text.length + 2) text with
  | some (v, rest) => if skipWs rest = [] then some v else none
  | none => none

def isHighSurrogate (c : Nat) : Bool := 55296 ≤ c && c ≤ 56319

def isLowSurrogate (c : Nat) : Bool := 56320 ≤ c && c ≤ 57343

def hexDigit (d : Nat) : Nat := if d < 10 then d + 48 else d + 87

/-- The escape `\uXXXX` with lower-case hexadecimal digits. -/
def unicodeEscape (c : Nat) : JSString :=
  [92, 117, hexDigit (c / 4096 % 16), hexDigit (c / 256 % 16), hexDigit (c / 16 % 16),
    hexDigit (c % 16)]

/-- One code point that is a single code unit, as `QuoteJSONString` writes it: the
two-character escapes of backspace, tab, line feed, form feed, carriage return, quote and
backslash; `\uXXXX` for the other code units below U+0020 and for a lone surrogate;
anything else as it is. -/
def quoteUnit (c : Nat) : JSString :=
  if c = 8 then [92, 98]
  else if c = 9 then [92, 116]
  else if c = 10 then [92, 110]
  else if c = 12 then [92, 102]
  else if c = 13 then [92, 114]
  else if c = 34 then [92, 34]
  else if c = 92 then [92, 92]
  else if c < 32 ∨ isHighSurrogate c ∨ isLowSurrogate c then unicodeEscape c
  else [c]

/-- The escaping of `QuoteJSONString`, code point by code point: a high surrogate followed
by a low one is one code point and is copied; every other code unit is a code point of
its own. -/
def quoteBody : JSString → JSString
  | [] => []
  | [c] => quoteUnit c
  | c :: d :: rest =>
    if isHighSurrogate c ∧ isLowSurrogate d then c :: d :: quoteBody rest
    else quoteUnit c ++ quoteBody (d :: rest)

/-- The operation `QuoteJSONString`. -/
def quote (s : JSString) : JSString := 34 :: (quoteBody s ++ [34])

mutual
/-- The function `JSON.stringify` without replacer or indentation, on the values
`JSON.parse` builds and on object literals of such values. -/
def JSON.stringify : JSON → JSString
  | .null => [110, 117, 108, 108]
  | .bool true => [116, 114, 117, 101]
  | .bool false => [102, 97, 108, 115, 101]
  | .num n => serializeNumber n
  | .str s => quote s
  | .arr elems => 91 :: (stringifyElems elems ++ [93])
  | .obj props => 123 :: (stringifyMembers props ++ [125])
/-- The elements of an array, separated by commas. -/
def stringifyElems : List JSON → JSString
  | [] => []
  | [v] => JSON.stringify v
  | v :: w :: rest => JSON.stringify v ++ 44 :: stringifyElems (w :: rest)
/-- The members of an object, `key:value` separated by commas. -/
def stringifyMembers : List (JSString × JSON) → JSString
  | [] => []
  | [(k, v)] => quote k ++ 58 :: JSON.stringify v
  | (k, v) :: kv :: rest => quote k ++ 58 :: (JSON.stringify v ++ 44 :: stringifyMembers (kv :: rest))
end

mutual
/-- The nesting of a value as `JSON.stringify` descends it: one level for the value itself
and, for an array or an object, the deepest of its elements or property values below it. -/
def JSON.depth : JSON → Nat
  | .arr elems => 1 + elemsDepth elems
  | .obj props => 1 + membersDepth props
  | _ => 1
def elemsDepth : List JSON → Nat
  | [] => 0
  | v :: rest => max v.depth (elemsDepth rest)
def membersDepth : List (JSString × JSON) → Nat
  | [] => 0
  | (_, v) :: rest => max v.depth (membersDepth rest)
end

/-- The nesting of the documented response schema
(answer, `fileTree`, file entry, `file`, `contents`). -/
def schemaNesting : Nat := 5

/-- The JavaScript engine the function runs on, as far as it shows: `JSON.stringify` is
recursive and throws a `RangeError` when a value is nested deeper than the call stack
allows.  Every engine serializes the nesting of the documented schema; `headroom` is how
many levels more (some thousands in practice). -/
structure Engine where
  headroom : Nat

/-- The deepest nesting `JSON.stringify` serializes on the engine. -/
def Engine.maxNesting (engine : Engine) : Nat := schemaNesting + engine.headroom

/-- The call `JSON.stringify(value)` on the engine: `none` stands for the `RangeError`. -/
def Engine.stringify (engine : Engine) (value : JSON) : Option JSString :=
  if value.depth ≤ engine.maxNesting then some (JSON.stringify value) else none

/-! ## The gateway -/

/-- The constant `SYSTEM_INSTRUCTION`: the cooked text of the template literal (its `\n`
and `\"` escapes are a line feed and a quote). -/
def SYSTEM_INSTRUCTION : JSString := utf16 (String.join [
  "\n",
  "You are a senior Node.js backend developer with 10+ years of experience.\n",
  "\n",
  "You write clean, readable, well-commented, production-quality code.\n",
  "You handle errors properly.\n",
  "You follow best practices.\n",
  "But you MUST strictly follow the project constraints below.\n",
  "\n",
  "----------------------------------------\n",
  "PROJECT CONSTRAINTS (VERY IMPORTANT)\n",
  "----------------------------------------\n",
  "\n",
  "1. Only create files in the ROOT directory.\n",
  "2. DO NOT create folders like src, routes, controllers, config.\n",
  "3. DO NOT use file paths like src/app.js.\n",
  "4. Only allowed file names:\n",
  "   - app.js\n",
  "   - package.json\n",
  "5. Maximum 2 files.\n",
  "6. Use res.send() for responses instead of res.json().\n",
  "7. Keep the project minimal but fully runnable.\n",
  "8. Do NOT over-engineer.\n",
  "9. Do NOT add unnecessary architecture.\n",
  "10. Everything must work with:\n",
  "   - npm install\n",
  "   - node app.js\n",
  "\n",
  "----------------------------------------\n",
  "RESPONSE FORMAT (STRICT JSON)\n",
  "----------------------------------------\n",
  "\n",
  "Return ONLY valid JSON in this format:\n",
  "\n",
  "\x7b\n",
  "  \"text\": \"Short explanation of what was created\",\n",
  "  \"fileTree\": \x7b\n",
  "    \"app.js\": \x7b\n",
  "      \"file\": \x7b\n",
  "        \"contents\": \"FULL FILE CODE HERE\"\n",
  "      \x7d\n",
  "    \x7d,\n",
  "    \"package.json\": \x7b\n",
  "      \"file\": \x7b\n",
  "        \"contents\": \"FULL FILE CODE HERE\"\n",
  "      \x7d\n",
  "    \x7d\n",
  "  \x7d,\n",
  "  \"buildCommand\": \x7b\n",
  "    \"mainItem\": \"npm\",\n",
  "    \"commands\": [\"install\"]\n",
  "  \x7d,\n",
  "  \"startCommand\": \x7b\n",
  "    \"mainItem\": \"node\",\n",
  "    \"commands\": [\"app.js\"]\n",
  "  \x7d\n",
  "\x7d\n",
  "\n",
  "----------------------------------------\n",
  "EXAMPLE\n",
  "----------------------------------------\n",
  "\n",
  "User: Create an express server\n",
  "\n",
  "Response:\n",
  "\x7b\n",
  "  \"text\": \"This is a minimal Express server.\",\n",
  "  \"fileTree\": \x7b\n",
  "    \"app.js\": \x7b\n",
  "      \"file\": \x7b\n",
  "        \"contents\": \"const express = require(\x27express\x27);\n",
  "const app = express();\n",
  "\n",
  "app.get(\x27/\x27, (req, res) => \x7b\n",
  "  res.send(\x27Hello World\x27);\n",
  "\x7d);\n",
  "\n",
  "app.listen(3000, () => \x7b\n",
  "  console.log(\x27Server running on port 3000\x27);\n",
  "\x7d);\"\n",
  "      \x7d\n",
  "    \x7d,\n",
  "    \"package.json\": \x7b\n",
  "      \"file\": \x7b\n",
  "        \"contents\": \"\x7b\n",
  "  \"name\": \"temp-server\",\n",
  "  \"version\": \"1.0.0\",\n",
  "  \"main\": \"app.js\",\n",
  "  \"scripts\": \x7b\n",
  "    \"start\": \"node app.js\"\n",
  "  \x7d,\n",
  "  \"dependencies\": \x7b\n",
  "    \"express\": \"^4.21.2\"\n",
  "  \x7d\n",
  "\x7d\"\n",
  "      \x7d\n",
  "    \x7d\n",
  "  \x7d,\n",
  "  \"buildCommand\": \x7b\n",
  "    \"mainItem\": \"npm\",\n",
  "    \"commands\": [\"install\"]\n",
  "  \x7d,\n",
  "  \"startCommand\": \x7b\n",
  "    \"mainItem\": \"node\",\n",
  "    \"commands\": [\"app.js\"]\n",
  "  \x7d\n",
  "\x7d\n",
  "\n",
  "If the user only says \"Hello\", then return:\n",
  "\n",
  "\x7b\n",
  "  \"text\": \"Hello, how can I help you today?\"\n",
  "\x7d\n",
  "\n",
  "REMEMBER:\n",
  "If you create folders or use file paths, the response is invalid.\n",
  "Return JSON only. No markdown.\n"])

/-- The template literal `structuredPrompt`. -/
def structuredPrompt (prompt : JSString) : JSString :=
  utf16 "\n" ++ SYSTEM_INSTRUCTION ++ utf16 "\n\nUSER REQUEST:\n" ++ prompt ++ utf16 "\n"

/-- The argument of `ai.models.generateContent`. -/
structure GenerateContentRequest where
  model : String
  contents : JSString
  temperature : ℚ
  responseMimeType : String

/-- What awaiting the provider call gives: a response, whose `text` may be absent,
or a thrown or rejected error with any detail. -/
inductive ProviderOutcome where
  | response (text : Option JSString)
  | failure (error : JSString)

/-- The provider, `ai.models.generateContent`. -/
abbrev Provider := GenerateContentRequest → ProviderOutcome

/-- The request `generateResult` sends for a prompt. -/
def request (prompt : JSString) : GenerateContentRequest where
  model := "gemini-3-flash-preview"
  contents := structuredPrompt prompt
  temperature := 2 / 10
  responseMimeType := "application/json"

def textKey : JSString := utf16 "text"
def fileTreeKey : JSString := utf16 "fileTree"
def buildCommandKey : JSString := utf16 "buildCommand"
def startCommandKey : JSString := utf16 "startCommand"
def errorKey : JSString := utf16 "error"

/-- The object literal of the inner `catch`. -/
def parseFallback (rawOutput : JSString) : JSON :=
  .obj [(textKey, .str rawOutput), (fileTreeKey, .obj []), (buildCommandKey, .obj []),
    (startCommandKey, .obj [])]

/-- The object literal of the outer `catch`. -/
def failureEnvelope : JSON :=
  .obj [(textKey, .str (utf16 "Something went wrong while generating AI response.")),
    (fileTreeKey, .obj []), (buildCommandKey, .obj []), (startCommandKey, .obj []),
    (errorKey, .bool true)]

/-- The value `generateResult` serializes when the provider responded: the parsed
normalized text, or the fallback object when `JSON.parse` throws. -/
def parsedOrFallback (rawOutput : JSString) : JSON :=
  match JSON.parse rawOutput with
  | some parsed => parsed
  | none => parseFallback rawOutput

/-- The function `generateResult`: the string its promise resolves to.  Both the provider
call and `JSON.stringify(parsed)` are inside the outer `try`: a failed call and a
`RangeError` of the serialization both end in the outer `catch`, which returns the
serialization of its object literal (and writes the error to the console, which does not
reach the returned value). -/
def generateResult (engine : Engine) (generateContent : Provider) (prompt : JSString) :
    JSString :=
  match generateContent (request prompt) with
  | .response text =>
    match engine.stringify (parsedOrFallback (normalize text)) with
    | some result => result
    | none => JSON.stringify failureEnvelope
  | .failure _ => JSON.stringify failureEnvelope

/-! ## Notions the properties are stated with -/

/-- A string is syntactically valid JSON when `JSON.parse` accepts it. -/
def validJSON (s : JSString) : Bool := (JSON.parse s).isSome

/-- The input after a number token does not continue the token. -/
def numEnds : JSString → Bool
  | [] => true
  | c :: _ => !(isDigit c || c = 46 || c = 101 || c = 69)

/-- What `JSON.parse` reads back from the serialization of a Number: the Number of the
printed decimal, and `null` for a non-finite one. -/
def reparseNumber (n : JSNumber) : JSON :=
  match lexNumber (serializeNumber n) with
  | some (d, _) => .num d
  | none => .null

mutual
/-- What `JSON.parse` reads back from `JSON.stringify v`. -/
def JSON.reparse : JSON → JSON
  | .null => .null
  | .bool b => .bool b
  | .num n => reparseNumber n
  | .str s => .str s
  | .arr elems => .arr (reparseElems elems)
  | .obj props => mkObject (reparseMembers props)
def reparseElems : List JSON → List JSON
  | [] => []
  | v :: rest => v.reparse :: reparseElems rest
def reparseMembers : List (JSString × JSON) → List (JSString × JSON)
  | [] => []
  | (k, v) :: rest => (k, v.reparse) :: reparseMembers rest
end

/-- The order of own-property enumeration between two keys: an array-index key before any
other key, array indices ascending. -/
def keyLe (k k' : JSString) : Bool :=
  match arrayIndex k, arrayIndex k' with
  | some i, some j => i ≤ j
  | some _, none => true
  | none, some _ => false
  | none, none => true

/-- Keys in the order own-property enumeration gives: no key twice, array-index keys
first and in ascending order. -/
def keysCanonical : List JSString → Bool
  | [] => true
  | k :: rest => !decide (k ∈ rest) && rest.all (keyLe k) && keysCanonical rest

mutual
/-- Every object inside the value lists its properties in enumeration order. -/
def JSON.canonical : JSON → Bool
  | .arr elems => elemsCanonical elems
  | .obj props => keysCanonical (props.map Prod.fst) && membersCanonical props
  | _ => true
def elemsCanonical : List JSON → Bool
  | [] => true
  | v :: rest => v.canonical && elemsCanonical rest
def membersCanonical : List (JSString × JSON) → Bool
  | [] => true
  | (_, v) :: rest => v.canonical && membersCanonical rest
end

mutual
/-- No Number occurs in the value. -/
def JSON.numberFree : JSON → Bool
  | .num _ => false
  | .arr elems => elemsNumberFree elems
  | .obj props => membersNumberFree props
  | _ => true
def elemsNumberFree : List JSON → Bool
  | [] => true
  | v :: rest => v.numberFree && elemsNumberFree rest
def membersNumberFree : List (JSString × JSON) → Bool
  | [] => true
  | (_, v) :: rest => v.numberFree && membersNumberFree rest
end

/-- The Number is read back from its serialization as itself:
`Object.is(JSON.parse(JSON.stringify(n)), n)`. -/
def numberStable (n : JSNumber) : Bool :=
  match lexNumber (serializeNumber n) with
  | some (d, _) => decide (d = n)
  | none => false

mutual
/-- Every Number in the value is read back from its serialization as itself. -/
def JSON.numbersStable : JSON → Bool
  | .num n => numberStable n
  | .arr elems => elemsNumbersStable elems
  | .obj props => membersNumbersStable props
  | _ => true
def elemsNumbersStable : List JSON → Bool
  | [] => true
  | v :: rest => v.numbersStable && elemsNumbersStable rest
def membersNumbersStable : List (JSString × JSON) → Bool
  | [] => true
  | (_, v) :: rest => v.numbersStable && membersNumbersStable rest
end

/-- The value of the own property `k`. -/
def getProp (k : JSString) : List (JSString × JSON) → Option JSON
  | [] => none
  | (k', v) :: rest => if k = k' then some v else getProp k rest

def JSON.isObject : JSON → Bool
  | .obj _ => true
  | _ => false

def JSON.isString : JSON → Bool
  | .str _ => true
  | _ => false

def JSON.isTrue : JSON → Bool
  | .bool true => true
  | _ => false

/-- The value is an object whose top-level `error` property is `true`. -/
def JSON.hasErrorFlag : JSON → Bool
  | .obj props =>
    match getProp errorKey props with
    | some v => v.isTrue
    | none => false
  | _ => false

/-- The value is an object with a top-level property `k`. -/
def JSON.hasField (k : JSString) : JSON → Bool
  | .obj props => hasKey k props
  | _ => false

/-- The returned string is JSON with a top-level `error` field equal to `true`. -/
def errorFlagged (s : JSString) : Bool :=
  match JSON.parse s with
  | some v => v.hasErrorFlag
  | none => false

/-! ### The documented response schema

```
"text": string,
"fileTree"?: "<filename>": "file": "contents": string
"buildCommand"?, "startCommand"?: "mainItem": string, "commands": [string, ...]
``` -/

/-- The shape `\x7b "file": \x7b "contents": string \x7d \x7d` of a file-tree entry. -/
def isFileEntry : JSON → Bool
  | .obj [(k, .obj [(k', .str _)])] => k = utf16 "file" && k' = utf16 "contents"
  | _ => false

def allStrings : List JSON → Bool
  | [] => true
  | v :: rest => v.isString && allStrings rest

def allFileEntries : List (JSString × JSON) → Bool
  | [] => true
  | (_, v) :: rest => isFileEntry v && allFileEntries rest

/-- The shape `\x7b "<filename>": entry, ... \x7d` of `fileTree`. -/
def isFileTree : JSON → Bool
  | .obj props => allFileEntries props
  | _ => false

/-- The shape `\x7b "mainItem": string, "commands": [string, ...] \x7d` of a command. -/
def isCommand : JSON → Bool
  | .obj props =>
    props.all (fun kv => kv.1 = utf16 "mainItem" || kv.1 = utf16 "commands") &&
    (match getProp (utf16 "mainItem") props with
      | some (.str _) => true
      | _ => false) &&
    (match getProp (utf16 "commands") props with
      | some (.arr elems) => allStrings elems
      | _ => false)
  | _ => false

/-- The documented schema of a provider answer: an object with a string `text` and
optionally `fileTree`, `buildCommand`, `startCommand` of the documented shapes,
and no other field. -/
def matchesSchema : JSON → Bool
  | .obj props =>
    props.all (fun kv => kv.1 = textKey || kv.1 = fileTreeKey || kv.1 = buildCommandKey ||
      kv.1 = startCommandKey) &&
    (match getProp textKey props with
      | some v => v.isString
      | none => false) &&
    (match getProp fileTreeKey props with
      | some v => isFileTree v
      | none => true) &&
    (match getProp buildCommandKey props with
      | some v => isCommand v
      | none => true) &&
    (match getProp startCommandKey props with
      | some v => isCommand v
      | none => true)
  | _ => false

/-- The response text `"```json\n" + j + "\n```"`. -/
def fenceJson (j : JSString) : JSString := utf16 "```json\n" ++ j ++ utf16 "\n```"

/-- The response text `"```\n" + j + "\n```"`. -/
def fenceBare (j : JSString) : JSString := utf16 "```\n" ++ j ++ utf16 "\n```"

/-- The array nested `n + 1` deep: `[]`, `[[]]`, `[[[]]]`, ... -/
def nestedArray : Nat → JSON
  | 0 => .arr []
  | n + 1 => .arr [nestedArray n]

/-- The text of `n` opening and `n` closing brackets. -/
def nestedArrayText (n : Nat) : JSString := List.replicate n 91 ++ List.replicate n 93

/-! ## Notions used in the proofs -/

/-- The input does not start with a digit. -/
def noDigitHead (s : JSString) : Prop := ∀ c r, s = c :: r → isDigit c = false

/-- The digits of an integer part: a single `0`, or digits not starting with `0`. -/
def validInt (ds : JSString) : Prop :=
  ds = [48] ∨ (∃ c r, ds = c :: r ∧ c ≠ 48 ∧ ∀ x ∈ ds, isDigit x = true)

/-- The text of a fraction part with digits `fs` (none when `fs` is empty). -/
def fracText (fs : JSString) : JSString := if fs = [] then [] else 46 :: fs

/-- The text of an exponent part. -/
def expText (x : Option (Nat × JSString)) : JSString :=
  match x with
  | none => []
  | some (sign, xs) => 101 :: sign :: xs

/-- The value of an exponent part. -/
def expValue (x : Option (Nat × JSString)) : Int :=
  match x with
  | none => 0
  | some (sign, xs) => if sign = 45 then -(digitsValue xs : Int) else (digitsValue xs : Int)

def validExp (x : Option (Nat × JSString)) : Prop :=
  match x with
  | none => True
  | some (sign, xs) => (sign = 43 ∨ sign = 45) ∧ xs ≠ [] ∧ ∀ c ∈ xs, isDigit c = true

/-- Digit values of a positive integer, most significant first: not empty, each below ten,
the first one not zero. -/
def properDigits (ds : List Nat) : Prop :=
  (∃ d r, ds = d :: r ∧ d ≠ 0) ∧ ∀ d ∈ ds, d < 10

/-- A candidate of the shortest-decimal search has a positive digit string. -/
def positiveCandidate (r : Option (Nat × Int)) : Prop := ∀ s n, r = some (s, n) → 0 < s

/-- The cases of `parseValue` with fuel `f + 1` on an input that, after white space,
is `c :: rest`: the value `v` read and the remaining input `r`. -/
def ValueCase (f : Nat) (c : Nat) (rest : JSString) (v : JSON) (r : JSString) : Prop :=
  (c = 123 ∧ ∃ d rest1, skipWs rest = d :: rest1 ∧
    ((d = 125 ∧ v = .obj [] ∧ r = rest1) ∨
      (d ≠ 125 ∧ ∃ ms, parseMembers f (d :: rest1) = some (ms, r) ∧ v = mkObject ms))) ∨
  (c = 91 ∧ ∃ d rest1, skipWs rest = d :: rest1 ∧
    ((d = 93 ∧ v = .arr [] ∧ r = rest1) ∨
      (d ≠ 93 ∧ ∃ vs, parseElems f (d :: rest1) = some (vs, r) ∧ v = .arr vs))) ∨
  (c = 34 ∧ ∃ s, parseStringBody rest = some (s, r) ∧ v = .str s) ∨
  (c = 116 ∧ rest = 114 :: 117 :: 101 :: r ∧ v = .bool true) ∨
  (c = 102 ∧ rest = 97 :: 108 :: 115 :: 101 :: r ∧ v = .bool false) ∨
  (c = 110 ∧ rest = 117 :: 108 :: 108 :: r ∧ v = .null) ∨
  ((c ≠ 123 ∧ c ≠ 91 ∧ c ≠ 34 ∧ c ≠ 116 ∧ c ≠ 102 ∧ c ≠ 110) ∧
    ∃ n, lexNumber (c :: rest) = some (n, r) ∧ v = .num n)

/-- The text ends in a decimal digit. -/
def endsWithDigit (l : JSString) : Prop := ∃ l' x, l = l' ++ [x] ∧ isDigit x = true

/-- The text ends in a code unit that is not white space. -/
def endsToken (l : JSString) : Prop := ∃ l' x, l = l' ++ [x] ∧ isWhiteSpace x = false

/-- A value read with fuel `f` is read from a prefix of the input that ends in a token,
and is read the same whatever follows, as long as that does not continue a number. -/
def FrameValue (f : Nat) : Prop :=
  ∀ inp v r, parseValue f inp = some (v, r) →
    ∃ c, inp = c ++ r ∧ endsToken c ∧
      ∀ y, numEnds y = true → parseValue f (c ++ y) = some (v, y)

def FrameElems (f : Nat) : Prop :=
  ∀ inp vs r, parseElems f inp = some (vs, r) →
    ∃ c, inp = c ++ r ∧ endsToken c ∧ ∀ y, parseElems f (c ++ y) = some (vs, y)

def FrameMembers (f : Nat) : Prop :=
  ∀ inp ms r, parseMembers f inp = some (ms, r) →
    ∃ c, inp = c ++ r ∧ endsToken c ∧ ∀ y, parseMembers f (c ++ y) = some (ms, y)

/-- A value read with fuel `f` is read with any fuel from twice the input length on. -/
def AdequateValue (f : Nat) : Prop :=
  ∀ inp v r, parseValue f inp = some (v, r) →
    ∀ g, 2 * inp.length + 2 ≤ g → parseValue g inp = some (v, r)

def AdequateElems (f : Nat) : Prop :=
  ∀ inp vs r, parseElems f inp = some (vs, r) →
    ∀ g, 2 * inp.length + 3 ≤ g → parseElems g inp = some (vs, r)

def AdequateMembers (f : Nat) : Prop :=
  ∀ inp ms r, parseMembers f inp = some (ms, r) →
    ∀ g, 2 * inp.length + 3 ≤ g → parseMembers g inp = some (ms, r)

/-! # Proofs -/

set_option maxRecDepth 100000

/-! ## Trimming and fence removal -/

theorem trimStart_eq_self_of_head (c : Nat) (s : JSString) (h : isWhiteSpace c = false) :
    trimStart (c :: s) = c :: s := by
  simp [trimStart, List.dropWhile, h]

theorem trimStart_head_not_ws (s : JSString) (c : Nat) (r : JSString)
    (h : trimStart s = c :: r) : isWhiteSpace c = false := by
  unfold trimStart at h
  have := List.head_dropWhile_not isWhiteSpace s (by rw [h]; simp)
  simpa [h] using this

theorem trimStart_idem (s : JSString) : trimStart (trimStart s) = trimStart s := by
  unfold trimStart
  induction s with
  | nil => rfl
  | cons c s ih =>
    by_cases h : isWhiteSpace c = true
    · simp [List.dropWhile, h, ih]
    · simp [List.dropWhile, h]

theorem trimEnd_idem (s : JSString) : trimEnd (trimEnd s) = trimEnd s := by
  unfold trimEnd
  rw [List.reverse_reverse]
  have := trimStart_idem s.reverse
  unfold trimStart at this
  rw [this]

/-- Dropping leading white space commutes with dropping trailing white space. -/
theorem trimEnd_trimStart (s : JSString) : trimEnd (trimStart s) = trimStart (trimEnd s) := by
  induction s with
  | nil => rfl
  | cons c s ih =>
    by_cases h : isWhiteSpace c = true
    · have h1 : trimStart (c :: s) = trimStart s := by simp [trimStart, List.dropWhile, h]
      rw [h1, ih]
      by_cases hs : trimEnd s = []
      · have : trimEnd (c :: s) = [] := by
          unfold trimEnd at hs ⊢
          simp only [List.reverse_eq_nil_iff] at hs ⊢
          rw [List.reverse_cons, List.dropWhile_append]
          simp [hs, List.dropWhile, h]
        rw [this, hs]
      · have : trimEnd (c :: s) = c :: trimEnd s := by
          unfold trimEnd at hs ⊢
          simp only [List.reverse_eq_nil_iff] at hs
          rw [List.reverse_cons, List.dropWhile_append]
          simp [hs]
        rw [this]
        simp [trimStart, List.dropWhile, h]
    · have h' : isWhiteSpace c = false := by simpa using h
      rw [trimStart_eq_self_of_head c s h']
      have : trimEnd (c :: s) = c :: trimEnd s := by
        unfold trimEnd
        rw [List.reverse_cons, List.dropWhile_append]
        by_cases hs : List.dropWhile isWhiteSpace s.reverse = []
        · simp [hs, List.dropWhile, h']
        · simp [hs]
      rw [this, trimStart_eq_self_of_head c _ h']

theorem trim_idem (s : JSString) : trim (trim s) = trim s := by
  unfold trim
  rw [trimEnd_trimStart, trimEnd_idem, trimStart_idem]

theorem startsWithFence_iff (s : JSString) :
    startsWithFence s = true ↔ ∃ r, s = 96 :: 96 :: 96 :: r := by
  constructor
  · intro h
    unfold startsWithFence at h
    split at h
    · exact ⟨_, rfl⟩
    · simp at h
  · rintro ⟨r, rfl⟩
    rfl

theorem startsWithFence_false_iff (s : JSString) :
    startsWithFence s = false ↔ ∀ r, s ≠ 96 :: 96 :: 96 :: r := by
  rw [← Bool.not_eq_true, startsWithFence_iff]
  simp

theorem hasFence_cons (c : Nat) (s : JSString) :
    hasFence (c :: s) = (startsWithFence (c :: s) || hasFence s) := by
  by_cases h : startsWithFence (c :: s) = true
  · obtain ⟨r, hr⟩ := (startsWithFence_iff _).1 h
    rw [h, hr]
    simp [hasFence]
  · have h' : startsWithFence (c :: s) = false := by simpa using h
    rw [h']
    rw [hasFence.eq_2]
    · simp
    · intro r hc hr
      exact (startsWithFence_false_iff _).1 h' r (by rw [hc, hr])

theorem hasFence_of_startsWithFence (s : JSString) (h : startsWithFence s = true) :
    hasFence s = true := by
  obtain ⟨r, rfl⟩ := (startsWithFence_iff _).1 h
  simp [hasFence]

theorem stripFences_cons_of_not_fence (c : Nat) (s : JSString)
    (h : startsWithFence (c :: s) = false) : stripFences (c :: s) = c :: stripFences s := by
  have h' := (startsWithFence_false_iff _).1 h
  rw [stripFences.eq_3]
  · intro r hc hr
    exact h' _ (by rw [hc, hr])
  · intro r hc hr
    exact h' _ (by rw [hc, hr])

/-- After the removal the text starts with two backticks only if it did before. -/
theorem stripFences_head2 (s : JSString) :
    ∀ r, stripFences s = 96 :: 96 :: r → ∃ r', s = 96 :: 96 :: r' := by
  induction s using stripFences.induct with
  | case1 rest ih => intro r _; exact ⟨_, rfl⟩
  | case2 rest h ih => intro r _; exact ⟨_, rfl⟩
  | case3 c rest h1 h2 ih =>
    intro r hr
    have hnf : startsWithFence (c :: rest) = false := by
      rw [startsWithFence_false_iff]
      intro r' hr'
      simp only [List.cons.injEq] at hr'
      exact h2 r' hr'.1 hr'.2
    rw [stripFences_cons_of_not_fence c rest hnf] at hr
    simp only [List.cons.injEq] at hr
    obtain ⟨hc, hr2⟩ := hr
    subst hc
    cases rest with
    | nil => simp [stripFences] at hr2
    | cons d rest' =>
      by_cases hd : d = 96
      · subst hd; exact ⟨_, rfl⟩
      · have hnf2 : startsWithFence (d :: rest') = false := by
          rw [startsWithFence_false_iff]
          intro r' hr'
          simp only [List.cons.injEq] at hr'
          exact hd hr'.1
        rw [stripFences_cons_of_not_fence d rest' hnf2] at hr2
        simp only [List.cons.injEq] at hr2
        exact absurd hr2.1 hd
  | case4 => intro r hr; simp [stripFences] at hr

/-- Removing the fence tokens never leaves or creates a run of three backticks. -/
theorem hasFence_stripFences (s : JSString) : hasFence (stripFences s) = false := by
  induction s using stripFences.induct with
  | case1 rest ih => simpa [stripFences] using ih
  | case2 rest h ih =>
    rw [stripFences.eq_2 rest h]
    exact ih
  | case3 c rest h1 h2 ih =>
    have hnf : startsWithFence (c :: rest) = false := by
      rw [startsWithFence_false_iff]
      intro r' hr'
      simp only [List.cons.injEq] at hr'
      exact h2 r' hr'.1 hr'.2
    rw [stripFences_cons_of_not_fence c rest hnf, hasFence_cons, ih, Bool.or_false,
      startsWithFence_false_iff]
    intro r hr
    simp only [List.cons.injEq] at hr
    obtain ⟨hc, hr2⟩ := hr
    subst hc
    obtain ⟨r', hr'⟩ := stripFences_head2 rest r hr2
    subst hr'
    exact (startsWithFence_false_iff _).1 hnf r' rfl
  | case4 => simp [stripFences, hasFence]

theorem hasFence_append_right (a b : JSString) (h : hasFence (a ++ b) = false) :
    hasFence b = false := by
  induction a with
  | nil => simpa using h
  | cons c a ih =>
    rw [List.cons_append, hasFence_cons] at h
    simp only [Bool.or_eq_false_iff] at h
    exact ih h.2

theorem startsWithFence_append_left (a b : JSString) (h : startsWithFence a = true) :
    startsWithFence (a ++ b) = true := by
  obtain ⟨r, rfl⟩ := (startsWithFence_iff _).1 h
  rfl

theorem hasFence_append_left (a b : JSString) (h : hasFence (a ++ b) = false) :
    hasFence a = false := by
  induction a with
  | nil => rfl
  | cons c a ih =>
    rw [List.cons_append, hasFence_cons] at h
    simp only [Bool.or_eq_false_iff] at h
    rw [hasFence_cons, ih h.2, Bool.or_false]
    by_contra hc
    have hc' : startsWithFence (c :: a) = true := by simpa using hc
    have := startsWithFence_append_left (c :: a) b hc'
    rw [List.cons_append] at this
    rw [this] at h
    exact absurd h.1 (by simp)

theorem hasFence_trimStart (s : JSString) (h : hasFence s = false) :
    hasFence (trimStart s) = false := by
  have hs : s = s.takeWhile isWhiteSpace ++ trimStart s := by
    unfold trimStart; exact (List.takeWhile_append_dropWhile _ _).symm
  rw [hs] at h
  exact hasFence_append_right _ _ h

theorem trimEnd_append_rest (s : JSString) :
    s = trimEnd s ++ (s.reverse.takeWhile isWhiteSpace).reverse := by
  unfold trimEnd
  rw [← List.reverse_append, List.takeWhile_append_dropWhile, List.reverse_reverse]

theorem hasFence_trimEnd (s : JSString) (h : hasFence s = false) :
    hasFence (trimEnd s) = false := by
  rw [trimEnd_append_rest s] at h
  exact hasFence_append_left _ _ h

theorem hasFence_trim (s : JSString) (h : hasFence s = false) : hasFence (trim s) = false :=
  hasFence_trimStart _ (hasFence_trimEnd _ h)

theorem startsWithFence_of_hasFence_false (s : JSString) (h : hasFence s = false) :
    startsWithFence s = false := by
  by_contra hc
  have hc' : startsWithFence s = true := by simpa using hc
  rw [hasFence_of_startsWithFence s hc'] at h
  exact absurd h (by simp)

/-- A text without a fence is left alone by the removal. -/
theorem stripFences_of_hasFence_false (s : JSString) (h : hasFence s = false) :
    stripFences s = s := by
  induction s with
  | nil => rfl
  | cons c s ih =>
    rw [hasFence_cons] at h
    simp only [Bool.or_eq_false_iff] at h
    rw [stripFences_cons_of_not_fence c s h.1, ih h.2]

/-- The removal on a fence-free text followed by a line feed and more. -/
theorem stripFences_append_lf (j r : JSString) (h : hasFence j = false) :
    stripFences (j ++ 10 :: r) = j ++ stripFences (10 :: r) := by
  induction j with
  | nil => rfl
  | cons c j ih =>
    rw [hasFence_cons] at h
    simp only [Bool.or_eq_false_iff] at h
    have hnf : startsWithFence (c :: (j ++ 10 :: r)) = false := by
      rw [startsWithFence_false_iff]
      intro r' hr'
      have h1 := (startsWithFence_false_iff _).1 h.1
      match j, hr' with
      | [], hr' => simp at hr'
      | [d], hr' => simp at hr'
      | d :: d' :: j', hr' =>
        simp only [List.cons_append, List.cons.injEq] at hr'
        exact h1 j' (by rw [hr'.1, hr'.2.1, hr'.2.2.1])
    rw [List.cons_append, stripFences_cons_of_not_fence _ _ hnf, ih h.2, List.cons_append]

theorem normalize_of_fence (t : JSString) (h : startsWithFence (trim t) = true) :
    normalize (some t) = trim (stripFences (trim t)) := by
  have hne : trim t ≠ [] := by
    intro h0; rw [h0] at h; simp [startsWithFence] at h
  simp [normalize, hne, h]

theorem normalize_of_not_fence (t : JSString) (h : startsWithFence (trim t) = false) :
    normalize (some t) = trim t := by
  by_cases hne : trim t = []
  · simp [normalize, hne, startsWithFence]
  · simp [normalize, hne, h]

theorem normalize_fixed (n : JSString) (htrim : trim n = n) (hf : hasFence n = false) :
    normalize (some n) = n := by
  rw [normalize_of_not_fence n (by rw [htrim]; exact startsWithFence_of_hasFence_false n hf),
    htrim]

/-! ## Strings: `QuoteJSONString` read back -/

theorem parseStringBody_quote (rest : JSString) :
    parseStringBody (34 :: rest) = some ([], rest) := by
  rw [parseStringBody.eq_def]
  simp

theorem parseStringBody_nil : parseStringBody [] = none := by
  rw [parseStringBody.eq_def]

theorem parseStringBody_literal (c : Nat) (h34 : c ≠ 34) (h92 : c ≠ 92) (h32 : ¬ c < 32)
    (tail : JSString) :
    parseStringBody (c :: tail) = (parseStringBody tail).map fun p => (c :: p.1, p.2) := by
  rw [parseStringBody.eq_def]
  simp only [h34, h92, h32, if_false]
  cases parseStringBody tail with
  | none => rfl
  | some p => rfl

theorem parseStringBody_escape (x u : Nat) (hx : x ≠ 117) (hu : unescape x = some u)
    (tail : JSString) :
    parseStringBody (92 :: x :: tail) = (parseStringBody tail).map fun p => (u :: p.1, p.2) := by
  rw [parseStringBody.eq_def]
  simp only [hx, hu, if_false, if_true, reduceCtorEq, Nat.reduceEqDiff]
  cases parseStringBody tail with
  | none => rfl
  | some p => rfl

theorem parseStringBody_unicode (h1 h2 h3 h4 a b c d : Nat) (tail : JSString)
    (e1 : hexVal h1 = some a) (e2 : hexVal h2 = some b) (e3 : hexVal h3 = some c)
    (e4 : hexVal h4 = some d) :
    parseStringBody (92 :: 117 :: h1 :: h2 :: h3 :: h4 :: tail) =
      (parseStringBody tail).map fun p => ((((a * 16 + b) * 16 + c) * 16 + d) :: p.1, p.2) := by
  rw [parseStringBody.eq_def]
  simp only [e1, e2, e3, e4, if_false, if_true, reduceCtorEq, Nat.reduceEqDiff]
  cases parseStringBody tail with
  | none => rfl
  | some p => rfl

theorem hexVal_hexDigit (d : Nat) (h : d < 16) : hexVal (hexDigit d) = some d := by
  unfold hexDigit hexVal
  by_cases h10 : d < 10
  · simp only [h10, if_true]
    rw [if_pos (by omega)]
    simp
  · simp only [h10, if_false]
    rw [if_neg (by omega), if_pos (by omega)]
    congr 1

theorem parseStringBody_unicodeEscape (c : Nat) (hc : c < 65536) (tail : JSString) :
    parseStringBody (unicodeEscape c ++ tail) =
      (parseStringBody tail).map fun p => (c :: p.1, p.2) := by
  have e : ((c / 4096 % 16 * 16 + c / 256 % 16) * 16 + c / 16 % 16) * 16 + c % 16 = c := by
    omega
  have h16 : ∀ n : Nat, n % 16 < 16 := fun n => Nat.mod_lt _ (by decide)
  simp only [unicodeEscape, List.cons_append, List.nil_append]
  rw [parseStringBody_unicode _ _ _ _ _ _ _ _ tail (hexVal_hexDigit _ (h16 _))
    (hexVal_hexDigit _ (h16 _)) (hexVal_hexDigit _ (h16 _)) (hexVal_hexDigit _ (h16 _)), e]

theorem parseStringBody_quoteUnit (c : Nat) (tail : JSString) :
    parseStringBody (quoteUnit c ++ tail) =
      (parseStringBody tail).map fun p => (c :: p.1, p.2) := by
  unfold quoteUnit
  split_ifs with h1 h2 h3 h4 h5 h6 h7 h8
  · subst h1; exact parseStringBody_escape 98 8 (by decide) (by decide) tail
  · subst h2; exact parseStringBody_escape 116 9 (by decide) (by decide) tail
  · subst h3; exact parseStringBody_escape 110 10 (by decide) (by decide) tail
  · subst h4; exact parseStringBody_escape 102 12 (by decide) (by decide) tail
  · subst h5; exact parseStringBody_escape 114 13 (by decide) (by decide) tail
  · subst h6; exact parseStringBody_escape 34 34 (by decide) (by decide) tail
  · subst h7; exact parseStringBody_escape 92 92 (by decide) (by decide) tail
  · apply parseStringBody_unicodeEscape
    rcases h8 with h | h | h
    · omega
    · simp only [isHighSurrogate, Bool.and_eq_true, decide_eq_true_eq] at h; omega
    · simp only [isLowSurrogate, Bool.and_eq_true, decide_eq_true_eq] at h; omega
  · rw [List.singleton_append]
    apply parseStringBody_literal c h6 h7
    intro h; exact h8 (Or.inl h)

/-- Reading a quoted string back gives the string, whatever follows the closing quote. -/
theorem parseStringBody_quoteBody (s rest : JSString) :
    parseStringBody (quoteBody s ++ 34 :: rest) = some (s, rest) := by
  induction s using quoteBody.induct with
  | case1 => simp [quoteBody, parseStringBody_quote]
  | case2 c =>
    rw [quoteBody, parseStringBody_quoteUnit, parseStringBody_quote]
    rfl
  | case3 c d r h ih =>
    rw [quoteBody, if_pos h]
    have hc := h.1
    have hd := h.2
    simp only [isHighSurrogate, isLowSurrogate, Bool.and_eq_true, decide_eq_true_eq] at hc hd
    rw [List.cons_append, List.cons_append,
      parseStringBody_literal c (by omega) (by omega) (by omega),
      parseStringBody_literal d (by omega) (by omega) (by omega), ih]
    rfl
  | case4 c d r h ih =>
    rw [quoteBody, if_neg h, List.append_assoc, parseStringBody_quoteUnit, ih]
    rfl

/-! ## Numbers: the printed decimal is a JSON number token -/

theorem noDigitHead_nil : noDigitHead [] := by
  intro c r h; cases h

theorem noDigitHead_cons (c : Nat) (r : JSString) (h : isDigit c = false) :
    noDigitHead (c :: r) := by
  intro c' r' h'
  cases h'
  exact h

theorem noDigitHead_of_numEnds (s : JSString) (h : numEnds s = true) : noDigitHead s := by
  intro c r hs
  subst hs
  simp only [numEnds, Bool.not_eq_true', Bool.or_eq_false_iff] at h
  exact h.1.1.1

theorem takeWhile_digits_append (ds tail : JSString) (hds : ∀ c ∈ ds, isDigit c = true)
    (ht : noDigitHead tail) : (ds ++ tail).takeWhile isDigit = ds := by
  induction ds with
  | nil =>
    cases tail with
    | nil => rfl
    | cons c r => simp [List.takeWhile, ht c r rfl]
  | cons d ds ih =>
    have hd := hds d (List.mem_cons_self _ _)
    rw [List.cons_append, List.takeWhile_cons_of_pos hd,
      ih (fun c hc => hds c (List.mem_cons_of_mem _ hc))]

theorem dropWhile_digits_append (ds tail : JSString) (hds : ∀ c ∈ ds, isDigit c = true)
    (ht : noDigitHead tail) : (ds ++ tail).dropWhile isDigit = tail := by
  induction ds with
  | nil =>
    cases tail with
    | nil => rfl
    | cons c r => simp [List.dropWhile, ht c r rfl]
  | cons d ds ih =>
    have hd := hds d (List.mem_cons_self _ _)
    rw [List.cons_append, List.dropWhile_cons_of_pos hd,
      ih (fun c hc => hds c (List.mem_cons_of_mem _ hc))]

theorem lexInt_append (ds tail : JSString) (h : validInt ds) (ht : noDigitHead tail) :
    lexInt (ds ++ tail) = some (ds, tail) := by
  rcases h with h | ⟨c, r, hds, hc, hall⟩
  · subst h
    simp [lexInt]
  · subst hds
    have hcd := hall c (List.mem_cons_self _ _)
    have hr : ∀ x ∈ r, isDigit x = true := fun x hx => hall x (List.mem_cons_of_mem _ hx)
    simp only [List.cons_append, lexInt, if_neg hc, hcd, if_true,
      takeWhile_digits_append r tail hr ht, dropWhile_digits_append r tail hr ht]

theorem lexFrac_absent (tail : JSString) (h : ∀ r, tail ≠ 46 :: r) :
    lexFrac tail = some ([], tail) := by
  cases tail with
  | nil => rfl
  | cons c r =>
    have hc : c ≠ 46 := fun hc => h r (by rw [hc])
    simp [lexFrac, hc]

theorem lexFrac_present (fs tail : JSString) (hne : fs ≠ []) (hfs : ∀ c ∈ fs, isDigit c = true)
    (ht : noDigitHead tail) : lexFrac (46 :: (fs ++ tail)) = some (fs, tail) := by
  simp only [lexFrac, if_true, takeWhile_digits_append fs tail hfs ht,
    dropWhile_digits_append fs tail hfs ht, if_neg hne]

theorem lexExp_absent (tail : JSString) (h : ∀ r, tail ≠ 101 :: r ∧ tail ≠ 69 :: r) :
    lexExp tail = some (0, tail) := by
  cases tail with
  | nil => rfl
  | cons c r =>
    have hc : ¬ (c = 101 ∨ c = 69) := by
      rintro (hc | hc)
      · exact (h r).1 (by rw [hc])
      · exact (h r).2 (by rw [hc])
    simp [lexExp, hc]

theorem lexExpDigits_append (b : Bool) (xs tail : JSString) (hne : xs ≠ [])
    (hxs : ∀ c ∈ xs, isDigit c = true) (ht : noDigitHead tail) :
    lexExpDigits b (xs ++ tail) =
      some (if b then -(digitsValue xs : Int) else (digitsValue xs : Int), tail) := by
  simp only [lexExpDigits, takeWhile_digits_append xs tail hxs ht,
    dropWhile_digits_append xs tail hxs ht, if_neg hne]

theorem lexExp_present (sign : Nat) (hs : sign = 43 ∨ sign = 45) (xs tail : JSString)
    (hne : xs ≠ []) (hxs : ∀ c ∈ xs, isDigit c = true) (ht : noDigitHead tail) :
    lexExp (101 :: sign :: (xs ++ tail)) =
      some (if sign = 45 then -(digitsValue xs : Int) else (digitsValue xs : Int), tail) := by
  rcases hs with hs | hs
  · subst hs
    simp [lexExp, lexExpDigits_append false xs tail hne hxs ht]
  · subst hs
    simp [lexExp, lexExpDigits_append true xs tail hne hxs ht]

theorem numEnds_iff (s : JSString) :
    numEnds s = true ↔ ∀ c r, s = c :: r → isDigit c = false ∧ c ≠ 46 ∧ c ≠ 101 ∧ c ≠ 69 := by
  cases s with
  | nil => simp [numEnds]
  | cons c r =>
    simp only [numEnds, Bool.not_eq_true', Bool.or_eq_false_iff, decide_eq_false_iff_not,
      List.cons.injEq, and_imp]
    constructor
    · rintro ⟨⟨⟨h1, h2⟩, h3⟩, h4⟩ c' r' hc _
      subst hc
      exact ⟨h1, h2, h3, h4⟩
    · intro h
      obtain ⟨h1, h2, h3, h4⟩ := h c r rfl rfl
      exact ⟨⟨⟨h1, h2⟩, h3⟩, h4⟩

/-- A sign, an integer part, a fraction and an exponent lex as one number token whose
value does not depend on what follows. -/
theorem lexNumber_parts (neg : Bool) (ds fs : JSString) (x : Option (Nat × JSString))
    (rest : JSString) (hds : validInt ds) (hfs : ∀ c ∈ fs, isDigit c = true)
    (hx : validExp x) (hrest : numEnds rest = true) :
    lexNumber ((if neg then [45] else []) ++ (ds ++ (fracText fs ++ (expText x ++ rest)))) =
      some (decimalToDouble neg (digitsValue (ds ++ fs)) (expValue x - fs.length), rest) := by
  have hr := (numEnds_iff rest).1 hrest
  have hnd : noDigitHead rest := noDigitHead_of_numEnds rest hrest
  -- the exponent part
  have hexp : lexExp (expText x ++ rest) = some (expValue x, rest) := by
    cases x with
    | none =>
      simp only [expText, expValue, List.nil_append]
      apply lexExp_absent
      intro r
      constructor
      · intro h; exact (hr _ _ h).2.2.1 rfl
      · intro h; exact (hr _ _ h).2.2.2 rfl
    | some p =>
      obtain ⟨sign, xs⟩ := p
      obtain ⟨hs, hne, hxs⟩ := hx
      simp only [expText, expValue, List.cons_append]
      exact lexExp_present sign hs xs rest hne hxs hnd
  have hnd2 : noDigitHead (expText x ++ rest) := by
    cases x with
    | none => simpa [expText] using hnd
    | some p => exact noDigitHead_cons _ _ (by decide)
  -- the fraction part
  have hfrac : lexFrac (fracText fs ++ (expText x ++ rest)) = some (fs, expText x ++ rest) := by
    unfold fracText
    by_cases hf : fs = []
    · subst hf
      simp only [if_true, List.nil_append]
      apply lexFrac_absent
      intro r h
      cases x with
      | none =>
        simp only [expText, List.nil_append] at h
        exact (hr _ _ h).2.1 rfl
      | some p => simp [expText] at h
    · simp only [if_neg hf, List.cons_append]
      exact lexFrac_present fs _ hf hfs hnd2
  have hnd3 : noDigitHead (fracText fs ++ (expText x ++ rest)) := by
    unfold fracText
    by_cases hf : fs = []
    · simpa [hf] using hnd2
    · simp only [if_neg hf, List.cons_append]
      exact noDigitHead_cons _ _ (by decide)
  have hint := lexInt_append ds _ hds hnd3
  have hhead : ∀ t : JSString, (ds ++ t).head? ≠ some 45 := by
    intro t
    rcases hds with h | ⟨c, r, h, -, hall⟩
    · subst h; simp
    · subst h
      have := hall c (List.mem_cons_self _ _)
      simp only [List.cons_append, List.head?_cons, ne_eq, Option.some.injEq]
      intro hc
      subst hc
      simp [isDigit] at this
  cases neg with
  | true =>
    simp only [if_true, List.singleton_append, lexNumber, List.head?_cons, decide_True,
      List.tail_cons, hint, hfrac, hexp]
  | false =>
    simp only [Bool.false_eq_true, if_false, List.nil_append, lexNumber, hhead, decide_False,
      hint, hfrac, hexp]

theorem log2Aux_spec (f : Nat) : ∀ n, n ≤ f → n < 2 ^ (log2Aux f n + 1) := by
  induction f with
  | zero => intro n h; simp [log2Aux]; omega
  | succ f ih =>
    intro n h
    unfold log2Aux
    by_cases h2 : n < 2
    · simp [h2]
    · simp only [h2, if_false]
      have := ih (n / 2) (by omega)
      rw [pow_succ]
      omega

theorem lt_two_pow_log2 (n : Nat) : n < 2 ^ (log2 n + 1) := log2Aux_spec n n (le_refl n)

theorem decDigitsAux_lt (f : Nat) : ∀ n acc, (∀ d ∈ acc, d < 10) →
    ∀ d ∈ decDigitsAux f n acc, d < 10 := by
  induction f with
  | zero => intro n acc h; simpa [decDigitsAux] using h
  | succ f ih =>
    intro n acc h
    unfold decDigitsAux
    by_cases h10 : n < 10
    · simp only [h10, if_true]
      intro d hd
      rcases List.mem_cons.1 hd with hd | hd
      · omega
      · exact h d hd
    · simp only [h10, if_false]
      apply ih
      intro d hd
      rcases List.mem_cons.1 hd with hd | hd
      · omega
      · exact h d hd

theorem decDigitsAux_head (f : Nat) : ∀ n acc, 0 < n → n < 2 ^ f →
    ∃ d r, decDigitsAux f n acc = d :: r ∧ d ≠ 0 := by
  induction f with
  | zero => intro n acc h0 h; simp at h; omega
  | succ f ih =>
    intro n acc h0 h
    unfold decDigitsAux
    by_cases h10 : n < 10
    · simp only [h10, if_true]
      exact ⟨n, acc, rfl, by omega⟩
    · simp only [h10, if_false]
      apply ih
      · omega
      · rw [pow_succ] at h; omega

theorem decDigits_lt (n : Nat) : ∀ d ∈ decDigits n, d < 10 :=
  decDigitsAux_lt _ n [] (by simp)

theorem decDigits_ne_nil (n : Nat) : decDigits n ≠ [] := by
  unfold decDigits decDigitsAux
  by_cases h10 : n < 10
  · simp [h10]
  · simp only [h10, if_false]
    intro h
    have : ∀ f m acc, acc ≠ [] → decDigitsAux f m acc ≠ [] := by
      intro f
      induction f with
      | zero => intro m acc h; simpa [decDigitsAux] using h
      | succ f ih =>
        intro m acc h
        unfold decDigitsAux
        split_ifs
        · simp
        · exact ih _ _ (by simp)
    exact this _ _ _ (by simp) h

theorem properDigits_decDigits (n : Nat) (h : 0 < n) : properDigits (decDigits n) :=
  ⟨decDigitsAux_head _ n [] h (lt_two_pow_log2 n), decDigits_lt n⟩

/-! ### The search returns a positive digit string -/

theorem positiveCandidate_none : positiveCandidate none := by
  intro s n h; cases h

theorem positiveCandidate_closer (a b k : Nat) (x y : Option (Nat × Int))
    (hx : positiveCandidate x) (hy : positiveCandidate y) :
    positiveCandidate (closer a b k x y) := by
  unfold closer
  split
  · exact hy
  · exact hx
  · split_ifs
    · exact hy
    · exact hy
    · exact hx

theorem positiveCandidate_guard (m : Nat) (e : Int) (k s : Nat) (n : Int) :
    positiveCandidate (if isShortestCandidate m e k s n then some (s, n) else none) := by
  intro s' n' h
  split_ifs at h with hc
  simp only [Option.some.injEq, Prod.mk.injEq] at h
  obtain ⟨rfl, rfl⟩ := h
  simp only [isShortestCandidate, Bool.and_eq_true, decide_eq_true_eq] at hc
  have : 0 < 10 ^ (k - 1) := Nat.pow_pos (by decide)
  omega

theorem positiveCandidate_candidatesAt (m : Nat) (e : Int) (a b k : Nat) (n : Int) :
    positiveCandidate (candidatesAt m e a b k n) := by
  unfold candidatesAt
  exact positiveCandidate_closer _ _ _ _ _ (positiveCandidate_guard _ _ _ _ _)
    (positiveCandidate_guard _ _ _ _ _)

theorem positiveCandidate_candidatesWith (m : Nat) (e : Int) (a b k : Nat) :
    positiveCandidate (candidatesWith m e a b k) := by
  unfold candidatesWith
  exact positiveCandidate_closer _ _ _ _ _
    (positiveCandidate_closer _ _ _ _ _ (positiveCandidate_candidatesAt _ _ _ _ _ _)
      (positiveCandidate_candidatesAt _ _ _ _ _ _))
    (positiveCandidate_closer _ _ _ _ _ (positiveCandidate_candidatesAt _ _ _ _ _ _)
      (positiveCandidate_candidatesAt _ _ _ _ _ _))

theorem positiveCandidate_shortestFrom (m : Nat) (e : Int) (a b : Nat) (f : Nat) :
    ∀ k, positiveCandidate (shortestFrom m e a b f k) := by
  induction f with
  | zero => intro k; exact positiveCandidate_none
  | succ f ih =>
    intro k
    unfold shortestFrom
    split
    · rename_i r hr
      rw [← hr]
      exact positiveCandidate_candidatesWith _ _ _ _ _
    · exact ih _

theorem shortestDecimal_pos (m : Nat) (e : Int) (hm : 0 < m) : 0 < (shortestDecimal m e).1 := by
  unfold shortestDecimal
  split
  · rename_i r hr
    exact positiveCandidate_shortestFrom _ _ _ _ _ _ r.1 r.2 hr
  · split_ifs
    · exact Nat.mul_pos hm (Nat.pow_pos (by decide))
    · exact Nat.mul_pos hm (Nat.pow_pos (by decide))

theorem isDigit_add48 (d : Nat) (h : d < 10) : isDigit (d + 48) = true := by
  simp only [isDigit, Bool.and_eq_true, decide_eq_true_eq]; omega

theorem digitChars_isDigit (ds : List Nat) (h : ∀ d ∈ ds, d < 10) :
    ∀ c ∈ digitChars ds, isDigit c = true := by
  intro c hc
  simp only [digitChars, List.mem_map] at hc
  obtain ⟨d, hd, rfl⟩ := hc
  exact isDigit_add48 d (h d hd)

theorem zeros_isDigit (n : Nat) : ∀ c ∈ zeros n, isDigit c = true := by
  intro c hc
  simp only [zeros, List.mem_replicate] at hc
  rw [hc.2]; rfl

theorem validInt_of_properDigits (ds : List Nat) (h : properDigits ds) (tail : JSString)
    (ht : ∀ c ∈ tail, isDigit c = true) : validInt (digitChars ds ++ tail) := by
  obtain ⟨⟨d, r, hds, hd⟩, hlt⟩ := h
  right
  refine ⟨d + 48, digitChars r ++ tail, ?_, by omega, ?_⟩
  · subst hds; simp [digitChars]
  · intro x hx
    rcases List.mem_append.1 hx with hx | hx
    · exact digitChars_isDigit ds hlt x hx
    · exact ht x hx

theorem properDigits_take (ds : List Nat) (h : properDigits ds) (n : Nat) (hn : 0 < n) :
    properDigits (ds.take n) := by
  obtain ⟨⟨d, r, hds, hd⟩, hlt⟩ := h
  subst hds
  obtain ⟨n', rfl⟩ := Nat.exists_eq_succ_of_ne_zero (Nat.pos_iff_ne_zero.1 hn)
  refine ⟨⟨d, r.take n', by simp, hd⟩, ?_⟩
  intro x hx
  exact hlt x (List.mem_of_mem_take hx)

theorem fracText_of_ne_nil (fs : JSString) (h : fs ≠ []) : fracText fs = 46 :: fs := by
  simp [fracText, h]

/-- The layout of `Number::toString` is an integer part, a fraction and an exponent. -/
theorem formatDecimal_shape (ds : List Nat) (n : Int) (h : properDigits ds) :
    ∃ (I F : JSString) (x : Option (Nat × JSString)), validInt I ∧
      (∀ c ∈ F, isDigit c = true) ∧ validExp x ∧
      formatDecimal ds n = I ++ (fracText F ++ (expText x ++ [])) := by
  have hlt := h.2
  unfold formatDecimal
  simp only []
  by_cases h1 : (ds.length : Int) ≤ n ∧ n ≤ 21
  · rw [if_pos h1]
    refine ⟨digitChars ds ++ zeros (n - ds.length).toNat, [], none,
      validInt_of_properDigits ds h _ (zeros_isDigit _), by simp, trivial, ?_⟩
    simp [fracText, expText]
  rw [if_neg h1]
  by_cases h2 : 0 < n ∧ n ≤ 21
  · rw [if_pos h2]
    have hn : 0 < n.toNat := by omega
    have hlen : n.toNat < ds.length := by omega
    refine ⟨digitChars (ds.take n.toNat), digitChars (ds.drop n.toNat), none, ?_, ?_, trivial, ?_⟩
    · have := validInt_of_properDigits _ (properDigits_take ds h _ hn) [] (by simp)
      simpa using this
    · exact digitChars_isDigit _ (fun d hd => hlt d (List.mem_of_mem_drop hd))
    · rw [fracText_of_ne_nil]
      · simp [expText]
      · simp only [digitChars, ne_eq, List.map_eq_nil_iff, List.drop_eq_nil_iff, not_le]
        exact hlen
  rw [if_neg h2]
  by_cases h3 : -6 < n ∧ n ≤ 0
  · rw [if_pos h3]
    refine ⟨[48], zeros (-n).toNat ++ digitChars ds, none, Or.inl rfl, ?_, trivial, ?_⟩
    · intro c hc
      rcases List.mem_append.1 hc with hc | hc
      · exact zeros_isDigit _ c hc
      · exact digitChars_isDigit ds hlt c hc
    · rw [fracText_of_ne_nil]
      · simp [expText]
      · obtain ⟨⟨d, r, hds, -⟩, -⟩ := h
        subst hds
        simp [digitChars]
  rw [if_neg h3]
  have hs : (if n - 1 < 0 then 45 else 43 : Nat) = 43 ∨
      (if n - 1 < 0 then 45 else 43 : Nat) = 45 := by
    split_ifs
    · exact Or.inr rfl
    · exact Or.inl rfl
  generalize (if n - 1 < 0 then 45 else 43 : Nat) = sign at hs ⊢
  have hx : validExp (some (sign, digitChars (decDigits (n - 1).natAbs))) := by
    refine ⟨hs, ?_, digitChars_isDigit _ (decDigits_lt _)⟩
    simp only [digitChars, ne_eq, List.map_eq_nil_iff]
    exact decDigits_ne_nil _
  obtain ⟨⟨d, r, hds, hd⟩, -⟩ := h
  subst hds
  have hI : validInt [d + 48] := by
    right
    refine ⟨d + 48, [], rfl, by omega, ?_⟩
    intro x hx'
    simp only [List.mem_singleton] at hx'
    subst hx'
    exact isDigit_add48 d (hlt d (by simp))
  cases r with
  | nil =>
    refine ⟨[d + 48], [], _, hI, by simp, hx, ?_⟩
    simp [fracText, expText]
  | cons d' r' =>
    refine ⟨[d + 48], digitChars (d' :: r'), _, hI, ?_, hx, ?_⟩
    · exact digitChars_isDigit _ (fun x hx' => hlt x (List.mem_cons_of_mem _ hx'))
    · rw [fracText_of_ne_nil _ (by simp [digitChars])]
      simp [expText, digitChars]

/-- The text `JSON.stringify` gives a finite Number is one number token, whatever
delimiter follows, and its value does not depend on what follows. -/
theorem lexNumber_numberToString (neg : Bool) (m : Nat) (e : Int) :
    ∃ d, ∀ rest, numEnds rest = true →
      lexNumber (numberToString neg m e ++ rest) = some (d, rest) := by
  unfold numberToString
  by_cases hm : m = 0
  · refine ⟨decimalToDouble false (digitsValue ([48] ++ [])) (expValue none - ([] : JSString).length), ?_⟩
    intro rest hrest
    have := lexNumber_parts false [48] [] none rest (Or.inl rfl) (by simp) trivial hrest
    simpa [hm, fracText, expText] using this
  · obtain ⟨I, F, x, hI, hF, hx, hfmt⟩ := formatDecimal_shape
      (decDigits (shortestDecimal m e).1) (shortestDecimal m e).2
      (properDigits_decDigits _ (shortestDecimal_pos m e (Nat.pos_of_ne_zero hm)))
    refine ⟨decimalToDouble neg (digitsValue (I ++ F)) (expValue x - F.length), ?_⟩
    intro rest hrest
    have := lexNumber_parts neg I F x rest hI hF hx hrest
    rw [if_neg hm, hfmt]
    simpa [List.append_assoc] using this

theorem numberToString_ne_nil (neg : Bool) (m : Nat) (e : Int) : numberToString neg m e ≠ [] := by
  intro h
  obtain ⟨d, hd⟩ := lexNumber_numberToString neg m e
  have := hd [] rfl
  rw [h] at this
  simp [lexNumber, lexInt] at this

/-! ## The parser, case by case -/

theorem parseValue_zero (inp : JSString) : parseValue 0 inp = none := by
  rw [parseValue]

theorem parseElems_zero (inp : JSString) : parseElems 0 inp = none := by
  rw [parseElems]

theorem parseMembers_zero (inp : JSString) : parseMembers 0 inp = none := by
  rw [parseMembers]

theorem parseElems_succ_iff (f : Nat) (inp : JSString) (vs : List JSON) (r : JSString) :
    parseElems (f + 1) inp = some (vs, r) ↔
      ∃ v r1 c rest, parseValue f inp = some (v, r1) ∧ skipWs r1 = c :: rest ∧
        ((c = 44 ∧ ∃ vs', parseElems f rest = some (vs', r) ∧ vs = v :: vs') ∨
          (c = 93 ∧ vs = [v] ∧ r = rest)) := by
  rw [parseElems]
  constructor
  · intro h
    split at h
    · cases h
    · rename_i v r1 hv
      split at h
      · cases h
      · rename_i c rest hc
        refine ⟨v, r1, c, rest, hv, hc, ?_⟩
        split_ifs at h with h44 h93
        · left
          split at h
          · rename_i vs' r' he
            simp only [Option.some.injEq, Prod.mk.injEq] at h
            obtain ⟨rfl, rfl⟩ := h
            exact ⟨h44, vs', he, rfl⟩
          · cases h
        · right
          simp only [Option.some.injEq, Prod.mk.injEq] at h
          obtain ⟨rfl, rfl⟩ := h
          exact ⟨h93, rfl, rfl⟩
  · rintro ⟨v, r1, c, rest, hv, hc, h⟩
    rw [hv]
    simp only [hc]
    rcases h with ⟨rfl, vs', he, rfl⟩ | ⟨rfl, rfl, rfl⟩
    · simp [he]
    · simp

theorem parseMembers_succ_iff (f : Nat) (inp : JSString) (ms : List (JSString × JSON))
    (r : JSString) :
    parseMembers (f + 1) inp = some (ms, r) ↔
      ∃ rest k r1 r2 v r3 c r4, skipWs inp = 34 :: rest ∧ parseStringBody rest = some (k, r1) ∧
        skipWs r1 = 58 :: r2 ∧ parseValue f r2 = some (v, r3) ∧ skipWs r3 = c :: r4 ∧
        ((c = 44 ∧ ∃ ms', parseMembers f r4 = some (ms', r) ∧ ms = (k, v) :: ms') ∨
          (c = 125 ∧ ms = [(k, v)] ∧ r = r4)) := by
  rw [parseMembers]
  constructor
  · intro h
    split at h
    · cases h
    · rename_i q rest hq
      split_ifs at h with hq34
      subst hq34
      split at h
      · cases h
      · rename_i k r1 hk
        split at h
        · cases h
        · rename_i colon r2 hcolon
          split_ifs at h with h58
          subst h58
          split at h
          · cases h
          · rename_i v r3 hv
            split at h
            · cases h
            · rename_i c r4 hc
              refine ⟨rest, k, r1, r2, v, r3, c, r4, hq, hk, hcolon, hv, hc, ?_⟩
              split_ifs at h with h44 h125
              · left
                split at h
                · rename_i ms' r' hm
                  simp only [Option.some.injEq, Prod.mk.injEq] at h
                  obtain ⟨rfl, rfl⟩ := h
                  exact ⟨h44, ms', hm, rfl⟩
                · cases h
              · right
                simp only [Option.some.injEq, Prod.mk.injEq] at h
                obtain ⟨rfl, rfl⟩ := h
                exact ⟨h125, rfl, rfl⟩
  · rintro ⟨rest, k, r1, r2, v, r3, c, r4, hq, hk, hcolon, hv, hc, h⟩
    simp only [hq, hk, hcolon, hv, hc, if_true]
    rcases h with ⟨rfl, ms', hm, rfl⟩ | ⟨rfl, rfl, rfl⟩
    · simp [hm]
    · simp

theorem parseValue_succ_iff (f : Nat) (inp : JSString) (v : JSON) (r : JSString) :
    parseValue (f + 1) inp = some (v, r) ↔
      ∃ c rest, skipWs inp = c :: rest ∧ ValueCase f c rest v r := by
  rw [parseValue]
  unfold ValueCase
  constructor
  · intro h
    split at h
    · cases h
    · rename_i c rest hc
      refine ⟨c, rest, hc, ?_⟩
      split_ifs at h with h1 h2 h3 h4 h5 h6
      · left
        refine ⟨h1, ?_⟩
        split at h
        · cases h
        · rename_i d rest1 hd
          refine ⟨d, rest1, hd, ?_⟩
          split_ifs at h with h125
          · simp only [Option.some.injEq, Prod.mk.injEq] at h
            exact Or.inl ⟨h125, h.1.symm, h.2.symm⟩
          · split at h
            · rename_i ms r' hm
              simp only [Option.some.injEq, Prod.mk.injEq] at h
              obtain ⟨rfl, rfl⟩ := h
              exact Or.inr ⟨h125, ms, hm, rfl⟩
            · cases h
      · right; left
        refine ⟨h2, ?_⟩
        split at h
        · cases h
        · rename_i d rest1 hd
          refine ⟨d, rest1, hd, ?_⟩
          split_ifs at h with h93
          · simp only [Option.some.injEq, Prod.mk.injEq] at h
            exact Or.inl ⟨h93, h.1.symm, h.2.symm⟩
          · split at h
            · rename_i vs r' he
              simp only [Option.some.injEq, Prod.mk.injEq] at h
              obtain ⟨rfl, rfl⟩ := h
              exact Or.inr ⟨h93, vs, he, rfl⟩
            · cases h
      · right; right; left
        refine ⟨h3, ?_⟩
        split at h
        · rename_i s r' hs
          simp only [Option.some.injEq, Prod.mk.injEq] at h
          obtain ⟨rfl, rfl⟩ := h
          exact ⟨s, hs, rfl⟩
        · cases h
      · right; right; right; left
        refine ⟨h4, ?_⟩
        split at h
        · simp only [Option.some.injEq, Prod.mk.injEq] at h
          obtain ⟨rfl, rfl⟩ := h
          exact ⟨rfl, rfl⟩
        · cases h
      · right; right; right; right; left
        refine ⟨h5, ?_⟩
        split at h
        · simp only [Option.some.injEq, Prod.mk.injEq] at h
          obtain ⟨rfl, rfl⟩ := h
          exact ⟨rfl, rfl⟩
        · cases h
      · right; right; right; right; right; left
        refine ⟨h6, ?_⟩
        split at h
        · simp only [Option.some.injEq, Prod.mk.injEq] at h
          obtain ⟨rfl, rfl⟩ := h
          exact ⟨rfl, rfl⟩
        · cases h
      · right; right; right; right; right; right
        refine ⟨⟨h1, h2, h3, h4, h5, h6⟩, ?_⟩
        split at h
        · rename_i n r' hn
          simp only [Option.some.injEq, Prod.mk.injEq] at h
          obtain ⟨rfl, rfl⟩ := h
          exact ⟨n, hn, rfl⟩
        · cases h
  · rintro ⟨c, rest, hc, h⟩
    simp only [hc]
    rcases h with ⟨rfl, d, rest1, hd, h⟩ | ⟨rfl, d, rest1, hd, h⟩ | ⟨rfl, s, hs, rfl⟩ |
      ⟨rfl, rfl, rfl⟩ | ⟨rfl, rfl, rfl⟩ | ⟨rfl, rfl, rfl⟩ | ⟨⟨h1, h2, h3, h4, h5, h6⟩, n, hn, rfl⟩
    · simp only [if_true, hd]
      rcases h with ⟨rfl, rfl, rfl⟩ | ⟨h125, ms, hm, rfl⟩
      · simp
      · simp [h125, hm]
    · simp only [if_neg (by decide : ¬ (91 = 123)), if_true, hd]
      rcases h with ⟨rfl, rfl, rfl⟩ | ⟨h93, vs, he, rfl⟩
      · simp
      · simp [h93, he]
    · simp [hs]
    · simp
    · simp
    · simp
    · simp [h1, h2, h3, h4, h5, h6, hn]

/-! ## White space -/

theorem skipWs_cons_of_not_ws (c : Nat) (s : JSString) (h : isJsonWs c = false) :
    skipWs (c :: s) = c :: s := by
  simp [skipWs, List.dropWhile, h]

theorem skipWs_append_of_ws (ws s : JSString) (h : ∀ x ∈ ws, isJsonWs x = true) :
    skipWs (ws ++ s) = skipWs s := by
  induction ws with
  | nil => rfl
  | cons w ws ih =>
    have hw := h w (List.mem_cons_self _ _)
    unfold skipWs at ih ⊢
    rw [List.cons_append, List.dropWhile_cons_of_pos hw]
    exact ih (fun x hx => h x (List.mem_cons_of_mem _ hx))

theorem skipWs_eq_cons (inp : JSString) (c : Nat) (rest : JSString)
    (h : skipWs inp = c :: rest) :
    ∃ ws, inp = ws ++ c :: rest ∧ (∀ x ∈ ws, isJsonWs x = true) ∧ isJsonWs c = false := by
  refine ⟨inp.takeWhile isJsonWs, ?_, ?_, ?_⟩
  · unfold skipWs at h
    rw [← h, List.takeWhile_append_dropWhile]
  · intro x hx
    exact List.mem_takeWhile_imp hx
  · unfold skipWs at h
    have := List.head_dropWhile_not isJsonWs inp (by rw [h]; simp)
    simpa [h] using this

theorem skipWs_ws_cons (ws : JSString) (c : Nat) (s : JSString)
    (h : ∀ x ∈ ws, isJsonWs x = true) (hc : isJsonWs c = false) :
    skipWs (ws ++ c :: s) = c :: s := by
  rw [skipWs_append_of_ws ws _ h, skipWs_cons_of_not_ws c s hc]

theorem skipWs_eq_nil_iff (s : JSString) : skipWs s = [] ↔ ∀ x ∈ s, isJsonWs x = true := by
  unfold skipWs
  rw [List.dropWhile_eq_nil_iff]

theorem isWhiteSpace_of_isJsonWs (c : Nat) (h : isJsonWs c = true) : isWhiteSpace c = true := by
  simp only [isJsonWs, Bool.or_eq_true, decide_eq_true_eq] at h
  rcases h with ((h | h) | h) | h <;> subst h <;> rfl

/-- The consumed prefix ends in a code unit that `trim` keeps. -/
theorem numEnds_ws_cons (ws : JSString) (c : Nat) (s : JSString)
    (h : ∀ x ∈ ws, isJsonWs x = true) (hc : c = 44 ∨ c = 93 ∨ c = 125 ∨ c = 58) :
    numEnds (ws ++ c :: s) = true := by
  cases ws with
  | nil =>
    rcases hc with hc | hc | hc | hc <;> subst hc <;> rfl
  | cons w ws =>
    have hw := h w (List.mem_cons_self _ _)
    simp only [isJsonWs, Bool.or_eq_true, decide_eq_true_eq] at hw
    rcases hw with ((hw | hw) | hw) | hw <;> subst hw <;> rfl

/-! ## Strings: the consumed prefix -/

theorem parseStringBody_frame (inp : JSString) :
    ∀ s r, parseStringBody inp = some (s, r) →
      ∃ c, inp = c ++ 34 :: r ∧ ∀ y, parseStringBody (c ++ 34 :: y) = some (s, y) := by
  induction inp using parseStringBody.induct with
  | case1 => intro s r h; rw [parseStringBody_nil] at h; cases h
  | case2 rest =>
    intro s r h
    rw [parseStringBody_quote] at h
    simp only [Option.some.injEq, Prod.mk.injEq] at h
    obtain ⟨rfl, rfl⟩ := h
    exact ⟨[], rfl, fun y => parseStringBody_quote y⟩
  | case3 _ => intro s r h; rw [parseStringBody.eq_def] at h; simp at h
  | case4 h1 h2 h3 h4 rest2 a b c d e4 e3 e2 e1 s' r' hrec _ ih =>
    intro s r h
    rw [parseStringBody_unicode h1 h2 h3 h4 a b c d rest2 e1 e2 e3 e4, hrec] at h
    simp only [Option.map_some', Option.some.injEq, Prod.mk.injEq] at h
    obtain ⟨rfl, rfl⟩ := h
    obtain ⟨c0, hc0, hy⟩ := ih s' r' hrec
    refine ⟨92 :: 117 :: h1 :: h2 :: h3 :: h4 :: c0, by simp [hc0], ?_⟩
    intro y
    simp only [List.cons_append]
    rw [parseStringBody_unicode h1 h2 h3 h4 a b c d _ e1 e2 e3 e4, hy y]
    rfl
  | case5 h1 h2 h3 h4 rest2 a b c d e4 e3 e2 e1 hrec _ ih =>
    intro s r h
    rw [parseStringBody_unicode h1 h2 h3 h4 a b c d rest2 e1 e2 e3 e4, hrec] at h
    cases h
  | case6 h1 h2 h3 h4 rest2 hno _ =>
    intro s r h
    rw [parseStringBody.eq_def] at h
    simp only [if_false, if_true, reduceCtorEq, Nat.reduceEqDiff] at h
  | case7 rest' hno _ =>
    intro s r h
    rw [parseStringBody.eq_def] at h
    simp only [if_false, if_true, reduceCtorEq, Nat.reduceEqDiff] at h
  | case8 d rest' hd u hu s' r' hrec _ ih =>
    intro s r h
    rw [parseStringBody_escape d u hd hu, hrec] at h
    simp only [Option.map_some', Option.some.injEq, Prod.mk.injEq] at h
    obtain ⟨rfl, rfl⟩ := h
    obtain ⟨c0, hc0, hy⟩ := ih s' r' hrec
    refine ⟨92 :: d :: c0, by simp [hc0], ?_⟩
    intro y
    simp only [List.cons_append]
    rw [parseStringBody_escape d u hd hu, hy y]
    rfl
  | case9 d rest' hd u hu hrec _ ih =>
    intro s r h
    rw [parseStringBody_escape d u hd hu, hrec] at h
    cases h
  | case10 d rest' hd hu _ =>
    intro s r h
    rw [parseStringBody.eq_def] at h
    simp [hd, hu] at h
  | case11 c rest h34 h92 h32 =>
    intro s r h
    rw [parseStringBody.eq_def] at h
    simp [h34, h92, h32] at h
  | case12 c rest h34 h92 h32 s' r' hrec ih =>
    intro s r h
    rw [parseStringBody_literal c h34 h92 h32, hrec] at h
    simp only [Option.map_some', Option.some.injEq, Prod.mk.injEq] at h
    obtain ⟨rfl, rfl⟩ := h
    obtain ⟨c0, hc0, hy⟩ := ih s' r' hrec
    refine ⟨c :: c0, by simp [hc0], ?_⟩
    intro y
    simp only [List.cons_append]
    rw [parseStringBody_literal c h34 h92 h32, hy y]
    rfl
  | case13 c rest h34 h92 h32 hrec ih =>
    intro s r h
    rw [parseStringBody_literal c h34 h92 h32, hrec] at h
    cases h

/-! ## Numbers: the consumed prefix -/

theorem endsWithDigit_append (a b : JSString) (h : endsWithDigit b) : endsWithDigit (a ++ b) := by
  obtain ⟨l, x, rfl, hx⟩ := h
  exact ⟨a ++ l, x, by simp, hx⟩

theorem endsWithDigit_of_all (l : JSString) (hne : l ≠ []) (h : ∀ x ∈ l, isDigit x = true) :
    endsWithDigit l := by
  refine ⟨l.dropLast, l.getLast hne, (List.dropLast_append_getLast hne).symm, ?_⟩
  exact h _ (List.getLast_mem hne)

theorem endsToken_of_endsWithDigit (l : JSString) (h : endsWithDigit l) : endsToken l := by
  obtain ⟨l', x, rfl, hx⟩ := h
  refine ⟨l', x, rfl, ?_⟩
  simp only [isDigit, Bool.and_eq_true, decide_eq_true_eq] at hx
  simp only [isWhiteSpace, Bool.or_eq_false_iff, decide_eq_false_iff_not, Bool.and_eq_false_imp,
    decide_eq_true_eq]
  omega

theorem endsToken_append (a b : JSString) (h : endsToken b) : endsToken (a ++ b) := by
  obtain ⟨l, x, rfl, hx⟩ := h
  exact ⟨a ++ l, x, by simp, hx⟩

theorem endsToken_singleton (x : Nat) (h : isWhiteSpace x = false) (a : JSString) :
    endsToken (a ++ [x]) := ⟨a, x, rfl, h⟩

theorem takeWhile_all (p : Nat → Bool) (l : JSString) : ∀ x ∈ l.takeWhile p, p x = true :=
  fun _ hx => List.mem_takeWhile_imp hx

theorem noDigitHead_dropWhile (l : JSString) : noDigitHead (l.dropWhile isDigit) := by
  intro c r h
  have := List.head_dropWhile_not isDigit l (by rw [h]; simp)
  simpa [h] using this

theorem lexInt_frame (inp ds r : JSString) (h : lexInt inp = some (ds, r)) :
    inp = ds ++ r ∧ endsWithDigit ds ∧ (∀ t : JSString, (ds ++ t).head? ≠ some 45) ∧
      ∀ y, noDigitHead y → lexInt (ds ++ y) = some (ds, y) := by
  cases inp with
  | nil => simp [lexInt] at h
  | cons c rest =>
    simp only [lexInt] at h
    split_ifs at h with h48 hd
    · simp only [Option.some.injEq, Prod.mk.injEq] at h
      obtain ⟨rfl, rfl⟩ := h
      subst h48
      refine ⟨rfl, ⟨[], 48, rfl, rfl⟩, by simp, ?_⟩
      intro y _
      simp [lexInt]
    · simp only [Option.some.injEq, Prod.mk.injEq] at h
      obtain ⟨rfl, rfl⟩ := h
      have hall : ∀ x ∈ c :: rest.takeWhile isDigit, isDigit x = true := by
        intro x hx
        rcases List.mem_cons.1 hx with hx | hx
        · rw [hx]; exact hd
        · exact takeWhile_all _ _ x hx
      refine ⟨by simp [List.takeWhile_append_dropWhile], endsWithDigit_of_all _ (by simp) hall,
        ?_, ?_⟩
      · intro t
        simp only [List.cons_append, List.head?_cons, ne_eq, Option.some.injEq]
        intro hc
        subst hc
        simp [isDigit] at hd
      · intro y hy
        exact lexInt_append _ y (Or.inr ⟨c, _, rfl, h48, hall⟩) hy

/-- What may follow a fraction: no digit and no exponent mark; the text of the
fraction is empty or starts with the point. -/
theorem lexFrac_frame (inp fs r : JSString) (h : lexFrac inp = some (fs, r)) :
    ∃ cf, inp = cf ++ r ∧ (cf = [] ∨ (endsWithDigit cf ∧ ∃ t, cf = 46 :: t)) ∧
      ∀ y, noDigitHead y → (∀ t, y ≠ 46 :: t) → lexFrac (cf ++ y) = some (fs, y) := by
  cases inp with
  | nil =>
    simp only [lexFrac, Option.some.injEq, Prod.mk.injEq] at h
    obtain ⟨rfl, rfl⟩ := h
    exact ⟨[], rfl, Or.inl rfl, fun y _ hy => lexFrac_absent y hy⟩
  | cons c rest =>
    simp only [lexFrac] at h
    split_ifs at h with h46 hnil
    · simp only [Option.some.injEq, Prod.mk.injEq] at h
      obtain ⟨rfl, rfl⟩ := h
      subst h46
      refine ⟨46 :: rest.takeWhile isDigit, by simp [List.takeWhile_append_dropWhile],
        Or.inr ⟨endsWithDigit_append [46] _ (endsWithDigit_of_all _ hnil (takeWhile_all _ _)),
          _, rfl⟩, ?_⟩
      intro y hy _
      exact lexFrac_present _ y hnil (takeWhile_all _ _) hy
    · simp only [Option.some.injEq, Prod.mk.injEq] at h
      obtain ⟨rfl, rfl⟩ := h
      exact ⟨[], rfl, Or.inl rfl, fun y _ hy => lexFrac_absent y hy⟩

theorem lexExpDigits_frame (b : Bool) (inp : JSString) (x : Int) (r : JSString)
    (h : lexExpDigits b inp = some (x, r)) :
    ∃ ce, inp = ce ++ r ∧ endsWithDigit ce ∧ (∀ x ∈ ce, isDigit x = true) ∧
      ∀ y, noDigitHead y → lexExpDigits b (ce ++ y) = some (x, y) := by
  unfold lexExpDigits at h
  by_cases hnil : inp.takeWhile isDigit = []
  · rw [if_pos hnil] at h; cases h
  rw [if_neg hnil] at h
  simp only [Option.some.injEq, Prod.mk.injEq] at h
  obtain ⟨rfl, rfl⟩ := h
  refine ⟨inp.takeWhile isDigit, (List.takeWhile_append_dropWhile _ _).symm,
    endsWithDigit_of_all _ hnil (takeWhile_all _ _), takeWhile_all _ _, ?_⟩
  intro y hy
  exact lexExpDigits_append b _ y hnil (takeWhile_all _ _) hy

theorem lexExp_frame (inp : JSString) (x : Int) (r : JSString) (h : lexExp inp = some (x, r)) :
    ∃ ce, inp = ce ++ r ∧ (ce = [] ∨ (endsWithDigit ce ∧ ∃ m t, ce = m :: t ∧ (m = 101 ∨ m = 69))) ∧
      ∀ y, noDigitHead y → (∀ t, y ≠ 101 :: t ∧ y ≠ 69 :: t) → lexExp (ce ++ y) = some (x, y) := by
  cases inp with
  | nil =>
    simp only [lexExp, Option.some.injEq, Prod.mk.injEq] at h
    obtain ⟨rfl, rfl⟩ := h
    exact ⟨[], rfl, Or.inl rfl, fun y _ hy => lexExp_absent y hy⟩
  | cons c rest =>
    simp only [lexExp] at h
    by_cases he : c = 101 ∨ c = 69
    · rw [if_pos he] at h
      cases rest with
      | nil => simp at h
      | cons d rest' =>
        simp only at h
        split_ifs at h with h45 h43
        · obtain ⟨ce, hce, hend, hall, hy⟩ := lexExpDigits_frame _ _ _ _ h
          refine ⟨c :: d :: ce, by simp [hce], Or.inr ⟨endsWithDigit_append [c, d] _ hend,
            c, _, rfl, he⟩, ?_⟩
          intro y hy1 _
          simp only [List.cons_append, lexExp, if_pos he, if_pos h45]
          exact hy y hy1
        · obtain ⟨ce, hce, hend, hall, hy⟩ := lexExpDigits_frame _ _ _ _ h
          refine ⟨c :: d :: ce, by simp [hce], Or.inr ⟨endsWithDigit_append [c, d] _ hend,
            c, _, rfl, he⟩, ?_⟩
          intro y hy1 _
          simp only [List.cons_append, lexExp, if_pos he, if_neg h45, if_pos h43]
          exact hy y hy1
        · obtain ⟨ce, hce, hend, hall, hy⟩ := lexExpDigits_frame _ _ _ _ h
          have hce' : ∃ t, ce = d :: t := by
            cases ce with
            | nil =>
              obtain ⟨l, x', hl, -⟩ := hend
              simp at hl
            | cons a t =>
              simp only [List.cons_append, List.cons.injEq] at hce
              exact ⟨t, by rw [hce.1]⟩
          obtain ⟨t, rfl⟩ := hce'
          refine ⟨c :: d :: t, by simp only [List.cons_append, List.cons.injEq, true_and]; simpa using hce,
            Or.inr ⟨endsWithDigit_append [c] _ hend, c, _, rfl, he⟩, ?_⟩
          intro y hy1 _
          simp only [List.cons_append, lexExp, if_pos he, if_neg h45, if_neg h43]
          exact hy y hy1
    · rw [if_neg he] at h
      simp only [Option.some.injEq, Prod.mk.injEq] at h
      obtain ⟨rfl, rfl⟩ := h
      exact ⟨[], rfl, Or.inl rfl, fun y _ hy => lexExp_absent y hy⟩

/-- A number token is a prefix of the input ending in a digit, and it is read the same
whatever follows it, as long as that does not continue the token. -/
theorem lexNumber_frame (inp : JSString) (n : JSNumber) (r : JSString)
    (h : lexNumber inp = some (n, r)) :
    ∃ c, inp = c ++ r ∧ endsWithDigit c ∧
      ∀ y, numEnds y = true → lexNumber (c ++ y) = some (n, y) := by
  unfold lexNumber at h
  simp only at h
  split at h
  · cases h
  · rename_i ds inp2 hint
    split at h
    · cases h
    · rename_i fs inp3 hfrac
      split at h
      · cases h
      · rename_i x inp4 hexp
        simp only [Option.some.injEq, Prod.mk.injEq] at h
        obtain ⟨hn, rfl⟩ := h
        obtain ⟨hi1, hi2, hi3, hi4⟩ := lexInt_frame _ _ _ hint
        obtain ⟨cf, hf1, hf2, hf3⟩ := lexFrac_frame _ _ _ hfrac
        obtain ⟨ce, he1, he2, he3⟩ := lexExp_frame _ _ _ hexp
        -- the consumed text after the sign
        have key : ∀ y, numEnds y = true →
            lexInt (ds ++ (cf ++ (ce ++ y))) = some (ds, cf ++ (ce ++ y)) ∧
            lexFrac (cf ++ (ce ++ y)) = some (fs, ce ++ y) ∧
            lexExp (ce ++ y) = some (x, y) := by
          intro y hy
          have hy' := (numEnds_iff y).1 hy
          have hnd : noDigitHead y := noDigitHead_of_numEnds y hy
          have hce : noDigitHead (ce ++ y) ∧ ∀ t, ce ++ y ≠ 46 :: t := by
            rcases he2 with rfl | ⟨-, m, t, rfl, hm⟩
            · refine ⟨by simpa using hnd, ?_⟩
              intro t ht
              exact (hy' _ _ ht).2.1 rfl
            · refine ⟨noDigitHead_cons _ _ (by rcases hm with rfl | rfl <;> rfl), ?_⟩
              intro t' ht
              simp only [List.cons_append, List.cons.injEq] at ht
              rcases hm with rfl | rfl <;> simp at ht
          have hcf : noDigitHead (cf ++ (ce ++ y)) := by
            rcases hf2 with rfl | ⟨-, t, rfl⟩
            · simpa using hce.1
            · exact noDigitHead_cons _ _ (by rfl)
          refine ⟨hi4 _ hcf, hf3 _ hce.1 hce.2, he3 y hnd ?_⟩
          intro t
          constructor
          · intro ht; exact (hy' _ _ ht).2.2.1 rfl
          · intro ht; exact (hy' _ _ ht).2.2.2 rfl
        have hend : endsWithDigit (ds ++ (cf ++ ce)) := by
          rcases he2 with rfl | ⟨he2, -⟩
          · rcases hf2 with rfl | ⟨hf2, -⟩
            · simpa using hi2
            · simpa using endsWithDigit_append ds _ hf2
          · rw [← List.append_assoc]
            exact endsWithDigit_append _ _ he2
        by_cases hneg : inp.head? = some 45
        · simp only [hneg, decide_True, if_true] at hint hn
          cases inp with
          | nil => simp at hneg
          | cons c0 t0 =>
            simp only [List.head?_cons, Option.some.injEq] at hneg
            subst hneg
            simp only [List.tail_cons, List.head?_cons, if_true] at hint hi1
            refine ⟨45 :: (ds ++ (cf ++ ce)), ?_, endsWithDigit_append [45] _ hend, ?_⟩
            · rw [hi1, hf1, he1]; simp
            · intro y hy
              obtain ⟨k1, k2, k3⟩ := key y hy
              unfold lexNumber
              simp only [List.cons_append, List.append_assoc, List.head?_cons, decide_True,
                if_true, List.tail_cons, k1, k2, k3, hn]
        · simp only [hneg, decide_False, Bool.false_eq_true, if_false] at hint hn hi1
          refine ⟨ds ++ (cf ++ ce), ?_, hend, ?_⟩
          · rw [hi1, hf1, he1]; simp
          · intro y hy
            obtain ⟨k1, k2, k3⟩ := key y hy
            unfold lexNumber
            simp only [List.append_assoc, hi3, decide_False, Bool.false_eq_true, if_false,
              k1, k2, k3, hn]

/-! ## The consumed prefix of a value -/

theorem prefix_head (ch : Nat) (rest c r : JSString) (h : ch :: rest = c ++ r)
    (hc : endsToken c) : ∃ c', c = ch :: c' := by
  cases c with
  | nil =>
    obtain ⟨l, x, hl, -⟩ := hc
    simp at hl
  | cons a t =>
    simp only [List.cons_append, List.cons.injEq] at h
    exact ⟨t, by rw [h.1]⟩

theorem endsToken_cons (a : Nat) (c : JSString) (h : endsToken c) : endsToken (a :: c) :=
  endsToken_append [a] c h

/-- The step from the case analysis back to `parseValue`, under leading white space. -/
theorem frameValue_of_case (f : Nat) (ws : JSString) (ch : Nat) (rest : JSString) (v : JSON)
    (r : JSString) (hws : ∀ x ∈ ws, isJsonWs x = true) (hch : isJsonWs ch = false)
    (h : ∃ c', ch :: rest = ch :: c' ++ r ∧ endsToken (ch :: c') ∧
      ∀ y, numEnds y = true → ValueCase f ch (c' ++ y) v y) :
    ∃ c, ws ++ ch :: rest = c ++ r ∧ endsToken c ∧
      ∀ y, numEnds y = true → parseValue (f + 1) (c ++ y) = some (v, y) := by
  obtain ⟨c', h1, h2, h3⟩ := h
  refine ⟨ws ++ ch :: c', by rw [h1]; simp, endsToken_append _ _ h2, ?_⟩
  intro y hy
  rw [parseValue_succ_iff]
  refine ⟨ch, c' ++ y, ?_, h3 y hy⟩
  rw [List.append_assoc, List.cons_append]
  exact skipWs_ws_cons ws ch _ hws hch

theorem frameValue_succ (f : Nat) (hE : FrameElems f) (hM : FrameMembers f) :
    FrameValue (f + 1) := by
  intro inp v r h
  rw [parseValue_succ_iff] at h
  obtain ⟨ch, rest, hskip, hcase⟩ := h
  obtain ⟨ws, rfl, hws, hch⟩ := skipWs_eq_cons _ _ _ hskip
  apply frameValue_of_case f ws ch rest v r hws hch
  unfold ValueCase at hcase
  rcases hcase with ⟨rfl, d, rest1, hd, h⟩ | ⟨rfl, d, rest1, hd, h⟩ | ⟨rfl, s, hs, rfl⟩ |
    ⟨rfl, rfl, rfl⟩ | ⟨rfl, rfl, rfl⟩ | ⟨rfl, rfl, rfl⟩ | ⟨hne, n, hn, rfl⟩
  · -- an object
    obtain ⟨ws2, rfl, hws2, hdws⟩ := skipWs_eq_cons _ _ _ hd
    rcases h with ⟨rfl, rfl, rfl⟩ | ⟨h125, ms, hm, rfl⟩
    · refine ⟨ws2 ++ [125], by simp, ?_, ?_⟩
      · rw [← List.cons_append]
        exact endsToken_singleton 125 (by decide) _
      · intro y _
        left
        refine ⟨rfl, 125, y, ?_, Or.inl ⟨rfl, rfl, rfl⟩⟩
        rw [List.append_assoc, List.singleton_append]
        exact skipWs_ws_cons ws2 125 y hws2 (by decide)
    · obtain ⟨cm, hcm, hend, hy⟩ := hM _ _ _ hm
      obtain ⟨cm', rfl⟩ := prefix_head _ _ _ _ hcm hend
      refine ⟨ws2 ++ d :: cm', by rw [hcm]; simp, ?_, ?_⟩
      · rw [← List.cons_append]
        exact endsToken_append _ _ hend
      · intro y _
        left
        refine ⟨rfl, d, cm' ++ y, ?_, Or.inr ⟨h125, ms, hy y, rfl⟩⟩
        rw [List.append_assoc, List.cons_append]
        exact skipWs_ws_cons ws2 d _ hws2 hdws
  · -- an array
    obtain ⟨ws2, rfl, hws2, hdws⟩ := skipWs_eq_cons _ _ _ hd
    rcases h with ⟨rfl, rfl, rfl⟩ | ⟨h93, vs, he, rfl⟩
    · refine ⟨ws2 ++ [93], by simp, ?_, ?_⟩
      · rw [← List.cons_append]
        exact endsToken_singleton 93 (by decide) _
      · intro y _
        right; left
        refine ⟨rfl, 93, y, ?_, Or.inl ⟨rfl, rfl, rfl⟩⟩
        rw [List.append_assoc, List.singleton_append]
        exact skipWs_ws_cons ws2 93 y hws2 (by decide)
    · obtain ⟨ce, hce, hend, hy⟩ := hE _ _ _ he
      obtain ⟨ce', rfl⟩ := prefix_head _ _ _ _ hce hend
      refine ⟨ws2 ++ d :: ce', by rw [hce]; simp, ?_, ?_⟩
      · rw [← List.cons_append]
        exact endsToken_append _ _ hend
      · intro y _
        right; left
        refine ⟨rfl, d, ce' ++ y, ?_, Or.inr ⟨h93, vs, hy y, rfl⟩⟩
        rw [List.append_assoc, List.cons_append]
        exact skipWs_ws_cons ws2 d _ hws2 hdws
  · -- a string
    obtain ⟨cs, rfl, hy⟩ := parseStringBody_frame _ _ _ hs
    refine ⟨cs ++ [34], by simp, ?_, ?_⟩
    · rw [← List.cons_append]
      exact endsToken_singleton 34 (by decide) _
    · intro y _
      right; right; left
      refine ⟨rfl, s, ?_, rfl⟩
      rw [List.append_assoc, List.singleton_append]
      exact hy y
  · refine ⟨[114, 117, 101], rfl, ⟨[116, 114, 117], 101, rfl, by decide⟩, ?_⟩
    intro y _
    right; right; right; left
    exact ⟨rfl, rfl, rfl⟩
  · refine ⟨[97, 108, 115, 101], rfl, ⟨[102, 97, 108, 115], 101, rfl, by decide⟩, ?_⟩
    intro y _
    right; right; right; right; left
    exact ⟨rfl, rfl, rfl⟩
  · refine ⟨[117, 108, 108], rfl, ⟨[110, 117, 108], 108, rfl, by decide⟩, ?_⟩
    intro y _
    right; right; right; right; right; left
    exact ⟨rfl, rfl, rfl⟩
  · -- a number
    obtain ⟨cn, hcn, hend, hy⟩ := lexNumber_frame _ _ _ hn
    have hend' := endsToken_of_endsWithDigit _ hend
    obtain ⟨cn', rfl⟩ := prefix_head _ _ _ _ hcn hend'
    refine ⟨cn', hcn, hend', ?_⟩
    intro y hny
    right; right; right; right; right; right
    exact ⟨hne, n, hy y hny, rfl⟩

theorem frameElems_succ (f : Nat) (hV : FrameValue f) (hE : FrameElems f) :
    FrameElems (f + 1) := by
  intro inp vs r h
  rw [parseElems_succ_iff] at h
  obtain ⟨v, r1, ch, rest, hv, hskip, hcase⟩ := h
  obtain ⟨cv, rfl, hendv, hyv⟩ := hV _ _ _ hv
  obtain ⟨ws, rfl, hws, hch⟩ := skipWs_eq_cons _ _ _ hskip
  rcases hcase with ⟨rfl, vs', he, rfl⟩ | ⟨rfl, rfl, rfl⟩
  · obtain ⟨ce, rfl, hende, hye⟩ := hE _ _ _ he
    refine ⟨cv ++ (ws ++ 44 :: ce), by simp, endsToken_append _ _ (endsToken_append _ _
      (endsToken_cons _ _ hende)), ?_⟩
    intro y
    rw [parseElems_succ_iff]
    refine ⟨v, ws ++ 44 :: (ce ++ y), 44, ce ++ y, ?_, skipWs_ws_cons ws 44 _ hws (by decide),
      Or.inl ⟨rfl, vs', hye y, rfl⟩⟩
    have := hyv (ws ++ 44 :: (ce ++ y)) (numEnds_ws_cons ws 44 _ hws (Or.inl rfl))
    simpa [List.append_assoc] using this
  · refine ⟨cv ++ (ws ++ [93]), by simp, endsToken_append _ _
      (endsToken_singleton 93 (by decide) ws), ?_⟩
    intro y
    rw [parseElems_succ_iff]
    refine ⟨v, ws ++ 93 :: y, 93, y, ?_, skipWs_ws_cons ws 93 _ hws (by decide),
      Or.inr ⟨rfl, rfl, rfl⟩⟩
    have := hyv (ws ++ 93 :: y) (numEnds_ws_cons ws 93 _ hws (Or.inr (Or.inl rfl)))
    simpa [List.append_assoc] using this

theorem frameMembers_succ (f : Nat) (hV : FrameValue f) (hM : FrameMembers f) :
    FrameMembers (f + 1) := by
  intro inp ms r h
  rw [parseMembers_succ_iff] at h
  obtain ⟨rest, k, r1, r2, v, r3, ch, r4, hq, hk, hcolon, hv, hskip, hcase⟩ := h
  obtain ⟨ws0, rfl, hws0, -⟩ := skipWs_eq_cons _ _ _ hq
  obtain ⟨ck, rfl, hyk⟩ := parseStringBody_frame _ _ _ hk
  obtain ⟨ws1, rfl, hws1, -⟩ := skipWs_eq_cons _ _ _ hcolon
  obtain ⟨cv, rfl, hendv, hyv⟩ := hV _ _ _ hv
  obtain ⟨ws, rfl, hws, hch⟩ := skipWs_eq_cons _ _ _ hskip
  have build : ∀ tail ms' y, (numEnds tail = true) →
      (∃ c r4', skipWs tail = c :: r4' ∧
        ((c = 44 ∧ ∃ ms'', parseMembers f r4' = some (ms'', y) ∧ ms' = (k, v) :: ms'') ∨
          (c = 125 ∧ ms' = [(k, v)] ∧ y = r4'))) →
      parseMembers (f + 1) (ws0 ++ 34 :: (ck ++ 34 :: (ws1 ++ 58 :: (cv ++ tail)))) =
        some (ms', y) := by
    intro tail ms' y hnum ⟨c, r4', hs, hc⟩
    rw [parseMembers_succ_iff]
    exact ⟨_, k, _, _, v, tail, c, r4', skipWs_ws_cons ws0 34 _ hws0 (by decide), hyk _,
      skipWs_ws_cons ws1 58 _ hws1 (by decide), hyv tail hnum, hs, hc⟩
  rcases hcase with ⟨rfl, ms', hm, rfl⟩ | ⟨rfl, rfl, rfl⟩
  · obtain ⟨cm, rfl, hendm, hym⟩ := hM _ _ _ hm
    refine ⟨ws0 ++ 34 :: (ck ++ 34 :: (ws1 ++ 58 :: (cv ++ (ws ++ 44 :: cm)))), by simp, ?_, ?_⟩
    · apply endsToken_append
      apply endsToken_cons
      apply endsToken_append
      apply endsToken_cons
      apply endsToken_append
      apply endsToken_cons
      apply endsToken_append
      apply endsToken_append
      exact endsToken_cons _ _ hendm
    · intro y
      have := build (ws ++ 44 :: (cm ++ y)) ((k, v) :: ms') y
        (numEnds_ws_cons ws 44 _ hws (Or.inl rfl))
        ⟨44, cm ++ y, skipWs_ws_cons ws 44 _ hws (by decide), Or.inl ⟨rfl, ms', hym y, rfl⟩⟩
      simpa [List.append_assoc] using this
  · refine ⟨ws0 ++ 34 :: (ck ++ 34 :: (ws1 ++ 58 :: (cv ++ (ws ++ [125])))), by simp, ?_, ?_⟩
    · apply endsToken_append
      apply endsToken_cons
      apply endsToken_append
      apply endsToken_cons
      apply endsToken_append
      apply endsToken_cons
      apply endsToken_append
      exact endsToken_singleton 125 (by decide) ws
    · intro y
      have := build (ws ++ 125 :: y) [(k, v)] y
        (numEnds_ws_cons ws 125 _ hws (Or.inr (Or.inr (Or.inl rfl))))
        ⟨125, y, skipWs_ws_cons ws 125 _ hws (by decide), Or.inr ⟨rfl, rfl, rfl⟩⟩
      simpa [List.append_assoc] using this

theorem frame_all (f : Nat) : FrameValue f ∧ FrameElems f ∧ FrameMembers f := by
  induction f with
  | zero =>
    refine ⟨?_, ?_, ?_⟩
    · intro inp v r h; rw [parseValue_zero] at h; cases h
    · intro inp v r h; rw [parseElems_zero] at h; cases h
    · intro inp v r h; rw [parseMembers_zero] at h; cases h
  | succ f ih =>
    obtain ⟨hV, hE, hM⟩ := ih
    exact ⟨frameValue_succ f hE hM, frameElems_succ f hV hE, frameMembers_succ f hV hM⟩

/-- Reading a value consumes input. -/
theorem parseValue_length (f : Nat) (inp : JSString) (v : JSON) (r : JSString)
    (h : parseValue f inp = some (v, r)) : r.length < inp.length := by
  obtain ⟨c, rfl, ⟨l, x, rfl, -⟩, -⟩ := (frame_all f).1 inp v r h
  simp only [List.length_append, List.length_singleton]
  omega

/-! ## The fuel of `JSON.parse` is enough -/

theorem skipWs_length (inp : JSString) : (skipWs inp).length ≤ inp.length := by
  unfold skipWs
  exact (List.dropWhile_sublist _).length_le

theorem parseStringBody_length (inp s r : JSString) (h : parseStringBody inp = some (s, r)) :
    r.length < inp.length := by
  obtain ⟨c, rfl, -⟩ := parseStringBody_frame inp s r h
  simp only [List.length_append, List.length_cons]
  omega

theorem adequateValue_succ (f : Nat) (hE : AdequateElems f) (hM : AdequateMembers f) :
    AdequateValue (f + 1) := by
  intro inp v r h g hg
  obtain ⟨g, rfl⟩ : ∃ g', g = g' + 1 := ⟨g - 1, by omega⟩
  rw [parseValue_succ_iff] at h ⊢
  obtain ⟨ch, rest, hskip, hcase⟩ := h
  refine ⟨ch, rest, hskip, ?_⟩
  have hlen := skipWs_length inp
  rw [hskip, List.length_cons] at hlen
  unfold ValueCase at hcase ⊢
  rcases hcase with ⟨rfl, d, rest1, hd, h⟩ | ⟨rfl, d, rest1, hd, h⟩ | h
  · left
    refine ⟨rfl, d, rest1, hd, ?_⟩
    rcases h with h | ⟨h125, ms, hm, rfl⟩
    · exact Or.inl h
    · have hlen2 := skipWs_length rest
      rw [hd] at hlen2
      exact Or.inr ⟨h125, ms, hM _ _ _ hm g (by omega), rfl⟩
  · right; left
    refine ⟨rfl, d, rest1, hd, ?_⟩
    rcases h with h | ⟨h93, vs, he, rfl⟩
    · exact Or.inl h
    · have hlen2 := skipWs_length rest
      rw [hd] at hlen2
      exact Or.inr ⟨h93, vs, hE _ _ _ he g (by omega), rfl⟩
  · right; right
    exact h

theorem adequateElems_succ (f : Nat) (hV : AdequateValue f) (hE : AdequateElems f) :
    AdequateElems (f + 1) := by
  intro inp vs r h g hg
  obtain ⟨g, rfl⟩ : ∃ g', g = g' + 1 := ⟨g - 1, by omega⟩
  rw [parseElems_succ_iff] at h ⊢
  obtain ⟨v, r1, ch, rest, hv, hskip, hcase⟩ := h
  refine ⟨v, r1, ch, rest, hV _ _ _ hv g (by omega), hskip, ?_⟩
  have hlen1 := parseValue_length _ _ _ _ hv
  have hlen2 := skipWs_length r1
  rw [hskip, List.length_cons] at hlen2
  rcases hcase with ⟨rfl, vs', he, rfl⟩ | h
  · exact Or.inl ⟨rfl, vs', hE _ _ _ he g (by omega), rfl⟩
  · exact Or.inr h

theorem adequateMembers_succ (f : Nat) (hV : AdequateValue f) (hM : AdequateMembers f) :
    AdequateMembers (f + 1) := by
  intro inp ms r h g hg
  obtain ⟨g, rfl⟩ : ∃ g', g = g' + 1 := ⟨g - 1, by omega⟩
  rw [parseMembers_succ_iff] at h ⊢
  obtain ⟨rest, k, r1, r2, v, r3, ch, r4, hq, hk, hcolon, hv, hskip, hcase⟩ := h
  have l0 := skipWs_length inp
  rw [hq, List.length_cons] at l0
  have l1 := parseStringBody_length _ _ _ hk
  have l2 := skipWs_length r1
  rw [hcolon, List.length_cons] at l2
  have l3 := parseValue_length _ _ _ _ hv
  have l4 := skipWs_length r3
  rw [hskip, List.length_cons] at l4
  refine ⟨rest, k, r1, r2, v, r3, ch, r4, hq, hk, hcolon, hV _ _ _ hv g (by omega), hskip, ?_⟩
  rcases hcase with ⟨rfl, ms', hm, rfl⟩ | h
  · exact Or.inl ⟨rfl, ms', hM _ _ _ hm g (by omega), rfl⟩
  · exact Or.inr h

theorem adequate_all (f : Nat) : AdequateValue f ∧ AdequateElems f ∧ AdequateMembers f := by
  induction f with
  | zero =>
    refine ⟨?_, ?_, ?_⟩
    · intro inp v r h; rw [parseValue_zero] at h; cases h
    · intro inp v r h; rw [parseElems_zero] at h; cases h
    · intro inp v r h; rw [parseMembers_zero] at h; cases h
  | succ f ih =>
    obtain ⟨hV, hE, hM⟩ := ih
    exact ⟨adequateValue_succ f hE hM, adequateElems_succ f hV hE,
      adequateMembers_succ f hV hM⟩

/-- Whatever fuel reads one value up to trailing white space, `JSON.parse` reads it. -/
theorem JSON_parse_of_parseValue (f : Nat) (text : JSString) (v : JSON) (r : JSString)
    (h : parseValue f text = some (v, r)) (hr : skipWs r = []) : JSON.parse text = some v := by
  unfold JSON.parse
  rw [(adequate_all f).1 text v r h _ (le_refl _)]
  simp [hr]

theorem JSON_parse_eq_some (text : JSString) (v : JSON) (h : JSON.parse text = some v) :
    ∃ r, parseValue (2 * text.length + 2) text = some (v, r) ∧ skipWs r = [] := by
  unfold JSON.parse at h
  split at h
  · rename_i v' r hv
    split_ifs at h with hr
    simp only [Option.some.injEq] at h
    subst h
    exact ⟨r, hv, hr⟩
  · cases h

/-! ## `JSON.stringify` read back by `JSON.parse` -/

theorem lexNumber_head (ch : Nat) (t : JSString) (x : JSNumber × JSString)
    (h : lexNumber (ch :: t) = some x) : ch = 45 ∨ isDigit ch = true := by
  by_cases h45 : ch = 45
  · exact Or.inl h45
  · right
    unfold lexNumber at h
    simp only [List.head?_cons, Option.some.injEq, h45, decide_False, Bool.false_eq_true,
      if_false] at h
    split at h
    · cases h
    · rename_i ds inp2 hint
      simp only [lexInt] at hint
      split_ifs at hint with h48 hd
      · subst h48; rfl
      · exact hd

theorem numberHead_facts (ch : Nat) (h : ch = 45 ∨ isDigit ch = true) :
    isJsonWs ch = false ∧ ch ≠ 93 ∧ ch ≠ 125 ∧
      (ch ≠ 123 ∧ ch ≠ 91 ∧ ch ≠ 34 ∧ ch ≠ 116 ∧ ch ≠ 102 ∧ ch ≠ 110) := by
  rcases h with rfl | h
  · decide
  · simp only [isDigit, Bool.and_eq_true, decide_eq_true_eq] at h
    simp only [isJsonWs, Bool.or_eq_false_iff, decide_eq_false_iff_not]
    omega

theorem numberToString_head (neg : Bool) (m : Nat) (e : Int) :
    ∃ ch t, numberToString neg m e = ch :: t ∧ (ch = 45 ∨ isDigit ch = true) := by
  obtain ⟨d, hd⟩ := lexNumber_numberToString neg m e
  have h0 := hd [] rfl
  rw [List.append_nil] at h0
  cases hs : numberToString neg m e with
  | nil => exact absurd hs (numberToString_ne_nil neg m e)
  | cons ch t =>
    rw [hs] at h0
    exact ⟨ch, t, rfl, lexNumber_head ch t _ h0⟩

theorem reparseNumber_finite (neg : Bool) (m : Nat) (e : Int) (d : JSNumber)
    (h : lexNumber (numberToString neg m e) = some (d, [])) :
    reparseNumber (.finite neg m e) = .num d := by
  simp [reparseNumber, serializeNumber, h]

theorem reparseNumber_infinite (neg : Bool) : reparseNumber (.infinite neg) = .null := by
  rfl

/-- The serialization of a value starts with a code unit that is neither white space
nor a closing bracket. -/
theorem stringify_head (v : JSON) :
    ∃ ch t, JSON.stringify v = ch :: t ∧ isJsonWs ch = false ∧ ch ≠ 93 ∧ ch ≠ 125 := by
  cases v with
  | null => exact ⟨110, _, by rw [JSON.stringify], by decide, by decide, by decide⟩
  | bool b =>
    cases b
    · exact ⟨102, _, by rw [JSON.stringify], by decide, by decide, by decide⟩
    · exact ⟨116, _, by rw [JSON.stringify], by decide, by decide, by decide⟩
  | num n =>
    cases n with
    | finite neg m e =>
      obtain ⟨ch, t, ht, hch⟩ := numberToString_head neg m e
      have := numberHead_facts ch hch
      exact ⟨ch, t, by rw [JSON.stringify, serializeNumber, ht], this.1, this.2.1, this.2.2.1⟩
    | infinite neg =>
      exact ⟨110, _, by rw [JSON.stringify, serializeNumber], by decide, by decide, by decide⟩
  | str s => exact ⟨34, _, by rw [JSON.stringify, quote], by decide, by decide, by decide⟩
  | arr elems => exact ⟨91, _, by rw [JSON.stringify], by decide, by decide, by decide⟩
  | obj props => exact ⟨123, _, by rw [JSON.stringify], by decide, by decide, by decide⟩

theorem parseValue_number (ch : Nat) (t rest : JSString) (d : JSNumber)
    (hch : ch = 45 ∨ isDigit ch = true) (h : lexNumber (ch :: t ++ rest) = some (d, rest)) :
    parseValue 1 (ch :: t ++ rest) = some (.num d, rest) := by
  have hf := numberHead_facts ch hch
  rw [parseValue_succ_iff]
  refine ⟨ch, t ++ rest, skipWs_cons_of_not_ws _ _ hf.1, ?_⟩
  unfold ValueCase
  right; right; right; right; right; right
  exact ⟨hf.2.2.2, d, h, rfl⟩

theorem parseValue_literal (v : JSON) (ch : Nat) (t rest : JSString) (hws : isJsonWs ch = false)
    (h : ValueCase 0 ch (t ++ rest) v rest) :
    parseValue 1 (ch :: t ++ rest) = some (v, rest) := by
  rw [parseValue_succ_iff]
  exact ⟨ch, t ++ rest, skipWs_cons_of_not_ws _ _ hws, h⟩

mutual
/-- Reading the serialization of a value back gives the re-read value, with some fuel. -/
theorem roundtrip_value : ∀ (v : JSON) (rest : JSString), numEnds rest = true →
    ∃ f, parseValue f (JSON.stringify v ++ rest) = some (v.reparse, rest)
  | .null, rest, _ => by
    refine ⟨1, ?_⟩
    rw [JSON.stringify, JSON.reparse]
    apply parseValue_literal .null 110 [117, 108, 108] rest (by decide)
    unfold ValueCase
    right; right; right; right; right; left
    exact ⟨rfl, rfl, rfl⟩
  | .bool true, rest, _ => by
    refine ⟨1, ?_⟩
    rw [JSON.stringify, JSON.reparse]
    apply parseValue_literal (.bool true) 116 [114, 117, 101] rest (by decide)
    unfold ValueCase
    right; right; right; left
    exact ⟨rfl, rfl, rfl⟩
  | .bool false, rest, _ => by
    refine ⟨1, ?_⟩
    rw [JSON.stringify, JSON.reparse]
    apply parseValue_literal (.bool false) 102 [97, 108, 115, 101] rest (by decide)
    unfold ValueCase
    right; right; right; right; left
    exact ⟨rfl, rfl, rfl⟩
  | .num (.finite neg m e), rest, hrest => by
    refine ⟨1, ?_⟩
    obtain ⟨d, hd⟩ := lexNumber_numberToString neg m e
    obtain ⟨ch, t, ht, hch⟩ := numberToString_head neg m e
    have h0 := hd [] rfl
    rw [List.append_nil] at h0
    have h1 := hd rest hrest
    rw [JSON.stringify, JSON.reparse, reparseNumber_finite neg m e d h0, serializeNumber]
    rw [ht] at h1 ⊢
    exact parseValue_number ch t rest d hch h1
  | .num (.infinite neg), rest, _ => by
    refine ⟨1, ?_⟩
    rw [JSON.stringify, JSON.reparse, reparseNumber_infinite, serializeNumber]
    apply parseValue_literal .null 110 [117, 108, 108] rest (by decide)
    unfold ValueCase
    right; right; right; right; right; left
    exact ⟨rfl, rfl, rfl⟩
  | .str s, rest, _ => by
    refine ⟨1, ?_⟩
    rw [JSON.stringify, JSON.reparse, quote]
    apply parseValue_literal (.str s) 34 (quoteBody s ++ [34]) rest (by decide)
    unfold ValueCase
    right; right; left
    refine ⟨rfl, s, ?_, rfl⟩
    rw [List.append_assoc]
    exact parseStringBody_quoteBody s rest
  | .arr [], rest, _ => by
    refine ⟨1, ?_⟩
    rw [JSON.stringify, JSON.reparse, stringifyElems, reparseElems]
    apply parseValue_literal (.arr []) 91 [93] rest (by decide)
    unfold ValueCase
    right; left
    exact ⟨rfl, 93, rest, skipWs_cons_of_not_ws _ _ (by decide), Or.inl ⟨rfl, rfl, rfl⟩⟩
  | .arr (e :: es), rest, _ => by
    obtain ⟨f, hf⟩ := roundtrip_elems (e :: es) (by simp) rest
    obtain ⟨ch, t, ht, hws, h93, -⟩ := stringify_head e
    have hhead : ∃ t', stringifyElems (e :: es) ++ 93 :: rest = ch :: t' := by
      cases es with
      | nil => exact ⟨t ++ 93 :: rest, by rw [stringifyElems, ht]; rfl⟩
      | cons w ws => exact ⟨_, by rw [stringifyElems, ht]; rfl⟩
    obtain ⟨t', ht'⟩ := hhead
    refine ⟨f + 1, ?_⟩
    rw [JSON.stringify, JSON.reparse, parseValue_succ_iff]
    refine ⟨91, stringifyElems (e :: es) ++ 93 :: rest, ?_, ?_⟩
    · rw [List.cons_append, List.append_assoc, List.singleton_append]
      exact skipWs_cons_of_not_ws _ _ (by decide)
    · unfold ValueCase
      right; left
      refine ⟨rfl, ch, t', ?_, Or.inr ⟨h93, _, ?_, rfl⟩⟩
      · rw [ht']; exact skipWs_cons_of_not_ws _ _ hws
      · rw [← ht']; exact hf
  | .obj [], rest, _ => by
    refine ⟨1, ?_⟩
    rw [JSON.stringify, JSON.reparse, stringifyMembers, reparseMembers]
    apply parseValue_literal (mkObject []) 123 [125] rest (by decide)
    unfold ValueCase
    left
    exact ⟨rfl, 125, rest, skipWs_cons_of_not_ws _ _ (by decide), Or.inl ⟨rfl, rfl, rfl⟩⟩
  | .obj (m :: ms), rest, _ => by
    obtain ⟨f, hf⟩ := roundtrip_members (m :: ms) (by simp) rest
    have hhead : ∃ t', stringifyMembers (m :: ms) ++ 125 :: rest = 34 :: t' := by
      obtain ⟨k, v⟩ := m
      cases ms with
      | nil => exact ⟨_, by rw [stringifyMembers, quote]; rfl⟩
      | cons w ws => exact ⟨_, by rw [stringifyMembers, quote]; rfl⟩
    obtain ⟨t', ht'⟩ := hhead
    refine ⟨f + 1, ?_⟩
    rw [JSON.stringify, JSON.reparse, parseValue_succ_iff]
    refine ⟨123, stringifyMembers (m :: ms) ++ 125 :: rest, ?_, ?_⟩
    · rw [List.cons_append, List.append_assoc, List.singleton_append]
      exact skipWs_cons_of_not_ws _ _ (by decide)
    · unfold ValueCase
      left
      refine ⟨rfl, 34, t', ?_, Or.inr ⟨by decide, _, ?_, rfl⟩⟩
      · rw [ht']; exact skipWs_cons_of_not_ws _ _ (by decide)
      · rw [← ht']; exact hf
/-- The elements of a non-empty array, up to the closing bracket. -/
theorem roundtrip_elems : ∀ (vs : List JSON), vs ≠ [] → ∀ rest : JSString,
    ∃ f, parseElems f (stringifyElems vs ++ 93 :: rest) = some (reparseElems vs, rest)
  | [], h, _ => absurd rfl h
  | [v], _, rest => by
    obtain ⟨f, hf⟩ := roundtrip_value v (93 :: rest) rfl
    refine ⟨f + 1, ?_⟩
    rw [stringifyElems, reparseElems, reparseElems, parseElems_succ_iff]
    exact ⟨_, _, 93, rest, hf, skipWs_cons_of_not_ws _ _ (by decide), Or.inr ⟨rfl, rfl, rfl⟩⟩
  | v :: w :: ws, _, rest => by
    obtain ⟨f1, hf1⟩ := roundtrip_value v (44 :: (stringifyElems (w :: ws) ++ 93 :: rest)) rfl
    obtain ⟨f2, hf2⟩ := roundtrip_elems (w :: ws) (by simp) rest
    have a1 := (adequate_all f1).1 _ _ _ hf1
    have a2 := (adequate_all f2).2.1 _ _ _ hf2
    refine ⟨max (2 * (JSON.stringify v ++ 44 :: (stringifyElems (w :: ws) ++ 93 :: rest)).length + 2)
      (2 * (stringifyElems (w :: ws) ++ 93 :: rest).length + 3) + 1, ?_⟩
    rw [stringifyElems, reparseElems, parseElems_succ_iff]
    refine ⟨_, _, 44, _, ?_, skipWs_cons_of_not_ws _ _ (by decide),
      Or.inl ⟨rfl, _, a2 _ (le_max_right _ _), rfl⟩⟩
    rw [List.append_assoc, List.cons_append]
    exact a1 _ (le_max_left _ _)
/-- The members of a non-empty object, up to the closing brace. -/
theorem roundtrip_members : ∀ (ms : List (JSString × JSON)), ms ≠ [] → ∀ rest : JSString,
    ∃ f, parseMembers f (stringifyMembers ms ++ 125 :: rest) = some (reparseMembers ms, rest)
  | [], h, _ => absurd rfl h
  | [(k, v)], _, rest => by
    obtain ⟨f, hf⟩ := roundtrip_value v (125 :: rest) rfl
    refine ⟨f + 1, ?_⟩
    rw [stringifyMembers, reparseMembers, reparseMembers, parseMembers_succ_iff]
    refine ⟨quoteBody k ++ 34 :: 58 :: (JSON.stringify v ++ 125 :: rest), k, _, _, _, _, 125, rest,
      ?_, parseStringBody_quoteBody k _, skipWs_cons_of_not_ws _ _ (by decide), hf,
      skipWs_cons_of_not_ws _ _ (by decide), Or.inr ⟨rfl, rfl, rfl⟩⟩
    rw [quote]
    simp only [List.cons_append, List.append_assoc, List.singleton_append]
    exact skipWs_cons_of_not_ws _ _ (by decide)
  | (k, v) :: m :: ms, _, rest => by
    obtain ⟨f1, hf1⟩ := roundtrip_value v (44 :: (stringifyMembers (m :: ms) ++ 125 :: rest)) rfl
    obtain ⟨f2, hf2⟩ := roundtrip_members (m :: ms) (by simp) rest
    have a1 := (adequate_all f1).1 _ _ _ hf1
    have a2 := (adequate_all f2).2.2 _ _ _ hf2
    refine ⟨max (2 * (JSON.stringify v ++ 44 :: (stringifyMembers (m :: ms) ++ 125 :: rest)).length + 2)
      (2 * (stringifyMembers (m :: ms) ++ 125 :: rest).length + 3) + 1, ?_⟩
    rw [stringifyMembers, reparseMembers, parseMembers_succ_iff]
    refine ⟨quoteBody k ++ 34 :: 58 :: (JSON.stringify v ++ 44 :: (stringifyMembers (m :: ms) ++
      125 :: rest)), k, _, _, _, _, 44, _, ?_, parseStringBody_quoteBody k _,
      skipWs_cons_of_not_ws _ _ (by decide), a1 _ (le_max_left _ _),
      skipWs_cons_of_not_ws _ _ (by decide), Or.inl ⟨rfl, _, a2 _ (le_max_right _ _), rfl⟩⟩
    rw [quote]
    simp only [List.cons_append, List.append_assoc, List.singleton_append]
    exact skipWs_cons_of_not_ws _ _ (by decide)
end

/-- Serializing and parsing again gives the re-read value. -/
theorem JSON_parse_stringify (v : JSON) : JSON.parse (JSON.stringify v) = some v.reparse := by
  obtain ⟨f, hf⟩ := roundtrip_value v [] rfl
  rw [List.append_nil] at hf
  exact JSON_parse_of_parseValue f _ _ [] hf rfl

theorem validJSON_stringify (v : JSON) : validJSON (JSON.stringify v) = true := by
  simp [validJSON, JSON_parse_stringify]

/-! ## Objects: property order -/

theorem keysCanonical_iff (ks : List JSString) :
    keysCanonical ks = true ↔ ks.Nodup ∧ ks.Pairwise (fun a b => keyLe a b = true) := by
  induction ks with
  | nil => simp [keysCanonical]
  | cons k rest ih =>
    simp only [keysCanonical, Bool.and_eq_true, Bool.not_eq_true',
      decide_eq_false_iff_not, List.all_eq_true, ih, List.nodup_cons, List.pairwise_cons]
    tauto

theorem keyLe_trans (a b c : JSString) (h1 : keyLe a b = true) (h2 : keyLe b c = true) :
    keyLe a c = true := by
  unfold keyLe at *
  cases ha : arrayIndex a <;> cases hb : arrayIndex b <;> cases hc : arrayIndex c <;>
    simp_all
  omega

theorem keyLe_of_not_index (a k : JSString) (h : arrayIndex k = none) : keyLe a k = true := by
  unfold keyLe
  cases arrayIndex a <;> simp [h]

theorem hasKey_iff (k : JSString) (props : List (JSString × JSON)) :
    hasKey k props = true ↔ k ∈ props.map Prod.fst := by
  induction props with
  | nil => simp [hasKey]
  | cons kv rest ih =>
    obtain ⟨k', v'⟩ := kv
    simp only [hasKey, Bool.or_eq_true, decide_eq_true_eq, ih, List.map_cons, List.mem_cons]

theorem keys_replaceValue (k : JSString) (v : JSON) (props : List (JSString × JSON)) :
    (replaceValue k v props).map Prod.fst = props.map Prod.fst := by
  induction props with
  | nil => rfl
  | cons kv rest ih =>
    obtain ⟨k', v'⟩ := kv
    unfold replaceValue
    split_ifs
    · rfl
    · simp [ih]

theorem mem_replaceValue (k : JSString) (v : JSON) (props : List (JSString × JSON))
    (x : JSString × JSON) (h : x ∈ replaceValue k v props) : x ∈ props ∨ x.2 = v := by
  induction props with
  | nil => simp [replaceValue] at h
  | cons kv rest ih =>
    obtain ⟨k', v'⟩ := kv
    unfold replaceValue at h
    split_ifs at h
    · rcases List.mem_cons.1 h with h | h
      · right; rw [h]
      · left; exact List.mem_cons_of_mem _ h
    · rcases List.mem_cons.1 h with h | h
      · left; rw [h]; exact List.mem_cons_self _ _
      · rcases ih h with h | h
        · left; exact List.mem_cons_of_mem _ h
        · right; exact h

theorem insertIndexed_perm (i : Nat) (k : JSString) (v : JSON) (props : List (JSString × JSON)) :
    (insertIndexed i k v props).Perm ((k, v) :: props) := by
  induction props with
  | nil => exact List.Perm.refl _
  | cons kv rest ih =>
    obtain ⟨k', v'⟩ := kv
    unfold insertIndexed
    split
    · split_ifs
      · exact List.Perm.refl _
      · exact (List.Perm.cons _ ih).trans (List.Perm.swap _ _ _)
    · exact List.Perm.refl _

theorem pairwise_insertIndexed (i : Nat) (k : JSString) (v : JSON) (hk : arrayIndex k = some i)
    (props : List (JSString × JSON))
    (h : (props.map Prod.fst).Pairwise (fun a b => keyLe a b = true)) :
    ((insertIndexed i k v props).map Prod.fst).Pairwise (fun a b => keyLe a b = true) := by
  induction props with
  | nil => simp [insertIndexed]
  | cons kv rest ih =>
    obtain ⟨k', v'⟩ := kv
    simp only [List.map_cons, List.pairwise_cons] at h
    obtain ⟨h1, h2⟩ := h
    have first : ∀ (hle : keyLe k k' = true),
        ((k, v) :: (k', v') :: rest).map Prod.fst |>.Pairwise (fun a b => keyLe a b = true) := by
      intro hle
      simp only [List.map_cons, List.pairwise_cons, List.mem_cons, forall_eq_or_imp]
      exact ⟨⟨hle, fun x hx => keyLe_trans _ _ _ hle (h1 x hx)⟩, h1, h2⟩
    unfold insertIndexed
    split
    · rename_i j hj
      split_ifs with hij
      · apply first
        simp only [keyLe, hk, hj, decide_eq_true_eq]
        omega
      · simp only [List.map_cons, List.pairwise_cons]
        refine ⟨?_, ih h2⟩
        intro x hx
        have := (insertIndexed_perm i k v rest).map Prod.fst
        rcases List.mem_cons.1 (this.mem_iff.1 hx) with hx | hx
        · rw [hx]
          simp only [keyLe, hk, hj, decide_eq_true_eq]
          omega
        · exact h1 x hx
    · rename_i hj
      apply first
      simp [keyLe, hk, hj]

/-- Adding a property keeps the keys in enumeration order. -/
theorem keysCanonical_defineProp (props : List (JSString × JSON)) (kv : JSString × JSON)
    (h : keysCanonical (props.map Prod.fst) = true) :
    keysCanonical ((defineProp props kv).map Prod.fst) = true := by
  rw [keysCanonical_iff] at h ⊢
  obtain ⟨hnd, hpw⟩ := h
  unfold defineProp
  split_ifs with hk
  · rw [keys_replaceValue]
    exact ⟨hnd, hpw⟩
  · have hk' : kv.1 ∉ props.map Prod.fst := fun hm => hk ((hasKey_iff _ _).2 hm)
    split
    · rename_i i hi
      refine ⟨?_, pairwise_insertIndexed i kv.1 kv.2 hi props hpw⟩
      rw [((insertIndexed_perm i kv.1 kv.2 props).map Prod.fst).nodup_iff]
      simp only [List.map_cons, List.nodup_cons]
      exact ⟨hk', hnd⟩
    · rename_i hi
      rw [List.map_append, List.map_singleton]
      refine ⟨?_, ?_⟩
      · rw [List.nodup_append]
        refine ⟨hnd, List.nodup_singleton _, ?_⟩
        intro a ha hb
        simp only [List.mem_singleton] at hb
        subst hb
        exact hk' ha
      · rw [List.pairwise_append]
        refine ⟨hpw, List.pairwise_singleton _ _, ?_⟩
        intro a _ b hb
        simp only [List.mem_singleton] at hb
        subst hb
        exact keyLe_of_not_index a _ hi

theorem membersCanonical_iff (props : List (JSString × JSON)) :
    membersCanonical props = true ↔ ∀ kv ∈ props, kv.2.canonical = true := by
  induction props with
  | nil => simp [membersCanonical]
  | cons kv rest ih =>
    obtain ⟨k, v⟩ := kv
    simp only [membersCanonical, Bool.and_eq_true, ih, List.mem_cons, forall_eq_or_imp]

theorem elemsCanonical_iff (vs : List JSON) :
    elemsCanonical vs = true ↔ ∀ v ∈ vs, v.canonical = true := by
  induction vs with
  | nil => simp [elemsCanonical]
  | cons v rest ih =>
    simp only [elemsCanonical, Bool.and_eq_true, ih, List.mem_cons, forall_eq_or_imp]

theorem membersCanonical_defineProp (props : List (JSString × JSON)) (kv : JSString × JSON)
    (h : membersCanonical props = true) (hv : kv.2.canonical = true) :
    membersCanonical (defineProp props kv) = true := by
  rw [membersCanonical_iff] at h ⊢
  intro x hx
  unfold defineProp at hx
  split_ifs at hx with hk
  · rcases mem_replaceValue _ _ _ _ hx with hx | hx
    · exact h x hx
    · rw [hx]; exact hv
  · split at hx
    · rename_i i hi
      rcases List.mem_cons.1 ((insertIndexed_perm i kv.1 kv.2 props).mem_iff.1 hx) with hx | hx
      · rw [hx]; exact hv
      · exact h x hx
    · rcases List.mem_append.1 hx with hx | hx
      · exact h x hx
      · simp only [List.mem_singleton] at hx
        rw [hx]; exact hv

theorem canonical_foldl_defineProp (ms : List (JSString × JSON)) :
    ∀ acc : List (JSString × JSON), keysCanonical (acc.map Prod.fst) = true →
      membersCanonical acc = true → membersCanonical ms = true →
      keysCanonical ((ms.foldl defineProp acc).map Prod.fst) = true ∧
        membersCanonical (ms.foldl defineProp acc) = true := by
  induction ms with
  | nil => intro acc h1 h2 _; exact ⟨h1, h2⟩
  | cons kv rest ih =>
    intro acc h1 h2 h3
    have h3' := (membersCanonical_iff _).1 h3
    rw [List.foldl_cons]
    apply ih
    · exact keysCanonical_defineProp acc kv h1
    · exact membersCanonical_defineProp acc kv h2 (h3' kv (List.mem_cons_self _ _))
    · exact (membersCanonical_iff _).2 (fun x hx => h3' x (List.mem_cons_of_mem _ hx))

theorem canonical_mkObject (ms : List (JSString × JSON)) (h : membersCanonical ms = true) :
    (mkObject ms).canonical = true := by
  unfold mkObject
  rw [JSON.canonical, Bool.and_eq_true]
  exact canonical_foldl_defineProp ms [] rfl rfl h

/-- In enumeration order a new last key is added at the end. -/
theorem defineProp_append (acc : List (JSString × JSON)) (kv : JSString × JSON)
    (hnew : kv.1 ∉ acc.map Prod.fst) (hle : ∀ a ∈ acc.map Prod.fst, keyLe a kv.1 = true) :
    defineProp acc kv = acc ++ [kv] := by
  unfold defineProp
  rw [if_neg (fun h => hnew ((hasKey_iff _ _).1 h))]
  split
  · rename_i i hi
    clear hnew
    induction acc with
    | nil => rfl
    | cons a rest ih =>
      obtain ⟨k', v'⟩ := a
      have hk' := hle k' (by simp)
      unfold insertIndexed
      cases hj : arrayIndex k' with
      | none => simp [keyLe, hj, hi] at hk'
      | some j =>
        simp only [keyLe, hj, hi, decide_eq_true_eq] at hk'
        simp only [if_neg (by omega : ¬ i < j), List.cons_append, List.cons.injEq, true_and]
        exact ih (fun a ha => hle a (by simp only [List.map_cons, List.mem_cons]; exact Or.inr ha))
  · rfl

/-- The members of an object in enumeration order build that very object. -/
theorem foldl_defineProp_canonical (props : List (JSString × JSON)) :
    ∀ acc : List (JSString × JSON), keysCanonical ((acc ++ props).map Prod.fst) = true →
      props.foldl defineProp acc = acc ++ props := by
  induction props with
  | nil => intro acc _; simp
  | cons kv rest ih =>
    intro acc h
    have h' := (keysCanonical_iff _).1 h
    rw [List.map_append, List.map_cons] at h'
    obtain ⟨hnd, hpw⟩ := h'
    rw [List.foldl_cons, defineProp_append acc kv, ih (acc ++ [kv])]
    · simp
    · simpa using h
    · intro hm
      rw [List.nodup_append] at hnd
      exact hnd.2.2 hm (List.mem_cons_self _ _)
    · intro a ha
      rw [List.pairwise_append] at hpw
      exact hpw.2.2 a ha kv.1 (List.mem_cons_self _ _)

theorem mkObject_canonical (props : List (JSString × JSON))
    (h : keysCanonical (props.map Prod.fst) = true) : mkObject props = .obj props := by
  unfold mkObject
  rw [foldl_defineProp_canonical props [] (by simpa using h)]
  rfl

/-! ## What `JSON.parse` builds is in enumeration order -/

theorem canonical_all (f : Nat) :
    (∀ inp v r, parseValue f inp = some (v, r) → v.canonical = true) ∧
    (∀ inp vs r, parseElems f inp = some (vs, r) → elemsCanonical vs = true) ∧
    (∀ inp ms r, parseMembers f inp = some (ms, r) → membersCanonical ms = true) := by
  induction f with
  | zero =>
    refine ⟨?_, ?_, ?_⟩
    · intro inp v r h; rw [parseValue_zero] at h; cases h
    · intro inp v r h; rw [parseElems_zero] at h; cases h
    · intro inp v r h; rw [parseMembers_zero] at h; cases h
  | succ f ih =>
    obtain ⟨hV, hE, hM⟩ := ih
    refine ⟨?_, ?_, ?_⟩
    · intro inp v r h
      rw [parseValue_succ_iff] at h
      obtain ⟨ch, rest, -, hcase⟩ := h
      unfold ValueCase at hcase
      rcases hcase with ⟨-, d, rest1, -, h⟩ | ⟨-, d, rest1, -, h⟩ | ⟨-, s, -, rfl⟩ |
        ⟨-, -, rfl⟩ | ⟨-, -, rfl⟩ | ⟨-, -, rfl⟩ | ⟨-, n, -, rfl⟩
      · rcases h with ⟨-, rfl, -⟩ | ⟨-, ms, hm, rfl⟩
        · rfl
        · exact canonical_mkObject ms (hM _ _ _ hm)
      · rcases h with ⟨-, rfl, -⟩ | ⟨-, vs, he, rfl⟩
        · rfl
        · rw [JSON.canonical]; exact hE _ _ _ he
      · rfl
      · rfl
      · rfl
      · rfl
      · rfl
    · intro inp vs r h
      rw [parseElems_succ_iff] at h
      obtain ⟨v, r1, ch, rest, hv, -, hcase⟩ := h
      rcases hcase with ⟨-, vs', he, rfl⟩ | ⟨-, rfl, -⟩
      · rw [elemsCanonical, hV _ _ _ hv, hE _ _ _ he]; rfl
      · rw [elemsCanonical, hV _ _ _ hv]; rfl
    · intro inp ms r h
      rw [parseMembers_succ_iff] at h
      obtain ⟨rest, k, r1, r2, v, r3, ch, r4, -, -, -, hv, -, hcase⟩ := h
      rcases hcase with ⟨-, ms', hm, rfl⟩ | ⟨-, rfl, -⟩
      · rw [membersCanonical, hV _ _ _ hv, hM _ _ _ hm]; rfl
      · rw [membersCanonical, hV _ _ _ hv]; rfl

theorem canonical_of_parse (text : JSString) (v : JSON) (h : JSON.parse text = some v) :
    v.canonical = true := by
  obtain ⟨r, hr, -⟩ := JSON_parse_eq_some text v h
  exact (canonical_all _).1 _ _ _ hr

mutual
/-- A value in enumeration order and without Numbers is read back unchanged. -/
theorem reparse_eq : ∀ v : JSON, v.canonical = true → v.numberFree = true → v.reparse = v
  | .null, _, _ => by rw [JSON.reparse]
  | .bool b, _, _ => by rw [JSON.reparse]
  | .num n, _, h => by simp [JSON.numberFree] at h
  | .str s, _, _ => by rw [JSON.reparse]
  | .arr elems, hc, hn => by
    rw [JSON.canonical] at hc
    rw [JSON.numberFree] at hn
    rw [JSON.reparse, reparseElems_eq elems hc hn]
  | .obj props, hc, hn => by
    rw [JSON.canonical, Bool.and_eq_true] at hc
    rw [JSON.numberFree] at hn
    rw [JSON.reparse, reparseMembers_eq props hc.2 hn, mkObject_canonical props hc.1]
theorem reparseElems_eq : ∀ vs : List JSON, elemsCanonical vs = true →
    elemsNumberFree vs = true → reparseElems vs = vs
  | [], _, _ => by rw [reparseElems]
  | v :: rest, hc, hn => by
    rw [elemsCanonical, Bool.and_eq_true] at hc
    rw [elemsNumberFree, Bool.and_eq_true] at hn
    rw [reparseElems, reparse_eq v hc.1 hn.1, reparseElems_eq rest hc.2 hn.2]
theorem reparseMembers_eq : ∀ ms : List (JSString × JSON), membersCanonical ms = true →
    membersNumberFree ms = true → reparseMembers ms = ms
  | [], _, _ => by rw [reparseMembers]
  | (k, v) :: rest, hc, hn => by
    rw [membersCanonical, Bool.and_eq_true] at hc
    rw [membersNumberFree, Bool.and_eq_true] at hn
    rw [reparseMembers, reparse_eq v hc.1 hn.1, reparseMembers_eq rest hc.2 hn.2]
end

theorem reparseNumber_of_stable (n : JSNumber) (h : numberStable n = true) :
    reparseNumber n = .num n := by
  unfold numberStable at h
  unfold reparseNumber
  split at h
  · rename_i d r hd
    simp only [decide_eq_true_eq] at h
    rw [h]
  · cases h

mutual
/-- A value in enumeration order whose Numbers are read back as themselves is read back
unchanged. -/
theorem reparse_stable : ∀ v : JSON, v.canonical = true → v.numbersStable = true →
    v.reparse = v
  | .null, _, _ => by rw [JSON.reparse]
  | .bool b, _, _ => by rw [JSON.reparse]
  | .num n, _, h => by
    rw [JSON.numbersStable] at h
    rw [JSON.reparse, reparseNumber_of_stable n h]
  | .str s, _, _ => by rw [JSON.reparse]
  | .arr elems, hc, hn => by
    rw [JSON.canonical] at hc
    rw [JSON.numbersStable] at hn
    rw [JSON.reparse, reparseElems_stable elems hc hn]
  | .obj props, hc, hn => by
    rw [JSON.canonical, Bool.and_eq_true] at hc
    rw [JSON.numbersStable] at hn
    rw [JSON.reparse, reparseMembers_stable props hc.2 hn, mkObject_canonical props hc.1]
theorem reparseElems_stable : ∀ vs : List JSON, elemsCanonical vs = true →
    elemsNumbersStable vs = true → reparseElems vs = vs
  | [], _, _ => by rw [reparseElems]
  | v :: rest, hc, hn => by
    rw [elemsCanonical, Bool.and_eq_true] at hc
    rw [elemsNumbersStable, Bool.and_eq_true] at hn
    rw [reparseElems, reparse_stable v hc.1 hn.1, reparseElems_stable rest hc.2 hn.2]
theorem reparseMembers_stable : ∀ ms : List (JSString × JSON), membersCanonical ms = true →
    membersNumbersStable ms = true → reparseMembers ms = ms
  | [], _, _ => by rw [reparseMembers]
  | (k, v) :: rest, hc, hn => by
    rw [membersCanonical, Bool.and_eq_true] at hc
    rw [membersNumbersStable, Bool.and_eq_true] at hn
    rw [reparseMembers, reparse_stable v hc.1 hn.1, reparseMembers_stable rest hc.2 hn.2]
end

/-- A parsed value whose Numbers are read back as themselves survives serialization. -/
theorem JSON_parse_stringify_of_stable (text : JSString) (v : JSON)
    (h : JSON.parse text = some v) (hn : v.numbersStable = true) :
    JSON.parse (JSON.stringify v) = some v := by
  rw [JSON_parse_stringify, reparse_stable v (canonical_of_parse text v h) hn]

/-- A parsed value without Numbers survives serialization: parsing its serialization
gives it back. -/
theorem JSON_parse_stringify_of_parse (text : JSString) (v : JSON)
    (h : JSON.parse text = some v) (hn : v.numberFree = true) :
    JSON.parse (JSON.stringify v) = some v := by
  rw [JSON_parse_stringify, reparse_eq v (canonical_of_parse text v h) hn]

/-! ## Trimming a valid JSON text -/

theorem trimEnd_append_ws (c r : JSString) (hc : endsToken c)
    (hr : ∀ x ∈ r, isWhiteSpace x = true) : trimEnd (c ++ r) = c := by
  obtain ⟨l, x, rfl, hx⟩ := hc
  unfold trimEnd
  rw [List.reverse_append, List.dropWhile_append, if_pos, List.reverse_append,
    List.reverse_singleton, List.singleton_append, List.dropWhile_cons_of_neg (by simpa using hx)]
  · simp
  · rw [List.isEmpty_iff, List.dropWhile_eq_nil_iff]
    intro y hy
    exact hr y (List.mem_reverse.1 hy)

theorem trimStart_ws_cons (ws : JSString) (ch : Nat) (rest : JSString)
    (hws : ∀ x ∈ ws, isWhiteSpace x = true) (hch : isWhiteSpace ch = false) :
    trimStart (ws ++ ch :: rest) = ch :: rest := by
  induction ws with
  | nil => exact trimStart_eq_self_of_head ch rest hch
  | cons w ws ih =>
    unfold trimStart at ih ⊢
    rw [List.cons_append, List.dropWhile_cons_of_pos (hws w (List.mem_cons_self _ _))]
    exact ih (fun x hx => hws x (List.mem_cons_of_mem _ hx))

/-- A value starts with a code unit that `trim` keeps and that is not a backtick. -/
theorem valueCase_head (f : Nat) (ch : Nat) (rest : JSString) (v : JSON) (r : JSString)
    (h : ValueCase f ch rest v r) : isWhiteSpace ch = false ∧ ch ≠ 96 := by
  unfold ValueCase at h
  rcases h with ⟨rfl, -⟩ | ⟨rfl, -⟩ | ⟨rfl, -⟩ | ⟨rfl, -⟩ | ⟨rfl, -⟩ | ⟨rfl, -⟩ | ⟨-, n, hn, -⟩
  · decide
  · decide
  · decide
  · decide
  · decide
  · decide
  · rcases lexNumber_head ch rest _ hn with rfl | hd
    · decide
    · simp only [isDigit, Bool.and_eq_true, decide_eq_true_eq] at hd
      simp only [isWhiteSpace, Bool.or_eq_false_iff, decide_eq_false_iff_not,
        Bool.and_eq_false_imp, decide_eq_true_eq]
      omega

/-- Trimming a valid JSON text leaves a valid JSON text with the same value, and one that
does not start with a fence. -/
theorem parse_trim (text : JSString) (v : JSON) (h : JSON.parse text = some v) :
    JSON.parse (trim text) = some v ∧ startsWithFence (trim text) = false ∧ trim text ≠ [] := by
  obtain ⟨r, hr, hws⟩ := JSON_parse_eq_some text v h
  obtain ⟨c, hc, hend, hy⟩ := (frame_all _).1 _ _ _ hr
  have h0 := hy [] rfl
  rw [List.append_nil] at h0
  have hrws : ∀ x ∈ r, isWhiteSpace x = true := fun x hx =>
    isWhiteSpace_of_isJsonWs x ((skipWs_eq_nil_iff r).1 hws x hx)
  have hte : trimEnd text = c := by rw [hc]; exact trimEnd_append_ws c r hend hrws
  have h1 := h0
  rw [parseValue_succ_iff] at h1
  obtain ⟨ch, rest, hskip, hcase⟩ := h1
  obtain ⟨ws, hcw, hws2, hch⟩ := skipWs_eq_cons _ _ _ hskip
  obtain ⟨hhead, h96⟩ := valueCase_head _ _ _ _ _ hcase
  have hts : trim text = ch :: rest := by
    unfold trim
    rw [hte, hcw]
    exact trimStart_ws_cons ws ch rest (fun x hx => isWhiteSpace_of_isJsonWs x (hws2 x hx)) hhead
  rw [hts]
  refine ⟨?_, ?_, by simp⟩
  · apply JSON_parse_of_parseValue (2 * text.length + 1 + 1) _ _ [] _ rfl
    rw [parseValue_succ_iff]
    exact ⟨ch, rest, skipWs_cons_of_not_ws _ _ hch, hcase⟩
  · rw [startsWithFence_false_iff]
    intro r' hr'
    simp only [List.cons.injEq] at hr'
    exact h96 hr'.1

theorem normalize_of_parse (text : JSString) (v : JSON) (h : JSON.parse text = some v) :
    normalize (some text) = trim text ∧ JSON.parse (normalize (some text)) = some v := by
  obtain ⟨h1, h2, -⟩ := parse_trim text v h
  rw [normalize_of_not_fence text h2]
  exact ⟨rfl, h1⟩

/-! ## Properties of re-read values -/

theorem reparseNumber_cases (n : JSNumber) :
    reparseNumber n = .null ∨ ∃ d, reparseNumber n = .num d := by
  unfold reparseNumber
  split
  · exact Or.inr ⟨_, rfl⟩
  · exact Or.inl rfl

theorem isTrue_reparse (v : JSON) : v.reparse.isTrue = v.isTrue := by
  cases v with
  | null => rw [JSON.reparse]
  | bool b => rw [JSON.reparse]
  | num n =>
    rw [JSON.reparse]
    rcases reparseNumber_cases n with h | ⟨d, h⟩ <;> rw [h] <;> rfl
  | str s => rw [JSON.reparse]
  | arr elems => rw [JSON.reparse]; rfl
  | obj props => rw [JSON.reparse]; rfl

theorem isObject_reparse (v : JSON) : v.reparse.isObject = v.isObject := by
  cases v with
  | null => rw [JSON.reparse]
  | bool b => rw [JSON.reparse]
  | num n =>
    rw [JSON.reparse]
    rcases reparseNumber_cases n with h | ⟨d, h⟩ <;> rw [h] <;> rfl
  | str s => rw [JSON.reparse]
  | arr elems => rw [JSON.reparse]; rfl
  | obj props => rw [JSON.reparse]; rfl

theorem keys_reparseMembers (props : List (JSString × JSON)) :
    (reparseMembers props).map Prod.fst = props.map Prod.fst := by
  induction props with
  | nil => rw [reparseMembers]
  | cons kv rest ih =>
    obtain ⟨k, v⟩ := kv
    rw [reparseMembers, List.map_cons, List.map_cons, ih]

theorem getProp_reparseMembers (k : JSString) (props : List (JSString × JSON)) :
    getProp k (reparseMembers props) = (getProp k props).map JSON.reparse := by
  induction props with
  | nil => rw [reparseMembers]; rfl
  | cons kv rest ih =>
    obtain ⟨k', v⟩ := kv
    rw [reparseMembers]
    unfold getProp
    split_ifs
    · rfl
    · exact ih

/-- The re-read object has the properties of the object, each re-read. -/
theorem reparse_obj (props : List (JSString × JSON)) (h : (JSON.obj props).canonical = true) :
    (JSON.obj props).reparse = .obj (reparseMembers props) := by
  rw [JSON.canonical, Bool.and_eq_true] at h
  rw [JSON.reparse, mkObject_canonical]
  rw [keys_reparseMembers]
  exact h.1

theorem hasErrorFlag_reparse (v : JSON) (h : v.canonical = true) :
    v.reparse.hasErrorFlag = v.hasErrorFlag := by
  cases v with
  | null => rw [JSON.reparse]
  | bool b => rw [JSON.reparse]
  | num n =>
    rw [JSON.reparse]
    rcases reparseNumber_cases n with h | ⟨d, h⟩ <;> rw [h] <;> rfl
  | str s => rw [JSON.reparse]
  | arr elems => rw [JSON.reparse]; rfl
  | obj props =>
    rw [reparse_obj props h]
    simp only [JSON.hasErrorFlag]
    rw [getProp_reparseMembers]
    cases getProp errorKey props with
    | none => rfl
    | some x => exact isTrue_reparse x

theorem hasField_reparse (k : JSString) (v : JSON) (h : v.isObject = false) :
    v.reparse.hasField k = false := by
  have := isObject_reparse v
  rw [h] at this
  cases hv : v.reparse with
  | obj props => rw [hv] at this; cases this
  | _ => rfl

/-! ## The documented schema has no Numbers -/

theorem getProp_of_mem (props : List (JSString × JSON)) (k : JSString) (v : JSON)
    (hnd : (props.map Prod.fst).Nodup) (h : (k, v) ∈ props) : getProp k props = some v := by
  induction props with
  | nil => cases h
  | cons kv rest ih =>
    obtain ⟨k', v'⟩ := kv
    rw [List.map_cons, List.nodup_cons] at hnd
    unfold getProp
    rcases List.mem_cons.1 h with h | h
    · simp only [Prod.mk.injEq] at h
      rw [if_pos h.1, h.2]
    · have hne : k ≠ k' := by
        intro hk
        rw [← hk] at hnd
        exact hnd.1 (List.mem_map.2 ⟨(k, v), h, rfl⟩)
      rw [if_neg hne]
      exact ih hnd.2 h

theorem membersNumberFree_iff (props : List (JSString × JSON)) :
    membersNumberFree props = true ↔ ∀ kv ∈ props, kv.2.numberFree = true := by
  induction props with
  | nil => simp [membersNumberFree]
  | cons kv rest ih =>
    obtain ⟨k, v⟩ := kv
    simp only [membersNumberFree, Bool.and_eq_true, ih, List.mem_cons, forall_eq_or_imp]

theorem numberFree_of_isString (v : JSON) (h : v.isString = true) : v.numberFree = true := by
  cases v <;> first | rfl | cases h

theorem elemsNumberFree_of_allStrings (vs : List JSON) (h : allStrings vs = true) :
    elemsNumberFree vs = true := by
  induction vs with
  | nil => rfl
  | cons v rest ih =>
    rw [allStrings, Bool.and_eq_true] at h
    rw [elemsNumberFree, numberFree_of_isString v h.1, ih h.2]
    rfl

theorem numberFree_of_isFileEntry (v : JSON) (h : isFileEntry v = true) :
    v.numberFree = true := by
  unfold isFileEntry at h
  split at h
  · rfl
  · cases h

theorem numberFree_of_isFileTree (v : JSON) (h : isFileTree v = true) :
    v.numberFree = true := by
  cases v with
  | obj props =>
    rw [JSON.numberFree]
    simp only [isFileTree] at h
    induction props with
    | nil => rfl
    | cons kv rest ih =>
      obtain ⟨k, x⟩ := kv
      rw [allFileEntries, Bool.and_eq_true] at h
      rw [membersNumberFree, numberFree_of_isFileEntry x h.1, ih h.2]
      rfl
  | _ => cases h

theorem numberFree_of_isCommand (v : JSON) (hc : v.canonical = true) (h : isCommand v = true) :
    v.numberFree = true := by
  cases v with
  | obj props =>
    rw [JSON.canonical, Bool.and_eq_true, keysCanonical_iff] at hc
    simp only [isCommand, Bool.and_eq_true, List.all_eq_true, Bool.or_eq_true,
      decide_eq_true_eq] at h
    obtain ⟨⟨hkeys, hmain⟩, hcmd⟩ := h
    rw [JSON.numberFree, membersNumberFree_iff]
    intro kv hkv
    obtain ⟨k, x⟩ := kv
    have hget := getProp_of_mem props k x hc.1.1 hkv
    rcases hkeys (k, x) hkv with hk | hk
    · simp only at hk
      subst hk
      rw [hget] at hmain
      split at hmain
      · rename_i s heq
        simp only [Option.some.injEq] at heq
        rw [heq]; rfl
      · cases hmain
    · simp only at hk
      subst hk
      rw [hget] at hcmd
      split at hcmd
      · rename_i elems heq
        simp only [Option.some.injEq] at heq
        rw [heq, JSON.numberFree]
        exact elemsNumberFree_of_allStrings elems hcmd
      · cases hcmd
  | _ => cases h

/-- An answer of the documented shape, as parsed, contains no Number. -/
theorem numberFree_of_matchesSchema (v : JSON) (hc : v.canonical = true)
    (h : matchesSchema v = true) : v.numberFree = true := by
  cases v with
  | obj props =>
    have hc' := hc
    rw [JSON.canonical, Bool.and_eq_true, keysCanonical_iff, membersCanonical_iff] at hc'
    simp only [matchesSchema, Bool.and_eq_true, List.all_eq_true, Bool.or_eq_true,
      decide_eq_true_eq] at h
    obtain ⟨⟨⟨⟨hkeys, htext⟩, htree⟩, hbuild⟩, hstart⟩ := h
    rw [JSON.numberFree, membersNumberFree_iff]
    intro kv hkv
    obtain ⟨k, x⟩ := kv
    have hget := getProp_of_mem props k x hc'.1.1 hkv
    have hxc : x.canonical = true := hc'.2 (k, x) hkv
    rcases hkeys (k, x) hkv with ((hk | hk) | hk) | hk
    · simp only at hk
      subst hk
      rw [hget] at htext
      exact numberFree_of_isString x htext
    · simp only at hk
      subst hk
      rw [hget] at htree
      exact numberFree_of_isFileTree x htree
    · simp only at hk
      subst hk
      rw [hget] at hbuild
      exact numberFree_of_isCommand x hxc hbuild
    · simp only at hk
      subst hk
      rw [hget] at hstart
      exact numberFree_of_isCommand x hxc hstart
  | _ => cases h

/-! ## The fenced response texts -/

theorem trim_cons_ws (w : Nat) (s : JSString) (hw : isWhiteSpace w = true) :
    trim (w :: s) = trim s := by
  unfold trim
  rw [← trimEnd_trimStart, ← trimEnd_trimStart]
  congr 1
  unfold trimStart
  rw [List.dropWhile_cons_of_pos hw]

theorem trimEnd_append_singleton_ws (s : JSString) (w : Nat) (hw : isWhiteSpace w = true) :
    trimEnd (s ++ [w]) = trimEnd s := by
  unfold trimEnd
  rw [List.reverse_append, List.reverse_singleton, List.singleton_append,
    List.dropWhile_cons_of_pos hw]

theorem trim_append_singleton_ws (s : JSString) (w : Nat) (hw : isWhiteSpace w = true) :
    trim (s ++ [w]) = trim s := by
  unfold trim
  rw [trimEnd_append_singleton_ws s w hw]

theorem trim_fenced (a : JSString) (j : JSString) :
    trim (96 :: (a ++ (j ++ [10, 96, 96, 96]))) = 96 :: (a ++ (j ++ [10, 96, 96, 96])) := by
  unfold trim
  have h1 : trimEnd (96 :: (a ++ (j ++ [10, 96, 96, 96]))) = 96 :: (a ++ (j ++ [10, 96, 96, 96])) := by
    have := trimEnd_append_ws (96 :: (a ++ (j ++ [10, 96, 96, 96]))) [] ?_ (by simp)
    · simpa using this
    · exact ⟨96 :: (a ++ (j ++ [10, 96, 96])), 96, by simp, by decide⟩
  rw [h1]
  exact trimStart_eq_self_of_head 96 _ (by decide)

theorem stripFences_tail (j : JSString) (h : hasFence j = false) :
    stripFences (10 :: (j ++ [10, 96, 96, 96])) = 10 :: (j ++ [10]) := by
  have h1 : stripFences (10 :: (j ++ [10, 96, 96, 96])) =
      10 :: stripFences (j ++ [10, 96, 96, 96]) :=
    stripFences_cons_of_not_fence 10 _ (by rw [startsWithFence_false_iff]; intro r hr; cases hr)
  rw [h1, stripFences_append_lf j _ h]
  rfl

/-- The normalized text of a fenced, fence-free document is the trimmed document. -/
theorem normalize_fenceJson (j : JSString) (h : hasFence j = false) :
    normalize (some (fenceJson j)) = trim j := by
  have hshape : fenceJson j = 96 :: ([96, 96, 106, 115, 111, 110, 10] ++ (j ++ [10, 96, 96, 96])) := by
    unfold fenceJson; rfl
  rw [normalize_of_fence _ (by rw [hshape, trim_fenced]; rfl), hshape, trim_fenced]
  have : stripFences (96 :: ([96, 96, 106, 115, 111, 110, 10] ++ (j ++ [10, 96, 96, 96]))) =
      stripFences (10 :: (j ++ [10, 96, 96, 96])) := by
    show stripFences (96 :: 96 :: 96 :: 106 :: 115 :: 111 :: 110 :: (10 :: (j ++ [10, 96, 96, 96]))) = _
    rw [stripFences]
  rw [this, stripFences_tail j h, trim_cons_ws 10 _ (by decide),
    trim_append_singleton_ws j 10 (by decide)]

theorem normalize_fenceBare (j : JSString) (h : hasFence j = false) :
    normalize (some (fenceBare j)) = trim j := by
  have hshape : fenceBare j = 96 :: ([96, 96, 10] ++ (j ++ [10, 96, 96, 96])) := by
    unfold fenceBare; rfl
  rw [normalize_of_fence _ (by rw [hshape, trim_fenced]; rfl), hshape, trim_fenced]
  have : stripFences (96 :: ([96, 96, 10] ++ (j ++ [10, 96, 96, 96]))) =
      stripFences (10 :: (j ++ [10, 96, 96, 96])) := by
    show stripFences (96 :: 96 :: 96 :: (10 :: (j ++ [10, 96, 96, 96]))) = _
    rw [stripFences.eq_2]
    intro r hr
    cases hr
  rw [this, stripFences_tail j h, trim_cons_ws 10 _ (by decide),
    trim_append_singleton_ws j 10 (by decide)]

/-- The Number 42 is read back as itself; `Infinity` is printed as `null` and `-0` as `0`,
so neither is. -/
theorem numberStable_cases :
    numberStable (.finite false 5910974510923776 (-47)) = true ∧
      numberStable (.infinite false) = false ∧ numberStable (.finite true 0 (-1074)) = false := by
  decide

/-! ## Nesting -/

theorem membersDepth_le (props : List (JSString × JSON)) (n : Nat)
    (h : ∀ kv ∈ props, kv.2.depth ≤ n) : membersDepth props ≤ n := by
  induction props with
  | nil => rw [membersDepth]; exact Nat.zero_le _
  | cons kv rest ih =>
    obtain ⟨k, v⟩ := kv
    rw [membersDepth]
    exact max_le (h (k, v) (List.mem_cons_self _ _))
      (ih (fun x hx => h x (List.mem_cons_of_mem _ hx)))

theorem elemsDepth_le (vs : List JSON) (n : Nat) (h : ∀ v ∈ vs, v.depth ≤ n) :
    elemsDepth vs ≤ n := by
  induction vs with
  | nil => rw [elemsDepth]; exact Nat.zero_le _
  | cons v rest ih =>
    rw [elemsDepth]
    exact max_le (h v (List.mem_cons_self _ _)) (ih (fun x hx => h x (List.mem_cons_of_mem _ hx)))

theorem depth_of_isString (v : JSON) (h : v.isString = true) : v.depth = 1 := by
  cases v <;> first | rfl | cases h

theorem depth_of_isFileEntry (v : JSON) (h : isFileEntry v = true) : v.depth ≤ 3 := by
  unfold isFileEntry at h
  split at h
  · simp [JSON.depth, membersDepth]
  · cases h

theorem depth_of_isFileTree (v : JSON) (h : isFileTree v = true) : v.depth ≤ 4 := by
  cases v with
  | obj props =>
    simp only [isFileTree] at h
    rw [JSON.depth]
    have : membersDepth props ≤ 3 := by
      apply membersDepth_le
      induction props with
      | nil => intro kv hkv; cases hkv
      | cons kv rest ih =>
        obtain ⟨k, x⟩ := kv
        rw [allFileEntries, Bool.and_eq_true] at h
        intro y hy
        rcases List.mem_cons.1 hy with hy | hy
        · rw [hy]; exact depth_of_isFileEntry x h.1
        · exact ih h.2 y hy
    omega
  | _ => cases h

theorem elemsDepth_of_allStrings (vs : List JSON) (h : allStrings vs = true) :
    elemsDepth vs ≤ 1 := by
  apply elemsDepth_le
  induction vs with
  | nil => intro v hv; cases hv
  | cons v rest ih =>
    rw [allStrings, Bool.and_eq_true] at h
    intro y hy
    rcases List.mem_cons.1 hy with hy | hy
    · rw [hy, depth_of_isString v h.1]
    · exact ih h.2 y hy

theorem depth_of_isCommand (v : JSON) (hc : v.canonical = true) (h : isCommand v = true) :
    v.depth ≤ 3 := by
  cases v with
  | obj props =>
    rw [JSON.canonical, Bool.and_eq_true, keysCanonical_iff] at hc
    simp only [isCommand, Bool.and_eq_true, List.all_eq_true, Bool.or_eq_true,
      decide_eq_true_eq] at h
    obtain ⟨⟨hkeys, hmain⟩, hcmd⟩ := h
    rw [JSON.depth]
    have : membersDepth props ≤ 2 := by
      apply membersDepth_le
      intro kv hkv
      obtain ⟨k, x⟩ := kv
      have hget := getProp_of_mem props k x hc.1.1 hkv
      rcases hkeys (k, x) hkv with hk | hk
      · simp only at hk
        subst hk
        rw [hget] at hmain
        split at hmain
        · rename_i s heq
          simp only [Option.some.injEq] at heq
          have h1 : (JSON.str s).depth = 1 := rfl
          show x.depth ≤ 2
          rw [heq, h1]
          omega
        · cases hmain
      · simp only at hk
        subst hk
        rw [hget] at hcmd
        split at hcmd
        · rename_i elems heq
          simp only [Option.some.injEq] at heq
          show x.depth ≤ 2
          rw [heq, JSON.depth]
          have := elemsDepth_of_allStrings elems hcmd
          omega
        · cases hcmd
    omega
  | _ => cases h

/-- An answer of the documented shape, as parsed, is nested at most five levels. -/
theorem depth_of_matchesSchema (v : JSON) (hc : v.canonical = true)
    (h : matchesSchema v = true) : v.depth ≤ schemaNesting := by
  cases v with
  | obj props =>
    have hc' := hc
    rw [JSON.canonical, Bool.and_eq_true, keysCanonical_iff, membersCanonical_iff] at hc'
    simp only [matchesSchema, Bool.and_eq_true, List.all_eq_true, Bool.or_eq_true,
      decide_eq_true_eq] at h
    obtain ⟨⟨⟨⟨hkeys, htext⟩, htree⟩, hbuild⟩, hstart⟩ := h
    rw [JSON.depth]
    have : membersDepth props ≤ 4 := by
      apply membersDepth_le
      intro kv hkv
      obtain ⟨k, x⟩ := kv
      have hget := getProp_of_mem props k x hc'.1.1 hkv
      have hxc : x.canonical = true := hc'.2 (k, x) hkv
      rcases hkeys (k, x) hkv with ((hk | hk) | hk) | hk
      · simp only at hk
        subst hk
        rw [hget] at htext
        show x.depth ≤ 4
        rw [depth_of_isString x htext]
        omega
      · simp only at hk
        subst hk
        rw [hget] at htree
        exact depth_of_isFileTree x htree
      · simp only at hk
        subst hk
        rw [hget] at hbuild
        have := depth_of_isCommand x hxc hbuild
        show x.depth ≤ 4
        omega
      · simp only at hk
        subst hk
        rw [hget] at hstart
        have := depth_of_isCommand x hxc hstart
        show x.depth ≤ 4
        omega
    unfold schemaNesting
    omega
  | _ => cases h

theorem depth_parseFallback (raw : JSString) : (parseFallback raw).depth = 2 := by
  simp [parseFallback, JSON.depth, membersDepth]

/-! ## The branches of `generateResult` -/

theorem stringify_of_depth_le (engine : Engine) (v : JSON) (h : v.depth ≤ engine.maxNesting) :
    engine.stringify v = some (JSON.stringify v) := by
  unfold Engine.stringify
  rw [if_pos h]

theorem stringify_of_lt_depth (engine : Engine) (v : JSON) (h : engine.maxNesting < v.depth) :
    engine.stringify v = none := by
  unfold Engine.stringify
  rw [if_neg (by omega)]

theorem generateResult_of_failure (engine : Engine) (generateContent : Provider)
    (prompt error : JSString) (h : generateContent (request prompt) = .failure error) :
    generateResult engine generateContent prompt = JSON.stringify failureEnvelope := by
  unfold generateResult
  rw [h]

/-- The provider responded, the normalized text is not JSON: the fallback object. -/
theorem generateResult_of_unparsable (engine : Engine) (generateContent : Provider)
    (prompt : JSString) (text : Option JSString)
    (h : generateContent (request prompt) = .response text)
    (hp : JSON.parse (normalize text) = none) :
    generateResult engine generateContent prompt =
      JSON.stringify (parseFallback (normalize text)) := by
  have hd : (parseFallback (normalize text)).depth ≤ engine.maxNesting := by
    rw [depth_parseFallback]
    unfold Engine.maxNesting schemaNesting
    omega
  unfold generateResult parsedOrFallback
  rw [h]
  simp only [hp, stringify_of_depth_le engine _ hd]

/-- The provider responded with JSON nested no deeper than the engine serializes. -/
theorem generateResult_of_parsed (engine : Engine) (generateContent : Provider)
    (prompt : JSString) (text : Option JSString) (v : JSON)
    (h : generateContent (request prompt) = .response text)
    (hp : JSON.parse (normalize text) = some v) (hd : v.depth ≤ engine.maxNesting) :
    generateResult engine generateContent prompt = JSON.stringify v := by
  unfold generateResult parsedOrFallback
  rw [h]
  simp only [hp, stringify_of_depth_le engine _ hd]

/-- The provider responded with JSON nested deeper than the engine serializes. -/
theorem generateResult_of_overflow (engine : Engine) (generateContent : Provider)
    (prompt : JSString) (text : Option JSString) (v : JSON)
    (h : generateContent (request prompt) = .response text)
    (hp : JSON.parse (normalize text) = some v) (hd : engine.maxNesting < v.depth) :
    generateResult engine generateContent prompt = JSON.stringify failureEnvelope := by
  unfold generateResult parsedOrFallback
  rw [h]
  simp only [hp, stringify_of_lt_depth engine _ hd]

theorem failureEnvelope_text :
    JSON.stringify failureEnvelope =
      utf16 ("\x7b\"text\":\"Something went wrong while generating AI response.\"," ++
        "\"fileTree\":\x7b\x7d,\"buildCommand\":\x7b\x7d,\"startCommand\":\x7b\x7d,\"error\":true\x7d") := by
  decide

theorem parse_failureEnvelope :
    JSON.parse (JSON.stringify failureEnvelope) = some failureEnvelope := by
  rw [JSON_parse_stringify, reparse_eq failureEnvelope rfl rfl]

/-! ## Deeply nested arrays -/

theorem nestedArrayText_succ (n : Nat) :
    nestedArrayText (n + 1) = 91 :: (nestedArrayText n ++ [93]) := by
  unfold nestedArrayText
  rw [List.replicate_succ, List.replicate_succ', List.cons_append, List.append_assoc]

theorem depth_nestedArray (n : Nat) : (nestedArray n).depth = n + 1 := by
  induction n with
  | zero => simp [nestedArray, JSON.depth, elemsDepth]
  | succ n ih =>
    rw [nestedArray, JSON.depth, elemsDepth, elemsDepth, ih]
    simp
    omega

theorem isObject_nestedArray (n : Nat) : (nestedArray n).isObject = false := by
  cases n <;> rfl

theorem stringify_nestedArray_head (n : Nat) :
    ∃ t, JSON.stringify (nestedArray n) = 91 :: t := by
  cases n with
  | zero => exact ⟨_, by rw [nestedArray, JSON.stringify]⟩
  | succ n => exact ⟨_, by rw [nestedArray, JSON.stringify]⟩

theorem parseValue_nestedArrayText (n : Nat) :
    ∀ rest : JSString, ∃ f, parseValue f (nestedArrayText (n + 1) ++ rest) =
      some (nestedArray n, rest) := by
  induction n with
  | zero =>
    intro rest
    refine ⟨1, ?_⟩
    rw [parseValue_succ_iff]
    refine ⟨91, 93 :: rest, skipWs_cons_of_not_ws _ _ (by decide), ?_⟩
    unfold ValueCase
    right; left
    exact ⟨rfl, 93, rest, skipWs_cons_of_not_ws _ _ (by decide), Or.inl ⟨rfl, rfl, rfl⟩⟩
  | succ n ih =>
    intro rest
    obtain ⟨f, hf⟩ := ih (93 :: rest)
    refine ⟨f + 1 + 1, ?_⟩
    have hshape : nestedArrayText (n + 1 + 1) ++ rest =
        91 :: (nestedArrayText (n + 1) ++ 93 :: rest) := by
      rw [nestedArrayText_succ (n + 1)]
      simp
    have hhead : nestedArrayText (n + 1) ++ 93 :: rest =
        91 :: (nestedArrayText n ++ [93] ++ 93 :: rest) := by
      rw [nestedArrayText_succ n]
      simp
    rw [hshape, parseValue_succ_iff]
    refine ⟨91, _, skipWs_cons_of_not_ws _ _ (by decide), ?_⟩
    unfold ValueCase
    right; left
    refine ⟨rfl, 91, nestedArrayText n ++ [93] ++ 93 :: rest, ?_, Or.inr ⟨by decide, _, ?_, rfl⟩⟩
    · rw [hhead]
      exact skipWs_cons_of_not_ws _ _ (by decide)
    · rw [← hhead, parseElems_succ_iff]
      exact ⟨_, _, 93, rest, hf, skipWs_cons_of_not_ws _ _ (by decide),
        Or.inr ⟨rfl, rfl, rfl⟩⟩

/-- The text of `n + 1` opening and closing brackets is valid JSON: the array nested
`n + 1` deep. -/
theorem parse_nestedArrayText (n : Nat) :
    JSON.parse (nestedArrayText (n + 1)) = some (nestedArray n) := by
  obtain ⟨f, hf⟩ := parseValue_nestedArrayText n []
  rw [List.append_nil] at hf
  exact JSON_parse_of_parseValue f _ _ [] hf rfl

theorem hasFence_of_no_backtick (s : JSString) (h : ∀ c ∈ s, c ≠ 96) : hasFence s = false := by
  induction s with
  | nil => rfl
  | cons c s ih =>
    rw [hasFence_cons, ih (fun x hx => h x (List.mem_cons_of_mem _ hx)), Bool.or_false,
      startsWithFence_false_iff]
    intro r hr
    simp only [List.cons.injEq] at hr
    exact h c (List.mem_cons_self _ _) hr.1

theorem hasFence_nestedArrayText (n : Nat) : hasFence (nestedArrayText n) = false := by
  apply hasFence_of_no_backtick
  intro c hc
  unfold nestedArrayText at hc
  rcases List.mem_append.1 hc with hc | hc
  · rw [(List.mem_replicate.1 hc).2]; decide
  · rw [(List.mem_replicate.1 hc).2]; decide

/-! ## The contract of `generateResult` -/


/-- C1. `generateResult` is total and its result is always syntactically valid JSON:
for every prompt and every provider outcome (a response with any text, a response
without text, a failed call) the returned string is accepted by `JSON.parse`. -/
theorem generateResult_valid_json (engine : Engine) (generateContent : Provider)
    (prompt : JSString) : validJSON (generateResult engine generateContent prompt) = true := by
  unfold generateResult
  cases generateContent (request prompt) with
  | response text =>
    by_cases hd : (parsedOrFallback (normalize text)).depth ≤ engine.maxNesting
    · simp only [stringify_of_depth_le engine _ hd]
      exact validJSON_stringify _
    · simp only [stringify_of_lt_depth engine (parsedOrFallback (normalize text))
        (Nat.lt_of_not_le hd)]
      exact validJSON_stringify _
  | failure error => exact validJSON_stringify _

/-- C2. Whenever the provider call fails, with any error and for any prompt,
`generateResult` returns exactly the serialization of the failure envelope
`text: "Something went wrong while generating AI response.", fileTree: \x7b\x7d,
buildCommand: \x7b\x7d, startCommand: \x7b\x7d, error: true`. -/
theorem generateResult_failure_envelope (engine : Engine) (generateContent : Provider)
    (prompt error : JSString) (h : generateContent (request prompt) = .failure error) :
    generateResult engine generateContent prompt =
        utf16 ("\x7b\"text\":\"Something went wrong while generating AI response.\"," ++
          "\"fileTree\":\x7b\x7d,\"buildCommand\":\x7b\x7d,\"startCommand\":\x7b\x7d,\"error\":true\x7d") ∧
      JSON.parse (generateResult engine generateContent prompt) =
        some (.obj [(utf16 "text",
            .str (utf16 "Something went wrong while generating AI response.")),
          (utf16 "fileTree", .obj []), (utf16 "buildCommand", .obj []),
          (utf16 "startCommand", .obj []), (utf16 "error", .bool true)]) := by
  rw [generateResult_of_failure engine generateContent prompt error h]
  exact ⟨failureEnvelope_text, parse_failureEnvelope⟩

theorem generateResult_failure_envelope_witness :
    generateResult (Engine.mk 4103) (fun _ => .failure (utf16 "fetch failed"))
        (utf16 "Create an express server") =
        utf16 ("\x7b\"text\":\"Something went wrong while generating AI response.\"," ++
          "\"fileTree\":\x7b\x7d,\"buildCommand\":\x7b\x7d,\"startCommand\":\x7b\x7d,\"error\":true\x7d") ∧
      JSON.parse (generateResult (Engine.mk 4103) (fun _ => .failure (utf16 "fetch failed"))
          (utf16 "Create an express server")) =
        some (.obj [(utf16 "text",
            .str (utf16 "Something went wrong while generating AI response.")),
          (utf16 "fileTree", .obj []), (utf16 "buildCommand", .obj []),
          (utf16 "startCommand", .obj []), (utf16 "error", .bool true)]) :=
  generateResult_failure_envelope (Engine.mk 4103) (fun _ => .failure (utf16 "fetch failed"))
    (utf16 "Create an express server") (utf16 "fetch failed") rfl

/-- C3. When the provider responded and the normalized text is not valid JSON, the result
is the serialization of the object with exactly the four fields `text`, `fileTree`,
`buildCommand`, `startCommand`, where `text` is the normalized text and the others are
empty objects; parsing the result gives that object back, and it has no `error` field. -/
theorem generateResult_unparsable_fallback (engine : Engine) (generateContent : Provider)
    (prompt : JSString) (text : Option JSString)
    (h : generateContent (request prompt) = .response text)
    (hparse : JSON.parse (normalize text) = none) :
    generateResult engine generateContent prompt =
        JSON.stringify (.obj [(utf16 "text", .str (normalize text)), (utf16 "fileTree", .obj []),
          (utf16 "buildCommand", .obj []), (utf16 "startCommand", .obj [])]) ∧
      JSON.parse (generateResult engine generateContent prompt) =
        some (.obj [(utf16 "text", .str (normalize text)), (utf16 "fileTree", .obj []),
          (utf16 "buildCommand", .obj []), (utf16 "startCommand", .obj [])]) ∧
      errorFlagged (generateResult engine generateContent prompt) = false := by
  have hres := generateResult_of_unparsable engine generateContent prompt text h hparse
  have hback : JSON.parse (JSON.stringify (parseFallback (normalize text))) =
      some (parseFallback (normalize text)) := by
    rw [JSON_parse_stringify, reparse_eq (parseFallback (normalize text)) rfl rfl]
  refine ⟨hres, ?_, ?_⟩
  · rw [hres]; exact hback
  · unfold errorFlagged
    rw [hres, hback]
    rfl

theorem generateResult_unparsable_fallback_witness :
    generateResult (Engine.mk 4103) (fun _ => .response (some (utf16 "not json at all")))
        (utf16 "Hello") =
      utf16 ("\x7b\"text\":\"not json at all\",\"fileTree\":\x7b\x7d,\"buildCommand\":\x7b\x7d," ++
        "\"startCommand\":\x7b\x7d\x7d") ∧
    errorFlagged
      (generateResult (Engine.mk 4103) (fun _ => .response (some (utf16 "not json at all")))
        (utf16 "Hello")) = false :=
  have h := generateResult_unparsable_fallback (Engine.mk 4103)
    (fun _ => .response (some (utf16 "not json at all"))) (utf16 "Hello")
    (some (utf16 "not json at all")) rfl (by rfl)
  ⟨h.1.trans (by decide), h.2.2⟩

/-- C4. When the provider's text is valid JSON of the documented schema, parsing the string
`generateResult` returns gives the very value parsing the provider's text gives: no field
is added, removed or changed. -/
theorem generateResult_passthrough (engine : Engine) (generateContent : Provider)
    (prompt text : JSString) (v : JSON)
    (h : generateContent (request prompt) = .response (some text))
    (hv : JSON.parse text = some v) (hs : matchesSchema v = true) :
    JSON.parse (generateResult engine generateContent prompt) = JSON.parse text := by
  obtain ⟨-, hn⟩ := normalize_of_parse text v hv
  have hc := canonical_of_parse text v hv
  have hd : v.depth ≤ engine.maxNesting :=
    Nat.le_trans (depth_of_matchesSchema v hc hs) (Nat.le_add_right _ _)
  rw [generateResult_of_parsed engine generateContent prompt (some text) v h hn hd, hv,
    JSON_parse_stringify, reparse_eq v hc (numberFree_of_matchesSchema v hc hs)]

theorem generateResult_passthrough_witness :
    JSON.parse (generateResult (Engine.mk 4103)
      (fun _ => .response (some (utf16 (" \x7b\"text\":\"A server.\",\"fileTree\":\x7b\"app.js\":" ++
        "\x7b\"file\":\x7b\"contents\":\"const a = 1;\\n\"\x7d\x7d\x7d,\"buildCommand\":\x7b\"mainItem\":\"npm\"," ++
        "\"commands\":[\"install\"]\x7d,\"startCommand\":\x7b\"mainItem\":\"node\"," ++
        "\"commands\":[\"app.js\"]\x7d\x7d\n"))))
      (utf16 "Create an express server")) =
    JSON.parse (utf16 (" \x7b\"text\":\"A server.\",\"fileTree\":\x7b\"app.js\":" ++
        "\x7b\"file\":\x7b\"contents\":\"const a = 1;\\n\"\x7d\x7d\x7d,\"buildCommand\":\x7b\"mainItem\":\"npm\"," ++
        "\"commands\":[\"install\"]\x7d,\"startCommand\":\x7b\"mainItem\":\"node\"," ++
        "\"commands\":[\"app.js\"]\x7d\x7d\n")) :=
  generateResult_passthrough (Engine.mk 4103) _ (utf16 "Create an express server") _
    (.obj [(utf16 "text", .str (utf16 "A server.")),
      (utf16 "fileTree", .obj [(utf16 "app.js",
        .obj [(utf16 "file", .obj [(utf16 "contents", .str (utf16 "const a = 1;\n"))])])]),
      (utf16 "buildCommand", .obj [(utf16 "mainItem", .str (utf16 "npm")),
        (utf16 "commands", .arr [.str (utf16 "install")])]),
      (utf16 "startCommand", .obj [(utf16 "mainItem", .str (utf16 "node")),
        (utf16 "commands", .arr [.str (utf16 "app.js")])])])
    rfl (by rfl) (by decide)

/-- C5, as the claim states it, fails on two inputs the code treats as designed: the valid
document `1e999` is the Number `Infinity`, which `JSON.stringify` prints as `null`; and the
valid document of 6000 nested arrays, fenced, is parsed, but `JSON.stringify` exhausts the
stack of an engine that serializes 4108 levels, and the outer `catch` returns the failure
envelope. -/
theorem fence_wrapping_counterexample :
    (JSON.parse (utf16 "1e999") = some (.num (.infinite false)) ∧
      JSON.parse (generateResult (Engine.mk 4103)
          (fun _ => .response (some (fenceJson (utf16 "1e999")))) []) = some .null ∧
      JSON.parse (generateResult (Engine.mk 4103)
          (fun _ => .response (some (fenceJson (utf16 "1e999")))) []) ≠
        JSON.parse (utf16 "1e999")) ∧
    (JSON.parse (nestedArrayText 6000) = some (nestedArray 5999) ∧
      generateResult (Engine.mk 4103)
          (fun _ => .response (some (fenceJson (nestedArrayText 6000)))) [] =
        utf16 ("\x7b\"text\":\"Something went wrong while generating AI response.\"," ++
          "\"fileTree\":\x7b\x7d,\"buildCommand\":\x7b\x7d,\"startCommand\":\x7b\x7d,\"error\":true\x7d") ∧
      JSON.parse (generateResult (Engine.mk 4103)
          (fun _ => .response (some (fenceJson (nestedArrayText 6000)))) []) ≠
        JSON.parse (nestedArrayText 6000)) := by
  have b1 : JSON.parse (utf16 "1e999") = some (.num (.infinite false)) := by
    have hlex : lexNumber (49 :: [101, 57, 57, 57] ++ []) = some (.infinite false, []) := by
      decide!
    exact JSON_parse_of_parseValue 1 _ _ [] (parseValue_number 49 _ [] _ (Or.inr rfl) hlex) rfl
  have b2 : JSON.parse (generateResult (Engine.mk 4103)
      (fun _ => .response (some (fenceJson (utf16 "1e999")))) []) = some .null := by
    have hres : generateResult (Engine.mk 4103)
        (fun _ => .response (some (fenceJson (utf16 "1e999")))) [] = utf16 "null" := by decide!
    rw [hres]
    rfl
  have c1 : JSON.parse (nestedArrayText 6000) = some (nestedArray 5999) :=
    parse_nestedArrayText 5999
  have c2 : generateResult (Engine.mk 4103)
      (fun _ => .response (some (fenceJson (nestedArrayText 6000)))) [] =
      JSON.stringify failureEnvelope := by
    apply generateResult_of_overflow (Engine.mk 4103) _ [] _ (nestedArray 5999) rfl
    · rw [normalize_fenceJson _ (hasFence_nestedArrayText 6000)]
      exact (parse_trim _ _ c1).1
    · rw [depth_nestedArray]
      decide
  refine ⟨⟨b1, b2, ?_⟩, ⟨c1, c2.trans failureEnvelope_text, ?_⟩⟩
  · rw [b1, b2]
    intro h
    cases h
  · rw [c2, parse_failureEnvelope, c1]
    intro h
    have h' := congrArg (Option.map JSON.isObject) h
    rw [Option.map_some', Option.map_some', isObject_nestedArray] at h'
    cases h'

/-- C5, amended. For every valid JSON document `j` without a run of three backticks whose
value is nested no deeper than `JSON.stringify` serializes on the engine, when the response
text is `j` in a code fence (with the `json` tag or bare), `generateResult` returns exactly
what it returns for `j` unwrapped, the serialization of the value of `j`; and parsing the
result gives the value of `j` whenever each Number in it is read back from its own
serialization as itself. -/
theorem fence_wrapping_transparent (engine : Engine) (generateContent : Provider)
    (prompt j : JSString) (v : JSON)
    (hv : JSON.parse j = some v) (hf : hasFence j = false) (hd : v.depth ≤ engine.maxNesting)
    (h : generateContent (request prompt) = .response (some (fenceJson j)) ∨
      generateContent (request prompt) = .response (some (fenceBare j))) :
    generateResult engine generateContent prompt = JSON.stringify v ∧
      generateResult engine generateContent prompt =
        generateResult engine (fun _ => .response (some j)) prompt ∧
      (v.numbersStable = true →
        JSON.parse (generateResult engine generateContent prompt) = some v) := by
  obtain ⟨htrim, -, -⟩ := parse_trim j v hv
  obtain ⟨-, hn2⟩ := normalize_of_parse j v hv
  have hplain : generateResult engine (fun _ => .response (some j)) prompt =
      JSON.stringify v :=
    generateResult_of_parsed engine _ prompt (some j) v rfl hn2 hd
  have hres : generateResult engine generateContent prompt = JSON.stringify v := by
    rcases h with h | h
    · apply generateResult_of_parsed engine generateContent prompt _ v h _ hd
      rw [normalize_fenceJson j hf]
      exact htrim
    · apply generateResult_of_parsed engine generateContent prompt _ v h _ hd
      rw [normalize_fenceBare j hf]
      exact htrim
  refine ⟨hres, by rw [hres, hplain], ?_⟩
  intro hnum
  rw [hres]
  exact JSON_parse_stringify_of_stable j v hv hnum

theorem fence_wrapping_transparent_witness :
    (generateResult (Engine.mk 4103)
        (fun _ => .response (some (fenceJson (utf16 "\x7b\"text\":\"hi\"\x7d")))) [] =
        utf16 "\x7b\"text\":\"hi\"\x7d" ∧
      JSON.parse (generateResult (Engine.mk 4103)
          (fun _ => .response (some (fenceJson (utf16 "\x7b\"text\":\"hi\"\x7d")))) []) =
        some (.obj [(utf16 "text", .str (utf16 "hi"))])) ∧
    (generateResult (Engine.mk 4103)
        (fun _ => .response (some (fenceBare (utf16 "\x7b\"text\":\"hi\",\"n\":42\x7d")))) [] =
        generateResult (Engine.mk 4103)
          (fun _ => .response (some (utf16 "\x7b\"text\":\"hi\",\"n\":42\x7d"))) [] ∧
      JSON.parse (generateResult (Engine.mk 4103)
          (fun _ => .response (some (fenceBare (utf16 "\x7b\"text\":\"hi\",\"n\":42\x7d")))) []) =
        some (.obj [(utf16 "text", .str (utf16 "hi")),
          (utf16 "n", .num (.finite false 5910974510923776 (-47)))])) :=
  have h1 := fence_wrapping_transparent (Engine.mk 4103)
    (fun _ => .response (some (fenceJson (utf16 "\x7b\"text\":\"hi\"\x7d")))) []
    (utf16 "\x7b\"text\":\"hi\"\x7d") (.obj [(utf16 "text", .str (utf16 "hi"))])
    (by rfl) (by decide) (by decide) (Or.inl rfl)
  have h2 := fence_wrapping_transparent (Engine.mk 4103)
    (fun _ => .response (some (fenceBare (utf16 "\x7b\"text\":\"hi\",\"n\":42\x7d")))) []
    (utf16 "\x7b\"text\":\"hi\",\"n\":42\x7d")
    (.obj [(utf16 "text", .str (utf16 "hi")),
      (utf16 "n", .num (.finite false 5910974510923776 (-47)))])
    (by rfl) (by decide) (by decide) (Or.inr rfl)
  ⟨⟨h1.1.trans (by decide), h1.2.2 (by decide)⟩, ⟨h2.2.1, h2.2.2 (by decide)⟩⟩

/-- C6, as the claim states it, fails: the provider responded with the JSON text
`\x7b"error":true\x7d`, and the result carries a top-level `error: true`. -/
theorem error_flag_counterexample :
    (fun _ => ProviderOutcome.response (some (utf16 "\x7b\"error\":true\x7d")) : Provider)
        (request (utf16 "Hello")) =
      .response (some (utf16 "\x7b\"error\":true\x7d")) ∧
    generateResult (Engine.mk 4103) (fun _ => .response (some (utf16 "\x7b\"error\":true\x7d")))
        (utf16 "Hello") =
      utf16 "\x7b\"error\":true\x7d" ∧
    errorFlagged (generateResult (Engine.mk 4103)
      (fun _ => .response (some (utf16 "\x7b\"error\":true\x7d"))) (utf16 "Hello")) = true := by
  exact ⟨rfl, by decide, by decide⟩

/-- C6, amended. The result has a top-level `error: true` whenever the provider call
failed; when the provider responded, the unparsable-text fallback never has it; a parsed
answer that `JSON.stringify` serializes has it exactly when the provider's own JSON has
it; and a parsed answer nested too deep for `JSON.stringify` comes back as the failure
envelope, which has it. -/
theorem error_flag_cases (engine : Engine) (generateContent : Provider) (prompt : JSString) :
    errorFlagged (generateResult engine generateContent prompt) =
      match generateContent (request prompt) with
      | .failure _ => true
      | .response text =>
        match JSON.parse (normalize text) with
        | some answer => if answer.depth ≤ engine.maxNesting then answer.hasErrorFlag else true
        | none => false := by
  have henv : errorFlagged (JSON.stringify failureEnvelope) = true := by
    unfold errorFlagged
    rw [parse_failureEnvelope]
    rfl
  cases hg : generateContent (request prompt) with
  | failure error =>
    rw [generateResult_of_failure engine generateContent prompt error hg]
    exact henv
  | response text =>
    simp only []
    cases hp : JSON.parse (normalize text) with
    | none =>
      simp only []
      rw [generateResult_of_unparsable engine generateContent prompt text hg hp]
      unfold errorFlagged
      rw [JSON_parse_stringify, reparse_eq (parseFallback (normalize text)) rfl rfl]
      rfl
    | some answer =>
      simp only []
      by_cases hd : answer.depth ≤ engine.maxNesting
      · rw [generateResult_of_parsed engine generateContent prompt text answer hg hp hd,
          if_pos hd]
        unfold errorFlagged
        rw [JSON_parse_stringify]
        exact hasErrorFlag_reparse answer (canonical_of_parse _ _ hp)
      · rw [generateResult_of_overflow engine generateContent prompt text answer hg hp
          (Nat.lt_of_not_le hd), if_neg hd]
        exact henv

/-- C7. The `contents` sent to the provider is exactly the line feed, the system
instruction, the delimiter `USER REQUEST:`, the prompt as it is, and a line feed; the part
up to and including the delimiter is the same for all prompts, what follows it is the
prompt unmodified, and the provider is called with this one request. -/
theorem prompt_fidelity (p q : JSString) :
    (request p).contents =
        utf16 "\n" ++ SYSTEM_INSTRUCTION ++ utf16 "\n\nUSER REQUEST:\n" ++ p ++ utf16 "\n" ∧
      (request p).contents.take
          (utf16 "\n" ++ SYSTEM_INSTRUCTION ++ utf16 "\n\nUSER REQUEST:\n").length =
        (request q).contents.take
          (utf16 "\n" ++ SYSTEM_INSTRUCTION ++ utf16 "\n\nUSER REQUEST:\n").length ∧
      (request p).contents.drop
          (utf16 "\n" ++ SYSTEM_INSTRUCTION ++ utf16 "\n\nUSER REQUEST:\n").length =
        p ++ utf16 "\n" ∧
      ∀ (engine : Engine) (generateContent : Provider),
        generateResult engine generateContent p =
          generateResult engine (fun _ => generateContent (request p)) p := by
  have hp : ∀ x : JSString, (request x).contents =
      (utf16 "\n" ++ SYSTEM_INSTRUCTION ++ utf16 "\n\nUSER REQUEST:\n") ++ (x ++ utf16 "\n") := by
    intro x
    simp only [request, structuredPrompt, List.append_assoc]
  refine ⟨by simp only [request, structuredPrompt], ?_, ?_, fun _ _ => rfl⟩
  · rw [hp p, hp q, List.take_left', List.take_left'] <;> rfl
  · rw [hp p, List.drop_left']
    rfl

/-- C8. When the trimmed provider text begins with three backticks, the normalized text
(every match of the fence pattern removed left to right, then trimmed) contains no run of
three backticks, and normalizing it again changes nothing; removing fence tokens from any
text never leaves three backticks in a row. -/
theorem fence_stripping_leaves_no_fence (t : JSString) (h : startsWithFence (trim t) = true) :
    normalize (some t) = trim (stripFences (trim t)) ∧
      hasFence (normalize (some t)) = false ∧
      normalize (some (normalize (some t))) = normalize (some t) ∧
      ∀ s : JSString, hasFence (stripFences s) = false := by
  have hn := normalize_of_fence t h
  have hf : hasFence (normalize (some t)) = false := by
    rw [hn]
    exact hasFence_trim _ (hasFence_stripFences _)
  refine ⟨hn, hf, ?_, hasFence_stripFences⟩
  apply normalize_fixed _ _ hf
  rw [hn, trim_idem]

theorem fence_stripping_leaves_no_fence_witness :
    normalize (some (utf16 " `````json``\n\x7b\"a\":\"````json`\"\x7d ``` ")) =
        trim (stripFences (trim (utf16 " `````json``\n\x7b\"a\":\"````json`\"\x7d ``` "))) ∧
      hasFence (normalize (some (utf16 " `````json``\n\x7b\"a\":\"````json`\"\x7d ``` "))) = false ∧
      normalize (some (normalize (some (utf16 " `````json``\n\x7b\"a\":\"````json`\"\x7d ``` ")))) =
        normalize (some (utf16 " `````json``\n\x7b\"a\":\"````json`\"\x7d ``` ")) ∧
      ∀ s : JSString, hasFence (stripFences s) = false :=
  fence_stripping_leaves_no_fence (utf16 " `````json``\n\x7b\"a\":\"````json`\"\x7d ``` ") (by decide)

/-- C9. When the trimmed provider text does not begin with three backticks, the
normalized text is the trimmed text unchanged, fence markers further in included; if it is
not valid JSON, the result is the unparsable-response fallback whose `text` is that
trimmed text. -/
theorem no_leading_fence_untouched (t : JSString) (h : startsWithFence (trim t) = false) :
    normalize (some t) = trim t ∧
      (JSON.parse (trim t) = none →
        ∀ (engine : Engine) (generateContent : Provider) (prompt : JSString),
        generateContent (request prompt) = .response (some t) →
        generateResult engine generateContent prompt =
          JSON.stringify (.obj [(utf16 "text", .str (trim t)), (utf16 "fileTree", .obj []),
            (utf16 "buildCommand", .obj []), (utf16 "startCommand", .obj [])])) := by
  have hn := normalize_of_not_fence t h
  refine ⟨hn, ?_⟩
  intro hp engine generateContent prompt hg
  rw [generateResult_of_unparsable engine generateContent prompt (some t) hg (by rw [hn]; exact hp),
    hn]
  rfl

theorem no_leading_fence_untouched_witness :
    hasFence (trim (utf16 "Here you go: ```json \x7b\"text\":\"hi\"\x7d ```")) = true ∧
    normalize (some (utf16 "Here you go: ```json \x7b\"text\":\"hi\"\x7d ```")) =
      utf16 "Here you go: ```json \x7b\"text\":\"hi\"\x7d ```" ∧
    generateResult (Engine.mk 4103)
        (fun _ => .response (some (utf16 "Here you go: ```json \x7b\"text\":\"hi\"\x7d ```"))) [] =
      utf16 ("\x7b\"text\":\"Here you go: ```json \x7b\\\"text\\\":\\\"hi\\\"\x7d ```\"," ++
        "\"fileTree\":\x7b\x7d,\"buildCommand\":\x7b\x7d,\"startCommand\":\x7b\x7d\x7d") :=
  have h := no_leading_fence_untouched
    (utf16 "Here you go: ```json \x7b\"text\":\"hi\"\x7d ```") (by decide)
  ⟨by decide, h.1.trans (by decide),
    (h.2 (by rfl) (Engine.mk 4103)
      (fun _ => .response (some (utf16 "Here you go: ```json \x7b\"text\":\"hi\"\x7d ```")))
      [] rfl).trans (by decide)⟩

/-- C10, as the claim states it, fails: the provider responded with 6000 nested arrays,
valid JSON that is not an object; on an engine whose `JSON.stringify` serializes 4108
levels the `RangeError` is caught, and the result is the failure envelope: an object with
a `text` field, not the serialization of the array. -/
theorem non_object_passthrough_counterexample :
    JSON.parse (normalize (some (nestedArrayText 6000))) = some (nestedArray 5999) ∧
      (nestedArray 5999).isObject = false ∧
      generateResult (Engine.mk 4103) (fun _ => .response (some (nestedArrayText 6000))) [] =
        utf16 ("\x7b\"text\":\"Something went wrong while generating AI response.\"," ++
          "\"fileTree\":\x7b\x7d,\"buildCommand\":\x7b\x7d,\"startCommand\":\x7b\x7d,\"error\":true\x7d") ∧
      generateResult (Engine.mk 4103) (fun _ => .response (some (nestedArrayText 6000))) [] ≠
        JSON.stringify (nestedArray 5999) ∧
      ∃ w, JSON.parse (generateResult (Engine.mk 4103)
          (fun _ => .response (some (nestedArrayText 6000))) []) = some w ∧
        w.isObject = true ∧ w.hasField (utf16 "text") = true := by
  have c1 : JSON.parse (normalize (some (nestedArrayText 6000))) = some (nestedArray 5999) :=
    (normalize_of_parse _ _ (parse_nestedArrayText 5999)).2
  have c2 : generateResult (Engine.mk 4103)
      (fun _ => .response (some (nestedArrayText 6000))) [] = JSON.stringify failureEnvelope := by
    apply generateResult_of_overflow (Engine.mk 4103) _ [] _ (nestedArray 5999) rfl c1
    rw [depth_nestedArray]
    decide
  refine ⟨c1, isObject_nestedArray 5999, c2.trans failureEnvelope_text, ?_, failureEnvelope,
    by rw [c2]; exact parse_failureEnvelope, rfl, by decide⟩
  rw [c2]
  obtain ⟨t, ht⟩ := stringify_nestedArray_head 5999
  rw [ht, failureEnvelope_text]
  intro h
  have h' := congrArg List.head? h
  rw [List.head?_cons] at h'
  revert h'
  decide

/-- C10, amended. When the provider responded and the normalized text is valid JSON but
not an object: if the value is nested no deeper than `JSON.stringify` serializes on the
engine, `generateResult` returns the serialization of that value itself, so the returned
JSON is not an object and has no `text` field; if it is nested deeper, the `RangeError` is
caught and the failure envelope is returned. -/
theorem non_object_passthrough (engine : Engine) (generateContent : Provider)
    (prompt : JSString) (text : Option JSString) (v : JSON)
    (h : generateContent (request prompt) = .response text)
    (hv : JSON.parse (normalize text) = some v) (hno : v.isObject = false) :
    (v.depth ≤ engine.maxNesting →
      generateResult engine generateContent prompt = JSON.stringify v ∧
        ∃ w, JSON.parse (generateResult engine generateContent prompt) = some w ∧
          w.isObject = false ∧ w.hasField (utf16 "text") = false) ∧
    (engine.maxNesting < v.depth →
      generateResult engine generateContent prompt =
        utf16 ("\x7b\"text\":\"Something went wrong while generating AI response.\"," ++
          "\"fileTree\":\x7b\x7d,\"buildCommand\":\x7b\x7d,\"startCommand\":\x7b\x7d,\"error\":true\x7d")) := by
  constructor
  · intro hd
    have hres := generateResult_of_parsed engine generateContent prompt text v h hv hd
    refine ⟨hres, v.reparse, by rw [hres, JSON_parse_stringify], ?_, hasField_reparse _ v hno⟩
    rw [isObject_reparse, hno]
  · intro hd
    rw [generateResult_of_overflow engine generateContent prompt text v h hv hd]
    exact failureEnvelope_text

theorem non_object_passthrough_witness :
    (generateResult (Engine.mk 4103) (fun _ => .response (some (utf16 "null"))) [] =
        utf16 "null" ∧
      ∃ w, JSON.parse (generateResult (Engine.mk 4103)
          (fun _ => .response (some (utf16 "null"))) []) = some w ∧
        w.isObject = false ∧ w.hasField (utf16 "text") = false) ∧
    (generateResult (Engine.mk 4103) (fun _ => .response (some (utf16 "42"))) [] = utf16 "42" ∧
      ∃ w, JSON.parse (generateResult (Engine.mk 4103)
          (fun _ => .response (some (utf16 "42"))) []) = some w ∧
        w.isObject = false ∧ w.hasField (utf16 "text") = false) :=
  have h1 := (non_object_passthrough (Engine.mk 4103) (fun _ => .response (some (utf16 "null")))
    [] (some (utf16 "null")) .null rfl (by rfl) rfl).1 (by decide)
  have h2 := (non_object_passthrough (Engine.mk 4103) (fun _ => .response (some (utf16 "42")))
    [] (some (utf16 "42")) (.num (.finite false 5910974510923776 (-47))) rfl (by rfl) rfl).1
    (by decide)
  ⟨⟨h1.1.trans (by decide), h1.2⟩, ⟨h2.1.trans (by decide), h2.2⟩⟩

end AiService
